import Mathlib

/-! ISKAALAMAN: schedule conflict checker, study sessions and persistence codec.

A shallow embedding of the C++ sources (`utils.cpp`, `scheduler_planner.cpp`,
`study_hub.cpp`, `file_handler.cpp`) and the properties proved about it.

Conventions of the embedding:

* a `std::string` is a list of characters (`Str`);
* the global vectors (`classSchedule`, `notebooks`, ...) are passed explicitly;
* sizes, indices and counters are mathematical numbers: the width of `int` and
  `size_t` is not modelled, the collections of this program being entered by
  hand;
* a `Card*` into `deck.cards` is the index of the card;
* console input is the list of lines typed by the user, console output is a
  list of events, one per message printed; a finite list of lines is the
  beginning of a session, and when it is used up the session waits at a
  prompt;
* a `std::set<std::string>` is the list of its elements in ascending order;
* `std::shuffle` and `std::sort` are parameters, constrained by what the C++
  standard promises of them (a permutation; a sorted permutation); where the order of tied elements
  matters, `std::sort` is the one of libstdc++ (`libstdcxxSort`);
* a file is its text, or `none` when it does not exist; a load returns the
  collection held after the call.
-/

namespace Iskaalaman

/-- A `std::string`. -/
abbrev Str := List Char

/-! ## utils.cpp : time utilities -/

/-- The characters matched by `\s` of `std::regex` (the `space` class of the C locale). -/
def isSpaceChar (c : Char) : Bool :=
  c = ' ' || c = '\t' || c = '\n' || c = '\x0b' || c = '\x0c' || c = '\r'

/-- A character of `[0-9]`. -/
def isDigitChar (c : Char) : Bool := decide ('0' ≤ c ∧ c ≤ '9')

/-- The hour group of the regex: `(0[1-9]|1[0-2])`. -/
def hourGroup (h1 h2 : Char) : Bool :=
  (h1 = '0' && decide ('1' ≤ h2 ∧ h2 ≤ '9')) || (h1 = '1' && decide ('0' ≤ h2 ∧ h2 ≤ '2'))

/-- The minute group of the regex: `([0-5][0-9])`. -/
def minuteGroup (m1 m2 : Char) : Bool :=
  decide ('0' ≤ m1 ∧ m1 ≤ '5') && isDigitChar m2

/-- The last group of the regex: `(AM|PM|am|pm)`, up to the end of the string. -/
def ampmGroup (s : Str) : Bool :=
  s = ['A', 'M'] || s = ['P', 'M'] || s = ['a', 'm'] || s = ['p', 'm']

/-- The tail `\s+(AM|PM|am|pm)$` of the regex: one whitespace character, then
any further whitespace, then the AM/PM group. -/
def spacesThenAmPm (s : Str) : Bool :=
  match s with
  | [] => false
  | c :: rest => isSpaceChar c && ampmGroup (rest.dropWhile isSpaceChar)

/-- Source `isValidTimeFormat`: `std::regex_match` of the whole string against
`^(0[1-9]|1[0-2]):([0-5][0-9])\s+(AM|PM|am|pm)$`. -/
def isValidTimeFormat (timeStr : Str) : Bool :=
  match timeStr with
  | h1 :: h2 :: ':' :: m1 :: m2 :: rest =>
      hourGroup h1 h2 && minuteGroup m1 m2 && spacesThenAmPm rest
  | _ => false

/-- Value of a decimal digit character. -/
def digitVal (c : Char) : Nat := c.toNat - 48

/-- Source `std::stoi` on a string of decimal digits. -/
def stoi (s : Str) : Int := ((s.foldl (fun acc c => acc * 10 + digitVal c) 0 : Nat) : Int)

/-- The text after the first `' '`, as in `timeStr.substr(timeStr.find(' ') + 1)`;
`none` when `find` returns `npos`. -/
def afterFirstSpace : Str → Option Str
  | [] => none
  | c :: cs => if c = ' ' then some cs else afterFirstSpace cs

/-- Source `std::transform(..., ::toupper)`. -/
def toUpperStr (s : Str) : Str := s.map Char.toUpper

/-- Source `std::transform(..., ::tolower)`. -/
def toLowerStr (s : Str) : Str := s.map Char.toLower

/-- Source `timeToMinutes`: minutes since midnight, or the sentinel `-1`. -/
def timeToMinutes (timeStr : Str) : Int :=
  if !isValidTimeFormat timeStr then -1
  else
    let hours := stoi ((timeStr.drop 0).take 2)
    let minutes := stoi ((timeStr.drop 3).take 2)
    match afterFirstSpace timeStr with
    | none => -1
    | some ampm =>
      let ampm_str := toUpperStr ampm
      if ampm_str = ['A', 'M'] then
        (if hours = 12 then 0 else hours) * 60 + minutes
      else if ampm_str = ['P', 'M'] then
        (if hours ≠ 12 then hours + 12 else hours) * 60 + minutes
      else -1

/-! ## scheduler_planner.cpp : class schedule -/

/-- The struct `ClassDetails`. -/
structure ClassDetails where
  subject : Str
  daysOfWeek : List Str
  startTime : Str
  endTime : Str
  venue : Str
  deriving DecidableEq, Repr

/-- The nested loops of `checkClassConflict` that set `commonDayFound`. -/
def commonDayFound (newDays existingDays : List Str) : Bool :=
  newDays.any (fun newDay => existingDays.any (fun existingDay => newDay = existingDay))

/-- The `for` loop of `checkClassConflict` from index `i` on; `rest` holds
`classSchedule[i..]`. -/
def conflictScan (newStartTimeMinutes newEndTimeMinutes : Int) (newDays : List Str)
    (editingClassIndex : Int) : Nat → List ClassDetails → Bool
  | _, [] => false
  | i, existingClass :: rest =>
    if (i : Int) = editingClassIndex then
      conflictScan newStartTimeMinutes newEndTimeMinutes newDays editingClassIndex (i + 1) rest
    else
      let existingStartTimeMinutes := timeToMinutes existingClass.startTime
      let existingEndTimeMinutes := timeToMinutes existingClass.endTime
      if existingStartTimeMinutes = -1 ∨ existingEndTimeMinutes = -1 then
        conflictScan newStartTimeMinutes newEndTimeMinutes newDays editingClassIndex (i + 1) rest
      else if commonDayFound newDays existingClass.daysOfWeek
          ∧ newStartTimeMinutes < existingEndTimeMinutes
          ∧ newEndTimeMinutes > existingStartTimeMinutes then
        true
      else
        conflictScan newStartTimeMinutes newEndTimeMinutes newDays editingClassIndex (i + 1) rest

/-- Source `checkClassConflict(classToValidate, editingClassIndex)` over the global
`classSchedule`. -/
def checkClassConflict (classSchedule : List ClassDetails) (classToValidate : ClassDetails)
    (editingClassIndex : Int) : Bool :=
  let newStartTimeMinutes := timeToMinutes classToValidate.startTime
  let newEndTimeMinutes := timeToMinutes classToValidate.endTime
  if newStartTimeMinutes = -1 ∨ newEndTimeMinutes = -1 then true
  else if newStartTimeMinutes ≥ newEndTimeMinutes then true
  else conflictScan newStartTimeMinutes newEndTimeMinutes classToValidate.daysOfWeek
    editingClassIndex 0 classSchedule

/-- The commit at the end of `addClass`: the class read from the console is
appended when `checkClassConflict(newClass, -1)` is false. -/
def addClass (classSchedule : List ClassDetails) (newClass : ClassDetails) : List ClassDetails :=
  if checkClassConflict classSchedule newClass (-1) then classSchedule
  else classSchedule ++ [newClass]

/-- The commit at the end of `editClass`: for a valid `classIndex` the edited
copy `tempClass` replaces the stored class when
`checkClassConflict(tempClass, classIndex)` is false. -/
def editClass (classSchedule : List ClassDetails) (classIndex : Nat) (tempClass : ClassDetails) :
    List ClassDetails :=
  if classIndex < classSchedule.length then
    if checkClassConflict classSchedule tempClass (classIndex : Int) then classSchedule
    else classSchedule.set classIndex tempClass
  else classSchedule

/-- The entry `x` of the schedule is one the scan reports against: its times
convert, it shares a day with the candidate and the intervals overlap. -/
def conflictsWith (newStart newEnd : Int) (newDays : List Str) (x : ClassDetails) : Prop :=
  timeToMinutes x.startTime ≠ -1 ∧ timeToMinutes x.endTime ≠ -1
    ∧ (∃ d, d ∈ newDays ∧ d ∈ x.daysOfWeek)
    ∧ newStart < timeToMinutes x.endTime ∧ newEnd > timeToMinutes x.startTime

/-- A commit to the schedule: the tail of `addClass` or of `editClass`. -/
inductive ScheduleCmd where
  | add (newClass : ClassDetails)
  | edit (classIndex : Nat) (tempClass : ClassDetails)

/-- One commit applied to the stored schedule. -/
def applyCmd (classSchedule : List ClassDetails) : ScheduleCmd → List ClassDetails
  | .add newClass => addClass classSchedule newClass
  | .edit classIndex tempClass => editClass classSchedule classIndex tempClass

/-- The schedule reached from the empty one by a sequence of commits. -/
def runSchedule (cmds : List ScheduleCmd) : List ClassDetails :=
  cmds.foldl applyCmd []

/-- Both times of the class convert to minutes and the start is strictly
before the end. -/
def validRange (x : ClassDetails) : Prop :=
  timeToMinutes x.startTime ≠ -1 ∧ timeToMinutes x.endTime ≠ -1
    ∧ timeToMinutes x.startTime < timeToMinutes x.endTime

/-- Two classes share a weekday while their `[start,end)` intervals overlap. -/
def overlapOnSharedDay (x y : ClassDetails) : Prop :=
  (∃ d, d ∈ x.daysOfWeek ∧ d ∈ y.daysOfWeek)
    ∧ timeToMinutes x.startTime < timeToMinutes y.endTime
    ∧ timeToMinutes y.startTime < timeToMinutes x.endTime

/-- The invariant of the stored schedule. -/
def scheduleInvariant (S : List ClassDetails) : Prop :=
  (∀ x ∈ S, validRange x)
    ∧ ∀ (i j : Nat) (x y : ClassDetails), i ≠ j → S[i]? = some x → S[j]? = some y →
        ¬ overlapOnSharedDay x y

/-! ## study_hub.cpp : flashcard study sessions -/

/-- The struct `Card`. -/
structure Card where
  type : Str
  question : Str
  answer : Str
  options : List Str
  deriving DecidableEq, Repr

/-- The struct `Deck`. -/
structure Deck where
  subject : Str
  title : Str
  timestamp : Str
  cards : List Card
  deriving DecidableEq, Repr

/-- What the answer prompt makes of a line, after `::tolower`. -/
inductive Response where
  | quit
  | yes
  | no
  | invalid
  deriving DecidableEq, Repr

/-- The chain of comparisons on `user_response_str` in both study modes. -/
def parseResponse (user_response_str : Str) : Response :=
  let s := toLowerStr user_response_str
  if s = "quit".toList ∨ s = "q".toList then .quit
  else if s = "y".toList ∨ s = "yes".toList then .yes
  else if s = "n".toList ∨ s = "no".toList then .no
  else .invalid

/-- The messages `_run_normal_mode` prints, one event per message. -/
inductive NormalEvent where
  /-- Message "This deck is empty. Nothing to study in Normal Mode." -/
  | emptyDeck
  /-- Message "Normal Mode: Reviewing n cards. ..." -/
  | reviewing (n : Nat)
  /-- The card banner with the front of the card (a presentation). -/
  | front (card : Nat)
  /-- Message "Back: ..." after the flip. -/
  | back (card : Nat)
  /-- Message "Session ended." -/
  | sessionEnded
  /-- Message "Correct! r cards remaining in this round." -/
  | correct (remaining : Nat)
  /-- Message "Incorrect. This card will be shown again. p cards in the current review pile." -/
  | incorrect (pile : Nat)
  /-- Message "Invalid input. Please type 'y', 'n', or 'quit'." -/
  | invalidInput
  /-- Message "Congratulations! You've correctly answered all k cards in this session!" -/
  | congratulations (known_count : Nat)
  deriving DecidableEq, Repr

/-- The `get_string_input` call at which `_run_normal_mode` waits for a line,
or `returned` once the function has returned. -/
inductive NormalPrompt where
  /-- Prompt "Press Enter to return..." of the empty deck. -/
  | emptyReturn
  /-- Prompt "Press Enter to start..." -/
  | start
  /-- Prompt "Press Enter to flip..." -/
  | flip
  /-- Prompt "Did you get it right? (y/n/quit): " -/
  | answer
  /-- Prompt "Press Enter for next card..." -/
  | nextCard
  /-- Prompt "Press Enter to return to the study menu..." -/
  | finalReturn
  | returned
  deriving DecidableEq, Repr

/-- The state of `_run_normal_mode` while it waits for a line. -/
structure NormalState where
  pc : NormalPrompt
  active_cards : List Nat
  known_count : Nat
  output : List NormalEvent
  linesRead : Nat
  deriving DecidableEq, Repr

/-- The test of `while (!active_cards.empty())`: the front card is displayed,
or the loop is left and the congratulation is printed. -/
def normalWhile (s : NormalState) : NormalState :=
  match s.active_cards with
  | [] => { s with output := s.output ++ [.congratulations s.known_count], pc := .finalReturn }
  | current_card_ptr :: _ => { s with output := s.output ++ [.front current_card_ptr], pc := .flip }

/-- The end of the loop body: `if (!active_cards.empty())` the pause prompt,
then the loop test. -/
def normalAfterAnswer (s : NormalState) : NormalState :=
  if s.active_cards ≠ [] then { s with pc := .nextCard } else normalWhile s

/-- The state of `_run_normal_mode` at its first prompt. -/
def normalInit (deck : Deck) : NormalState :=
  if deck.cards.isEmpty then
    { pc := .emptyReturn, active_cards := [], known_count := 0, output := [.emptyDeck],
      linesRead := 0 }
  else
    { pc := .start, active_cards := List.range deck.cards.length, known_count := 0,
      output := [.reviewing deck.cards.length], linesRead := 0 }

/-- The session reads one line at the prompt it waits at and runs to its next
prompt. After the return no line is read. -/
def normalStep (s : NormalState) (line : Str) : NormalState :=
  match s.pc with
  | .returned => s
  | .emptyReturn => { s with pc := .returned, linesRead := s.linesRead + 1 }
  | .start => normalWhile { s with linesRead := s.linesRead + 1 }
  | .flip =>
    match s.active_cards with
    | [] => s -- not reached: the loop body runs on a non-empty queue
    | current_card_ptr :: _ =>
      { s with output := s.output ++ [.back current_card_ptr], pc := .answer,
               linesRead := s.linesRead + 1 }
  | .answer =>
    match s.active_cards with
    | [] => s -- not reached: the loop body runs on a non-empty queue
    | current_card_ptr :: rest =>
      match parseResponse line with
      | .quit =>
        { s with output := s.output ++ [.sessionEnded], pc := .returned,
                 linesRead := s.linesRead + 1 }
      | .yes =>
        normalAfterAnswer
          { s with active_cards := rest, known_count := s.known_count + 1,
                   output := s.output ++ [.correct rest.length],
                   linesRead := s.linesRead + 1 }
      | .no =>
        normalAfterAnswer
          { s with active_cards := rest ++ [current_card_ptr],
                   output := s.output ++ [.incorrect (rest ++ [current_card_ptr]).length],
                   linesRead := s.linesRead + 1 }
      | .invalid =>
        { s with output := s.output ++ [.invalidInput], linesRead := s.linesRead + 1 }
  | .nextCard => normalWhile { s with linesRead := s.linesRead + 1 }
  | .finalReturn => { s with pc := .returned, linesRead := s.linesRead + 1 }

/-- Source `_run_normal_mode(deck)` on the lines typed by the user. -/
def _run_normal_mode (deck : Deck) (input : List Str) : NormalState :=
  input.foldl normalStep (normalInit deck)

/-- The cards presented, in order: the `front` events of the output. -/
def presentedCards : List NormalEvent → List Nat
  | [] => []
  | .front c :: rest => c :: presentedCards rest
  | _ :: rest => presentedCards rest

/-- The number of answers marked incorrect: the `incorrect` events. -/
def incorrectAnswers : List NormalEvent → Nat
  | [] => 0
  | .incorrect _ :: rest => incorrectAnswers rest + 1
  | _ :: rest => incorrectAnswers rest

/-- The loop invariant of `_run_normal_mode` on a deck of `n` cards, with the
bookkeeping of the output: every card is either known or queued; until a quit
each presentation is answered correct, answered incorrect or still on screen;
the congratulation is printed only with an empty queue, and never together
with "Session ended.". -/
def normalInvariant (n : Nat) (s : NormalState) : Prop :=
  s.known_count + s.active_cards.length = n
    ∧ (NormalEvent.sessionEnded ∉ s.output →
        (presentedCards s.output).length
          = s.known_count + incorrectAnswers s.output
            + (if s.pc = .flip ∨ s.pc = .answer then 1 else 0))
    ∧ (∀ k, NormalEvent.congratulations k ∈ s.output →
        k = s.known_count ∧ s.active_cards = [] ∧ (s.pc = .finalReturn ∨ s.pc = .returned))
    ∧ (NormalEvent.sessionEnded ∈ s.output →
        s.pc = .returned ∧ ∀ k, NormalEvent.congratulations k ∉ s.output)

/-- At the flip and answer prompts a card is on screen: the queue is not
empty. -/
def normalReading (s : NormalState) : Prop :=
  (s.pc = .flip ∨ s.pc = .answer) → s.active_cards ≠ []

/-- The messages `_run_cram_mode` prints, one event per message. -/
inductive CramEvent where
  /-- Message "This deck is empty. Nothing to study in Cram Mode." -/
  | emptyDeck
  /-- Message "Cram Mode: Go through all cards. ..." -/
  | banner
  /-- Message "--- Starting new round with n card(s) ---" -/
  | roundStart (n : Nat)
  /-- The card banner with the front of the card (a presentation). -/
  | front (card : Nat)
  /-- Message "Back: ..." after the flip. -/
  | back (card : Nat)
  /-- Message "Session ended." -/
  | sessionEnded
  /-- Message "Correct!" -/
  | correct
  /-- Message "Incorrect. This card will appear in the next round if any." -/
  | incorrect
  /-- Message "Invalid input. Please type 'y', 'n', or 'quit'." -/
  | invalidInput
  /-- Message "--- Round Complete ---" and "n card(s) to review again." -/
  | roundComplete (n : Nat)
  /-- Message "Congratulations! You've correctly answered all cards in Cram Mode!" -/
  | congratulations
  deriving DecidableEq, Repr

/-- The `get_string_input` calls of `_run_cram_mode`. -/
inductive CramPrompt where
  /-- Prompt "Press Enter to return..." of the empty deck. -/
  | emptyReturn
  /-- Prompt "Press Enter to start..." -/
  | start
  /-- Prompt "Press Enter to flip..." -/
  | flip
  /-- Prompt "Correct? (y/n/quit): " -/
  | answer
  /-- Prompt "Press Enter for next card..." -/
  | nextCard
  /-- Prompt "Press Enter to continue to next round, or type 'quit' to end: " -/
  | continueRound
  /-- Prompt "Press Enter to return to the study menu..." -/
  | finalReturn
  deriving DecidableEq, Repr

/-- The inner `while(true)` of the answer prompt: lines are read until one is
an answer; `answer = none` when the input ends at the prompt. -/
structure AnswerResult where
  output : List CramEvent
  answer : Option Response
  unread : List Str
  deriving DecidableEq, Repr

/-- The inner `while(true)` of the answer prompt of cram mode. -/
def readAnswer : List Str → AnswerResult
  | [] => ⟨[], none, []⟩
  | line :: rest =>
    match parseResponse line with
    | .invalid =>
      let r := readAnswer rest
      ⟨.invalidInput :: r.output, r.answer, r.unread⟩
    | a => ⟨[], some a, rest⟩

/-- How the `for` loop of a round is left. -/
inductive RoundEnd where
  /-- The loop ran through; `next_round_cards` is handed on. -/
  | finished (next_round_cards : List Nat)
  /-- A quit answer: `_run_cram_mode` returns. -/
  | quit
  /-- The input ended while the round waited at a prompt. -/
  | awaiting (p : CramPrompt)
  deriving DecidableEq, Repr

/-- Output, ending and unread input of one round. -/
structure RoundResult where
  output : List CramEvent
  ending : RoundEnd
  unread : List Str
  deriving DecidableEq, Repr

/-- The result with more output in front. -/
def RoundResult.after (pre : List CramEvent) (r : RoundResult) : RoundResult :=
  ⟨pre ++ r.output, r.ending, r.unread⟩

/-- The pause "Press Enter for next card..." at the end of the loop body: it
is read whenever `i < current_round_cards.size() - 1`, that is when cards
remain in the round. The result is the input left, `none` when the input ends
at the pause. -/
def pauseBeforeNext (remaining : List Nat) (input : List Str) : Option (List Str) :=
  match remaining, input with
  | [], input => some input
  | _ :: _, [] => none
  | _ :: _, _ :: rest => some rest

/-- The `for` loop over `current_round_cards` (already shuffled) from the
card at the head of the first argument on; the second argument is
`next_round_cards` so far. -/
def cramRound : List Nat → List Nat → List Str → RoundResult
  | [], next_round_cards, input => ⟨[], .finished next_round_cards, input⟩
  | current_card_ptr :: _, _, [] => ⟨[.front current_card_ptr], .awaiting .flip, []⟩
  | current_card_ptr :: remaining, next_round_cards, _ :: input1 =>
    let a := readAnswer input1
    let shown := CramEvent.front current_card_ptr :: CramEvent.back current_card_ptr :: a.output
    match a.answer with
    | some .quit => ⟨shown ++ [.sessionEnded], .quit, a.unread⟩
    | some .yes =>
      match pauseBeforeNext remaining a.unread with
      | none => ⟨shown ++ [.correct], .awaiting .nextCard, []⟩
      | some input2 =>
        (cramRound remaining next_round_cards input2).after (shown ++ [.correct])
    | some .no =>
      match pauseBeforeNext remaining a.unread with
      | none => ⟨shown ++ [.incorrect], .awaiting .nextCard, []⟩
      | some input2 =>
        (cramRound remaining (next_round_cards ++ [current_card_ptr]) input2).after
          (shown ++ [.incorrect])
    -- the input ended at the answer prompt (`readAnswer` yields no `invalid`)
    | _ => ⟨shown, .awaiting .answer, []⟩

/-- How `_run_cram_mode` stands when the typed lines are used up, or how it
returned. -/
inductive CramEnd where
  /-- The input ended while the session waited at a prompt. -/
  | awaiting (p : CramPrompt)
  /-- Returned after "Session ended.". -/
  | quit
  /-- Returned after the congratulation and the last Enter. -/
  | completed
  /-- Returned from the empty-deck branch. -/
  | returnedEmpty
  /-- The recursion bound of the embedding was reached (never, see
  `_run_cram_mode`). -/
  | outOfFuel
  deriving DecidableEq, Repr

/-- Output, ending and unread input of a cram session. -/
structure CramResult where
  output : List CramEvent
  ending : CramEnd
  unread : List Str
  deriving DecidableEq, Repr

/-- The result with more output in front. -/
def CramResult.after (pre : List CramEvent) (r : CramResult) : CramResult :=
  ⟨pre ++ r.output, r.ending, r.unread⟩

/-- The response test of the continue prompt: `"quit"` or `"q"` after `::tolower`. -/
def isQuit (line : Str) : Bool :=
  toLowerStr line = "quit".toList || toLowerStr line = "q".toList

/-- The code after the `while` loop: the congratulation and a last Enter. -/
def cramFinish (input : List Str) : CramResult :=
  match input with
  | [] => ⟨[.congratulations], .awaiting .finalReturn, []⟩
  | _ :: rest => ⟨[.congratulations], .completed, rest⟩

/-- The loop `while (!current_round_cards.empty())` at round number `round`.
`shuffle round cards` is the order `std::shuffle` leaves in that round. The
first argument bounds the number of rounds. -/
def cramLoop (shuffle : Nat → List Nat → List Nat) :
    Nat → Nat → List Nat → List Str → CramResult
  | _, _, [], input => cramFinish input
  | 0, _, _ :: _, input => ⟨[], .outOfFuel, input⟩
  | fuel + 1, round, c :: cs, input =>
    let r := cramRound (shuffle round (c :: cs)) [] input
    let shown := CramEvent.roundStart (c :: cs).length :: r.output
    match r.ending with
    | .quit => ⟨shown, .quit, r.unread⟩
    | .awaiting p => ⟨shown, .awaiting p, []⟩
    | .finished [] => (cramLoop shuffle fuel (round + 1) [] r.unread).after shown
    | .finished (n :: ns) =>
      match r.unread with
      | [] => ⟨shown ++ [.roundComplete (n :: ns).length], .awaiting .continueRound, []⟩
      | continue_choice :: rest =>
        if isQuit continue_choice then
          ⟨shown ++ [.roundComplete (n :: ns).length, .sessionEnded], .quit, rest⟩
        else
          (cramLoop shuffle fuel (round + 1) (n :: ns) rest).after
            (shown ++ [.roundComplete (n :: ns).length])

/-- Source `_run_cram_mode(deck)` on the lines typed by the user. A round that is
played through reads at least two lines, so the bound `input.length` on the
number of rounds is never reached. -/
def _run_cram_mode (shuffle : Nat → List Nat → List Nat) (deck : Deck) (input : List Str) :
    CramResult :=
  if deck.cards.isEmpty then
    match input with
    | [] => ⟨[.emptyDeck], .awaiting .emptyReturn, []⟩
    | _ :: rest => ⟨[.emptyDeck], .returnedEmpty, rest⟩
  else
    match input with
    | [] => ⟨[.banner], .awaiting .start, []⟩
    | _ :: rest =>
      (cramLoop shuffle input.length 0 (List.range deck.cards.length) rest).after [.banner]

/-- The cards presented, in order: the `front` events of a cram output. -/
def cramPresented : List CramEvent → List Nat
  | [] => []
  | .front c :: rest => c :: cramPresented rest
  | _ :: rest => cramPresented rest

/-- The cards answered incorrect, in order: for every "Incorrect." message the
card on screen, `current` being the card on screen at the start. -/
def missedCards (current : Option Nat) : List CramEvent → List Nat
  | [] => []
  | .front c :: rest => missedCards (some c) rest
  | .incorrect :: rest => current.toList ++ missedCards current rest
  | _ :: rest => missedCards current rest

/-- A deck of three identification cards. -/
def sampleDeck3 : Deck :=
  ⟨"Bio".toList, "Cells".toList, "ts".toList,
    [⟨"identification".toList, "q1".toList, "a1".toList, []⟩,
     ⟨"identification".toList, "q2".toList, "a2".toList, []⟩,
     ⟨"identification".toList, "q3".toList, "a3".toList, []⟩]⟩

/-! ## file_handler.cpp : persistence

A file is its text (`Str`). A load takes the text of the file, `none` when
the file cannot be opened, and the collection held before the call. The
stream operations return `none` when they set `failbit`. -/

/-- The struct `Note`. -/
structure Note where
  topic_title : Str
  content : Str
  timestamp : Str
  deriving DecidableEq, Repr

/-- The struct `Notebook`. -/
structure Notebook where
  subject : Str
  notes : List Note
  deriving DecidableEq, Repr

/-- Source `NOTE_CONTENT_START_DELIMITER`. -/
def NOTE_CONTENT_START_DELIMITER : Str := "---CONTENT_START---".toList

/-- Source `NOTE_CONTENT_END_DELIMITER`. -/
def NOTE_CONTENT_END_DELIMITER : Str := "---CONTENT_END---".toList

/-- The character of a decimal digit. -/
def digitChar (d : Nat) : Char := Char.ofNat (48 + d)

/-- Decimal digits of `n` in front of `acc`, most significant first; the
first argument bounds the number of digits. -/
def showNatAux : Nat → Nat → Str → Str
  | 0, _, acc => acc
  | fuel + 1, n, acc =>
    if n < 10 then digitChar n :: acc
    else showNatAux fuel (n / 10) (digitChar (n % 10) :: acc)

/-- Source `operator<<` on a size: the decimal digits of `n`. -/
def showNat (n : Nat) : Str := showNatAux (n + 1) n []

/-- The value of a string of decimal digits. -/
def digitsToNat (ds : Str) : Nat := ds.foldl (fun acc c => acc * 10 + digitVal c) 0

/-- The character is not the line delimiter. -/
def notNewline (c : Char) : Bool := c != '\n'

/-- Source `std::getline(infile, line)`: the text up to the next newline, which is
consumed, or up to the end of the input. It fails when no input is left. -/
def getline (input : Str) : Option (Str × Str) :=
  match input with
  | [] => none
  | _ => some (input.takeWhile notNewline, (input.dropWhile notNewline).drop 1)

/-- Source `infile.ignore(max, '\n')`: the input after the next newline. -/
def ignoreLine (input : Str) : Str :=
  (input.dropWhile notNewline).drop 1

/-- The optional sign in front of a number: whether it is a minus, and the
input after it. -/
def splitSign : Str → Bool × Str
  | '-' :: r => (true, r)
  | '+' :: r => (false, r)
  | s => (false, s)

/-- The scan of `operator>>` for an integer: leading whitespace is skipped, an
optional sign and the decimal digits are read. The result is the sign, the
magnitude and the input left; it fails when there is no digit. -/
def extractNumber (input : Str) : Option (Bool × Nat × Str) :=
  let signed := splitSign (input.dropWhile isSpaceChar)
  let ds := signed.2.takeWhile isDigitChar
  if ds = [] then none
  else some (signed.1, digitsToNat ds, signed.2.dropWhile isDigitChar)

/-- Source `infile >> n` for a `size_t`: a minus sign negates modulo `2^64`,
as the library does. A digit string beyond the range of the type, which the
stream rejects, is read as its value: it does not occur for a size written by
a save. -/
def extractSizeT (input : Str) : Option (Nat × Str) :=
  match extractNumber input with
  | none => none
  | some (negative, v, rest) =>
    some (if negative then (2 ^ 64 - v % 2 ^ 64) % 2 ^ 64 else v, rest)

/-- Source `infile >> n; infile.ignore(max, '\n'); if (infile.fail() || n < 0)` for
an `int` count: the count and the input after the line. After digits that run
to the end of the input the stream is at end of file and `ignore` sets
`failbit`; a negative count is refused. A digit string beyond the range of the
type is read as its value, as for `extractSizeT`. -/
def readCountLine (input : Str) : Option (Nat × Str) :=
  match extractNumber input with
  | none => none
  | some (negative, v, rest) =>
    if rest = [] then none
    else if negative ∧ v ≠ 0 then none
    else some (v, ignoreLine rest)

/-- The text `saveClassScheduleToFile` writes for one class. -/
def saveClassDetails (cls : ClassDetails) : Str :=
  cls.subject ++ ['\n'] ++ cls.startTime ++ ['\n'] ++ cls.endTime ++ ['\n'] ++ cls.venue
    ++ ['\n'] ++ showNat cls.daysOfWeek.length ++ ['\n']
    ++ (cls.daysOfWeek.map (fun day => day ++ ['\n'])).flatten

/-- Source `saveClassScheduleToFile`: the text written to the schedule file (when it
can be opened for writing). -/
def saveClassScheduleToFile (classSchedule : List ClassDetails) : Str :=
  showNat classSchedule.length ++ ['\n'] ++ (classSchedule.map saveClassDetails).flatten

/-- The loop over `j < numDays` of `loadClassScheduleFromFile`. -/
def readDays : Nat → Str → Option (List Str × Str)
  | 0, input => some ([], input)
  | numDays + 1, input =>
    match getline input with
    | none => none
    | some (day, rest) =>
      match readDays numDays rest with
      | none => none
      | some (days, rest') => some (day :: days, rest')

/-- The body of the loop over `i < numClasses`: one class is read. -/
def readClass (input : Str) : Option (ClassDetails × Str) :=
  match getline input with
  | none => none
  | some (subject, r1) =>
    match getline r1 with
    | none => none
    | some (startTime, r2) =>
      match getline r2 with
      | none => none
      | some (endTime, r3) =>
        match getline r3 with
        | none => none
        | some (venue, r4) =>
          match extractSizeT r4 with
          | none => none
          | some (numDays, r5) =>
            match readDays numDays (ignoreLine r5) with
            | none => none
            | some (daysOfWeek, r6) => some (⟨subject, daysOfWeek, startTime, endTime, venue⟩, r6)

/-- The loop over `i < numClasses` of `loadClassScheduleFromFile`. -/
def readClasses : Nat → Str → Option (List ClassDetails × Str)
  | 0, input => some ([], input)
  | numClasses + 1, input =>
    match readClass input with
    | none => none
    | some (currentClass, rest) =>
      match readClasses numClasses rest with
      | none => none
      | some (classes, rest') => some (currentClass :: classes, rest')

/-- Source `loadClassScheduleFromFile`: the schedule held after the call. A missing
file leaves the schedule as it was; any failure clears it. -/
def loadClassScheduleFromFile (file : Option Str) (classSchedule : List ClassDetails) :
    List ClassDetails :=
  match file with
  | none => classSchedule
  | some text =>
    match extractSizeT text with
    | none => []
    | some (numClasses, rest) =>
      match readClasses numClasses (ignoreLine rest) with
      | none => []
      | some (classes, _) => classes

/-- The text `save_notebooks_to_file` writes for one note. -/
def saveNote (note : Note) : Str :=
  note.topic_title ++ ['\n'] ++ note.timestamp ++ ['\n'] ++ NOTE_CONTENT_START_DELIMITER
    ++ ['\n'] ++ note.content ++ ['\n'] ++ NOTE_CONTENT_END_DELIMITER ++ ['\n']

/-- The text `save_notebooks_to_file` writes for one notebook. -/
def saveNotebook (notebook : Notebook) : Str :=
  notebook.subject ++ ['\n'] ++ showNat notebook.notes.length ++ ['\n']
    ++ (notebook.notes.map saveNote).flatten

/-- Source `save_notebooks_to_file`: the text written to the notebooks file (when it
can be opened for writing). -/
def save_notebooks_to_file (notebooks : List Notebook) : Str :=
  showNat notebooks.length ++ ['\n'] ++ (notebooks.map saveNotebook).flatten

/-- The loop `while (std::getline(infile, line))` over the content lines: the
content gathered when the end delimiter is met, and the input after it. It
fails when the input ends first. The first argument bounds the number of
lines. -/
def readContentLines : Nat → Str → Str → Option (Str × Str)
  | 0, _, _ => none
  | fuel + 1, input, content =>
    match getline input with
    | none => none
    | some (line, rest) =>
      if line = NOTE_CONTENT_END_DELIMITER then some (content, rest)
      else readContentLines fuel rest (content ++ line ++ ['\n'])

/-- The `pop_back` after the content loop: a trailing newline of a non-empty
content is removed. -/
def popTrailingNewline (content : Str) : Str :=
  if content ≠ [] ∧ content.getLast? = some '\n' then content.dropLast else content

/-- The body of the loop over `j < num_notes`: one note is read. Every line
read takes at least one character, so `input.length + 1` lines are never
exceeded. -/
def readNote (input : Str) : Option (Note × Str) :=
  match getline input with
  | none => none
  | some (topic_title, r1) =>
    match getline r1 with
    | none => none
    | some (timestamp, r2) =>
      match getline r2 with
      | none => none
      | some (delimiter_check, r3) =>
        if delimiter_check ≠ NOTE_CONTENT_START_DELIMITER then none
        else
          match readContentLines (r3.length + 1) r3 [] with
          | none => none
          | some (content, r4) => some (⟨topic_title, popTrailingNewline content, timestamp⟩, r4)

/-- The loop over `j < num_notes` of `load_notebooks_from_file`. -/
def readNotes : Nat → Str → Option (List Note × Str)
  | 0, input => some ([], input)
  | num_notes + 1, input =>
    match readNote input with
    | none => none
    | some (current_note, rest) =>
      match readNotes num_notes rest with
      | none => none
      | some (notes, rest') => some (current_note :: notes, rest')

/-- The body of the loop over `i < num_notebooks`: one notebook is read. -/
def readNotebook (input : Str) : Option (Notebook × Str) :=
  match getline input with
  | none => none
  | some (subject, r1) =>
    match readCountLine r1 with
    | none => none
    | some (num_notes, r2) =>
      match readNotes num_notes r2 with
      | none => none
      | some (notes, r3) => some (⟨subject, notes⟩, r3)

/-- The loop over `i < num_notebooks` of `load_notebooks_from_file`. -/
def readNotebooks : Nat → Str → Option (List Notebook × Str)
  | 0, input => some ([], input)
  | num_notebooks + 1, input =>
    match readNotebook input with
    | none => none
    | some (current_notebook, rest) =>
      match readNotebooks num_notebooks rest with
      | none => none
      | some (notebooks, rest') => some (current_notebook :: notebooks, rest')

/-- Source `load_notebooks_from_file`: the notebooks held after the call. A missing
file leaves them as they were; any failure clears them. -/
def load_notebooks_from_file (file : Option Str) (notebooks : List Notebook) : List Notebook :=
  match file with
  | none => notebooks
  | some text =>
    match readCountLine text with
    | none => []
    | some (num_notebooks, rest) =>
      match readNotebooks num_notebooks rest with
      | none => []
      | some (loaded, _) => loaded

/-- The lines of a text: the pieces between its newline characters. -/
def splitLines : Str → List Str
  | [] => [[]]
  | c :: cs =>
    if c = '\n' then [] :: splitLines cs
    else
      match splitLines cs with
      | [] => [[c]]
      | line :: lines => (c :: line) :: lines

/-- No string of the list contains a newline character. -/
def noNewline (s : Str) : Prop := '\n' ∉ s

/-- Three sample classes with two days each. -/
def sampleSchedule : List ClassDetails :=
  [⟨"Math".toList, ["Mon".toList, "Wed".toList], "09:00 AM".toList, "10:00 AM".toList,
      "R1".toList⟩,
   ⟨"Physics".toList, ["Fri".toList, "Mon".toList], "10:00 AM".toList, "11:30 AM".toList,
      "R2".toList⟩,
   ⟨"Art".toList, ["Thu".toList, "Tue".toList], "01:00 PM".toList, "02:00 PM".toList, []⟩]

/-- Sample notebooks: contents that are empty, multi-line, and ending with a
newline. -/
def sampleNotebooks : List Notebook :=
  [⟨"Bio".toList,
      [⟨"Cells".toList, "line one\nline two".toList, "10:00:00 2024-01-01".toList⟩,
       ⟨"Empty".toList, [], "ts".toList⟩,
       ⟨"Trailing".toList, "ends with newline\n".toList, "ts".toList⟩]⟩,
   ⟨"Chem".toList, []⟩]

/-- Sample class: Mondays and Wednesdays, 09:00 to 10:00. -/
def sampleMath : ClassDetails :=
  ⟨"Math".toList, ["Mon".toList, "Wed".toList], "09:00 AM".toList, "10:00 AM".toList,
    "R1".toList⟩

/-- Sample class: Mondays and Fridays, 10:00 to 11:30 (touches `sampleMath`). -/
def samplePhysics : ClassDetails :=
  ⟨"Physics".toList, ["Fri".toList, "Mon".toList], "10:00 AM".toList, "11:30 AM".toList,
    "R2".toList⟩

/-- Sample class: Tuesdays and Thursdays, 09:00 to 10:00. -/
def sampleArt : ClassDetails :=
  ⟨"Art".toList, ["Thu".toList, "Tue".toList], "09:00 AM".toList, "10:00 AM".toList,
    "R3".toList⟩

/-! ## file_handler.cpp : the tasks file -/

/-- The struct `TaskDetails`. -/
structure TaskDetails where
  name : Str
  subject : Str
  infos : Str
  deadlineDate : Str
  urgency : Int
  completed : Bool
  deriving DecidableEq, Repr

/-- Source `operator<<` on an `int`: a minus sign for a negative number, then
the decimal digits. -/
def showInt (n : Int) : Str :=
  if n < 0 then '-' :: showNat n.natAbs else showNat n.natAbs

/-- Source `operator<<` on a `bool` (no `boolalpha`): `1` or `0`. -/
def showBool (b : Bool) : Str := if b then ['1'] else ['0']

/-- Source `std::replace(tempInfos.begin(), tempInfos.end(), '\n', ' ')`. -/
def replaceNewlines (s : Str) : Str := s.map (fun c => if c = '\n' then ' ' else c)

/-- The text `saveTasksToFile` writes for one task. -/
def saveTask (task : TaskDetails) : Str :=
  task.name ++ ['\n'] ++ task.subject ++ ['\n'] ++ replaceNewlines task.infos ++ ['\n']
    ++ task.deadlineDate ++ ['\n'] ++ showInt task.urgency ++ ['\n']
    ++ showBool task.completed ++ ['\n']

/-- Source `saveTasksToFile`: the text written to the tasks file (when it can
be opened for writing). -/
def saveTasksToFile (tasks : List TaskDetails) : Str :=
  showNat tasks.length ++ ['\n'] ++ (tasks.map saveTask).flatten

/-- Source `infile >> n` for an `int`. -/
def extractInt (input : Str) : Option (Int × Str) :=
  match extractNumber input with
  | none => none
  | some (negative, v, rest) => some (if negative then -(v : Int) else (v : Int), rest)

/-- Source `infile >> b` for a `bool` (no `boolalpha`): the number read must
be 0 or 1. -/
def extractBool (input : Str) : Option (Bool × Str) :=
  match extractNumber input with
  | none => none
  | some (negative, v, rest) =>
    if v = 0 then some (false, rest)
    else if v = 1 ∧ negative = false then some (true, rest)
    else none

/-- The body of the loop over `i < numTasks`: one task is read. -/
def readTask (input : Str) : Option (TaskDetails × Str) :=
  match getline input with
  | none => none
  | some (name, r1) =>
    match getline r1 with
    | none => none
    | some (subject, r2) =>
      match getline r2 with
      | none => none
      | some (infos, r3) =>
        match getline r3 with
        | none => none
        | some (deadlineDate, r4) =>
          match extractInt r4 with
          | none => none
          | some (urgency, r5) =>
            match extractBool r5 with
            | none => none
            | some (completed, r6) =>
              some (⟨name, subject, infos, deadlineDate, urgency, completed⟩, ignoreLine r6)

/-- The loop over `i < numTasks` of `loadTasksFromFile`. -/
def readTasks : Nat → Str → Option (List TaskDetails × Str)
  | 0, input => some ([], input)
  | numTasks + 1, input =>
    match readTask input with
    | none => none
    | some (currentTask, rest) =>
      match readTasks numTasks rest with
      | none => none
      | some (tasks, rest') => some (currentTask :: tasks, rest')

/-- Source `loadTasksFromFile`: the tasks held after the call. A missing file
leaves the tasks as they were; any failure clears them. -/
def loadTasksFromFile (file : Option Str) (tasks : List TaskDetails) : List TaskDetails :=
  match file with
  | none => tasks
  | some text =>
    match extractSizeT text with
    | none => []
    | some (numTasks, rest) =>
      match readTasks numTasks (ignoreLine rest) with
      | none => []
      | some (loaded, _) => loaded

/-- The task as it is after a save and a load: the newlines of `infos` are
spaces. -/
def savedTask (task : TaskDetails) : TaskDetails :=
  { task with infos := replaceNewlines task.infos }

/-! ## file_handler.cpp : the flashcards file -/

/-- The card type that carries options. -/
def MULTIPLE_CHOICE : Str := "multiple_choice".toList

/-- The text `save_flashcards_to_file` writes for one card. -/
def saveCard (card : Card) : Str :=
  card.type ++ ['\n'] ++ card.question ++ ['\n'] ++ card.answer ++ ['\n']
    ++ (if card.type = MULTIPLE_CHOICE then
          showNat card.options.length ++ ['\n']
            ++ (card.options.map (fun option => option ++ ['\n'])).flatten
        else [])

/-- The text `save_flashcards_to_file` writes for one deck. -/
def saveDeck (deck : Deck) : Str :=
  deck.subject ++ ['\n'] ++ deck.title ++ ['\n'] ++ deck.timestamp ++ ['\n']
    ++ showNat deck.cards.length ++ ['\n'] ++ (deck.cards.map saveCard).flatten

/-- Source `save_flashcards_to_file`: the text written to the flashcards file
(when it can be opened for writing). -/
def save_flashcards_to_file (flashcard_decks : List Deck) : Str :=
  showNat flashcard_decks.length ++ ['\n'] ++ (flashcard_decks.map saveDeck).flatten

/-- The loop over `k < num_options` of `load_flashcards_from_file`. -/
def readOptions : Nat → Str → Option (List Str × Str)
  | 0, input => some ([], input)
  | num_options + 1, input =>
    match getline input with
    | none => none
    | some (option, rest) =>
      match readOptions num_options rest with
      | none => none
      | some (options, rest') => some (option :: options, rest')

/-- The body of the loop over `j < num_cards`: one card is read. -/
def readCard (input : Str) : Option (Card × Str) :=
  match getline input with
  | none => none
  | some (type, r1) =>
    match getline r1 with
    | none => none
    | some (question, r2) =>
      match getline r2 with
      | none => none
      | some (answer, r3) =>
        if type = MULTIPLE_CHOICE then
          match readCountLine r3 with
          | none => none
          | some (num_options, r4) =>
            match readOptions num_options r4 with
            | none => none
            | some (options, r5) => some (⟨type, question, answer, options⟩, r5)
        else some (⟨type, question, answer, []⟩, r3)

/-- The loop over `j < num_cards` of `load_flashcards_from_file`. -/
def readCards : Nat → Str → Option (List Card × Str)
  | 0, input => some ([], input)
  | num_cards + 1, input =>
    match readCard input with
    | none => none
    | some (current_card, rest) =>
      match readCards num_cards rest with
      | none => none
      | some (cards, rest') => some (current_card :: cards, rest')

/-- The body of the loop over `i < num_decks`: one deck is read. -/
def readDeck (input : Str) : Option (Deck × Str) :=
  match getline input with
  | none => none
  | some (subject, r1) =>
    match getline r1 with
    | none => none
    | some (title, r2) =>
      match getline r2 with
      | none => none
      | some (timestamp, r3) =>
        match readCountLine r3 with
        | none => none
        | some (num_cards, r4) =>
          match readCards num_cards r4 with
          | none => none
          | some (cards, r5) => some (⟨subject, title, timestamp, cards⟩, r5)

/-- The loop over `i < num_decks` of `load_flashcards_from_file`. -/
def readDecks : Nat → Str → Option (List Deck × Str)
  | 0, input => some ([], input)
  | num_decks + 1, input =>
    match readDeck input with
    | none => none
    | some (current_deck, rest) =>
      match readDecks num_decks rest with
      | none => none
      | some (decks, rest') => some (current_deck :: decks, rest')

/-- Source `load_flashcards_from_file`: the decks held after the call. A
missing file leaves them as they were; any failure clears them. -/
def load_flashcards_from_file (file : Option Str) (flashcard_decks : List Deck) : List Deck :=
  match file with
  | none => flashcard_decks
  | some text =>
    match readCountLine text with
    | none => []
    | some (num_decks, rest) =>
      match readDecks num_decks rest with
      | none => []
      | some (loaded, _) => loaded

/-- The card as it is after a save and a load: options are kept for a
`multiple_choice` card only. -/
def savedCard (card : Card) : Card :=
  if card.type = MULTIPLE_CHOICE then card else { card with options := [] }

/-- The deck as it is after a save and a load. -/
def savedDeck (deck : Deck) : Deck :=
  { deck with cards := deck.cards.map savedCard }

/-! ## utils.cpp : parseDaysOfWeek -/

/-- The character is not the delimiter `','`. -/
def notComma (c : Char) : Bool := c != ','

/-- Source `std::getline(ss, day_token, ',')`: the text up to the next comma,
which is consumed, or up to the end of the input. It fails when no input is
left. -/
def getlineComma (input : Str) : Option (Str × Str) :=
  match input with
  | [] => none
  | _ => some (input.takeWhile notComma, (input.dropWhile notComma).drop 1)

/-- The tokens read by the loop `while (std::getline(ss, day_token, ','))`;
the first argument bounds the number of rounds. -/
def commaTokensAux : Nat → Str → List Str
  | 0, _ => []
  | fuel + 1, input =>
    match getlineComma input with
    | none => []
    | some (day_token, rest) => day_token :: commaTokensAux fuel rest

/-- The tokens read by the loop `while (std::getline(ss, day_token, ','))`.
Every round consumes a character, so the length of the input bounds the
number of rounds. -/
def commaTokens (daysInput : Str) : List Str := commaTokensAux daysInput.length daysInput

/-- The characters of `" \t\n\r\f\v"`. -/
def trimChars : Str := [' ', '\t', '\n', '\r', '\x0c', '\x0b']

/-- The two `erase` calls on `day_token`: the characters of `trimChars` are
removed from its start and from its end. -/
def trimToken (day_token : Str) : Str :=
  let trimmed := day_token.dropWhile (fun c => decide (c ∈ trimChars))
  (trimmed.reverse.dropWhile (fun c => decide (c ∈ trimChars))).reverse

/-- The table `dayStandardizationMap`. -/
def dayStandardizationMap : List (Str × Str) :=
  [("M".toList, "Mon".toList), ("MON".toList, "Mon".toList), ("MONDAY".toList, "Mon".toList),
   ("T".toList, "Tue".toList), ("TUE".toList, "Tue".toList), ("TUESDAY".toList, "Tue".toList),
   ("W".toList, "Wed".toList), ("WED".toList, "Wed".toList), ("WEDNESDAY".toList, "Wed".toList),
   ("TH".toList, "Thu".toList), ("THU".toList, "Thu".toList), ("THURSDAY".toList, "Thu".toList),
   ("F".toList, "Fri".toList), ("FRI".toList, "Fri".toList), ("FRIDAY".toList, "Fri".toList),
   ("SAT".toList, "Sat".toList), ("SATURDAY".toList, "Sat".toList),
   ("SUN".toList, "Sun".toList), ("SUNDAY".toList, "Sun".toList)]

/-- Source `dayStandardizationMap.find(upper_day_token)`: the value stored
under the key, if there is one. -/
def mapFind (key : Str) : List (Str × Str) → Option Str
  | [] => none
  | pair :: rest => if pair.1 = key then some pair.2 else mapFind key rest

/-- Source `unique_days_set.insert(day)` on a `std::set<std::string>`, held as
its elements in ascending order: a new element goes to its place in the order,
an element already present changes nothing. -/
def setInsert (day : Str) : List Str → List Str
  | [] => [day]
  | x :: rest =>
    if day < x then day :: x :: rest
    else if day = x then x :: rest
    else x :: setInsert day rest

/-- The body of the loop of `parseDaysOfWeek` for one token, on the pair
`(unique_days_set, allValid)`. -/
def dayTokenStep (state : List Str × Bool) (raw_token : Str) : List Str × Bool :=
  let day_token := trimToken raw_token
  let upper_day_token := toUpperStr day_token
  match mapFind upper_day_token dayStandardizationMap with
  | some canonical => (setInsert canonical state.1, state.2)
  | none =>
    let foundDirectShort := dayStandardizationMap.any (fun pair => decide (pair.2 = day_token))
    if foundDirectShort then (setInsert day_token state.1, state.2)
    else (state.1, false)

/-- Source `parseDaysOfWeek`: the returned flag and the list `daysOfWeek` after
the call. The list held before the call is cleared first. -/
def parseDaysOfWeek (daysInput : Str) (_daysOfWeek : List Str) : Bool × List Str :=
  let state := (commaTokens daysInput).foldl dayTokenStep ([], true)
  let unique_days_set := state.1
  let allValid := state.2
  if unique_days_set = [] ∧ daysInput ≠ [] ∧ allValid = false then (false, [])
  else if allValid = false then (false, [])
  else (true, unique_days_set)

/-! ## Time strings of the form `HH:MM AM/PM` -/

/-- The two decimal digits of a number below 100, as `09` for 9. -/
def twoDigits (n : Nat) : Str := [digitChar (n / 10), digitChar (n % 10)]

/-- The string `HH:MM`, one space, then the AM/PM token. -/
def timeString (hh mm : Nat) (ampm : Str) : Str :=
  twoDigits hh ++ [':'] ++ twoDigits mm ++ [' '] ++ ampm

/-- The tokens `AM` and `PM` in upper and in lower case. -/
def ampmTokens : List Str := [['A', 'M'], ['P', 'M'], ['a', 'm'], ['p', 'm']]

/-- The token is `PM` or `pm`. -/
def isPm (ampm : Str) : Bool := ampm = ['P', 'M'] || ampm = ['p', 'm']

/-- The hour of the day of a 12-hour clock reading: hour 12 is 0 before noon
and 12 after it, the other hours are `hh` before noon and `hh + 12` after it. -/
def clockHour (hh : Nat) (pm : Bool) : Nat :=
  if pm then (if hh = 12 then 12 else hh + 12) else (if hh = 12 then 0 else hh)

/-- The place of an hour within its half-day: hour 12 comes first, then the
hours 1 to 11. -/
def halfDayRank (hh : Nat) : Nat := if hh = 12 then 0 else hh

/-- Wall-clock order of two 12-hour clock readings: every AM time is before
every PM time; within a half-day the order is by the place of the hour, then
by the minute. -/
def earlierTime (ha ma : Nat) (pa : Bool) (hb mb : Nat) (pb : Bool) : Prop :=
  (pa = false ∧ pb = true)
    ∨ (pa = pb ∧ (halfDayRank ha < halfDayRank hb
        ∨ (halfDayRank ha = halfDayRank hb ∧ ma < mb)))

/-- Sample tasks; the second has a two-line `infos`. -/
def sampleTasks : List TaskDetails :=
  [⟨"Essay".toList, "Art".toList, "No info available".toList, "2024-05-01".toList, 1, false⟩,
   ⟨"Lab".toList, "Bio".toList, "bring\ngoggles".toList, "2024-04-30".toList, 3, true⟩]

/-- Sample decks: a multiple-choice card with options and two cards without. -/
def sampleDecks : List Deck :=
  [⟨"Bio".toList, "Cells".toList, "ts".toList,
      [⟨"multiple_choice".toList, "q1".toList, "b".toList, ["a".toList, "b".toList]⟩,
       ⟨"true_false".toList, "q2".toList, "true".toList, []⟩]⟩,
   ⟨"Chem".toList, "Empty".toList, "ts".toList, []⟩,
   ⟨"Math".toList, "Sums".toList, "ts".toList,
      [⟨"identification".toList, "1+1".toList, "2".toList, []⟩]⟩]

/-- A tasks file that declares three tasks and holds two complete records and
the first two lines of a third. -/
def truncatedTasksFile : Str :=
  "3\n".toList ++ (sampleTasks.map saveTask).flatten ++ "Quiz\nMath\n".toList

/-! ## scheduler_planner.cpp : showTasks -/

/-- A task as the constructor `TaskDetails()` leaves it. It stands for
`tasks[i]` at an index outside the vector, which the code never reads. -/
def defaultTask : TaskDetails := ⟨[], [], [], [], 3, false⟩

/-- Source `tasks[i]`. -/
def taskAt (tasks : List TaskDetails) (i : Nat) : TaskDetails := tasks.getD i defaultTask

/-- The first loop of `showTasks`: the indices of the tasks that are not
completed, in ascending order. -/
def uncompletedTaskIndices (tasks : List TaskDetails) : List Nat :=
  (List.range tasks.length).filter (fun i => !(taskAt tasks i).completed)

/-- The lambda that `showTasks` passes to `std::sort`. -/
def taskBefore (tasks : List TaskDetails) (a b : Nat) : Bool :=
  if (taskAt tasks a).urgency ≠ (taskAt tasks b).urgency then
    decide ((taskAt tasks a).urgency < (taskAt tasks b).urgency)
  else decide ((taskAt tasks a).deadlineDate < (taskAt tasks b).deadlineDate)

/-- A strict weak ordering, the requirement of `std::sort` on its comparison:
irreflexive, transitive, and with a transitive relation "neither precedes the
other". -/
def StrictWeakOrder (comp : Nat → Nat → Bool) : Prop :=
  (∀ a, comp a a = false)
    ∧ (∀ a b c, comp a b = true → comp b c = true → comp a c = true)
    ∧ (∀ a b c, comp a b = false → comp b a = false → comp b c = false → comp c b = false →
        comp a c = false ∧ comp c a = false)

/-- What the C++ standard promises of `std::sort(first, last, comp)` for a
comparison that is a strict weak ordering: the range holds the same elements
and no element precedes an element placed before it. The order of equivalent
elements is left open. -/
def SortContract (sort : (Nat → Nat → Bool) → List Nat → List Nat) : Prop :=
  ∀ (comp : Nat → Nat → Bool) (l : List Nat), StrictWeakOrder comp →
    (sort comp l).Perm l ∧ (sort comp l).Pairwise (fun a b => comp b a = false)

/-- The assignment `tasks[i].completed = true`. -/
def markCompleted (tasks : List TaskDetails) (i : Nat) : List TaskDetails :=
  tasks.set i { taskAt tasks i with completed := true }

/-- Source `showTasks`: the index sequence listed (empty when nothing is
listed) and the tasks after the call. `sort` is `std::sort`;
`taskNumberToMark` is the number read from the console, `none` when the input
is not a number. -/
def showTasks (sort : (Nat → Nat → Bool) → List Nat → List Nat) (tasks : List TaskDetails)
    (taskNumberToMark : Option Int) : List Nat × List TaskDetails :=
  if tasks = [] then ([], tasks)
  else if uncompletedTaskIndices tasks = [] then ([], tasks)
  else
    let sorted := sort (taskBefore tasks) (uncompletedTaskIndices tasks)
    match taskNumberToMark with
    | none => (sorted, tasks)
    | some n =>
      if 0 < n ∧ n.toNat ≤ sorted.length then
        (sorted, markCompleted tasks (sorted.getD (n.toNat - 1) 0))
      else (sorted, tasks)

/-- Insertion of `x` in front of the first element that does not precede it. -/
def insertBefore (comp : Nat → Nat → Bool) (x : Nat) : List Nat → List Nat
  | [] => [x]
  | y :: ys => if comp y x then y :: insertBefore comp x ys else x :: y :: ys

/-- A sort that meets `SortContract` and keeps equivalent elements in their
order: insertion sort. -/
def stableInsertionSort (comp : Nat → Nat → Bool) : List Nat → List Nat
  | [] => []
  | x :: xs => insertBefore comp x (stableInsertionSort comp xs)

/-! ## study_hub.cpp : create_new_note -/

/-- The loop `while (std::getline(std::cin, line))` of `create_new_note`: the
content typed up to the line `SAVE_AND_EXIT`, every line followed by a
newline, and the lines left. -/
def readNoteLines : List Str → Str × List Str
  | [] => ([], [])
  | line :: rest =>
    if line = "SAVE_AND_EXIT".toList then ([], rest)
    else (line ++ ['\n'] ++ (readNoteLines rest).1, (readNoteLines rest).2)

/-- The note that `create_new_note` builds from the lines typed, and the
lines left: the title (or `Untitled Note` for an empty line), then the
content without its last newline. -/
def readNewNote (timestamp : Str) (input : List Str) : Note × List Str :=
  let topic_title := input.headD []
  let typed := readNoteLines input.tail
  (⟨if topic_title = [] then "Untitled Note".toList else topic_title,
      popTrailingNewline typed.1, timestamp⟩, typed.2)

/-- The end of `create_new_note`: the search for the notebook of the subject,
the `emplace_back` of a new notebook when there is none, and the `push_back`
of the note. -/
def storeNote : List Notebook → Str → Note → List Notebook
  | [], subject, new_note => [⟨subject, [new_note]⟩]
  | nb :: rest, subject, new_note =>
    if nb.subject = subject then { nb with notes := nb.notes ++ [new_note] } :: rest
    else nb :: storeNote rest subject new_note

/-- Source `create_new_note(subject)`: the notebooks after the call and the
lines left. `timestamp` is the value of `getCurrentTimestamp()`. -/
def create_new_note (notebooks : List Notebook) (subject timestamp : Str) (input : List Str) :
    List Notebook × List Str :=
  (storeNote notebooks subject (readNewNote timestamp input).1, (readNewNote timestamp input).2)

/-! ## utils.cpp : parseDaysOfWeek, variants and uses -/

/-- The loop body of `parseDaysOfWeek` without its second look-up: the
upper-cased token is looked up in the table and a miss clears `allValid`. -/
def dayTokenStepTableOnly (state : List Str × Bool) (raw_token : Str) : List Str × Bool :=
  match mapFind (toUpperStr (trimToken raw_token)) dayStandardizationMap with
  | some canonical => (setInsert canonical state.1, state.2)
  | none => (state.1, false)

/-- The function `parseDaysOfWeek` with the loop body `dayTokenStepTableOnly`. -/
def parseDaysOfWeekTableOnly (daysInput : Str) (_daysOfWeek : List Str) : Bool × List Str :=
  let state := (commaTokens daysInput).foldl dayTokenStepTableOnly ([], true)
  if state.1 = [] ∧ daysInput ≠ [] ∧ state.2 = false then (false, [])
  else if state.2 = false then (false, [])
  else (true, state.1)

/-- The comma-joined text of a list of days, as `Mon,Tue`. -/
def commaJoin : List Str → Str
  | [] => []
  | [day] => day
  | day :: next :: rest => day ++ ',' :: commaJoin (next :: rest)

/-- The sizes announced by "Starting new round with n card(s)", in order. -/
def roundSizes : List CramEvent → List Nat
  | [] => []
  | .roundStart n :: rest => n :: roundSizes rest
  | _ :: rest => roundSizes rest

/-- Five tasks: one completed, two with the same urgency and deadline. -/
def sampleTaskList : List TaskDetails :=
  [⟨"Essay".toList, "Art".toList, [], "2024-05-01".toList, 2, false⟩,
   ⟨"Done".toList, "Bio".toList, [], "2024-01-01".toList, 1, true⟩,
   ⟨"Quiz".toList, "Math".toList, [], "2024-06-01".toList, 1, false⟩,
   ⟨"Lab".toList, "Bio".toList, [], "2024-05-01".toList, 2, false⟩,
   ⟨"Read".toList, "Art".toList, [], "2024-04-01".toList, 2, false⟩]

/-! ## libstdc++ : std::sort

The `std::sort` that the program is built with (GCC 12, `bits/stl_algo.h` and
`bits/stl_heap.h`): introsort, which partitions ranges of more than 16
elements around a median of three, turns to heap sort when the depth limit is
used up, and finishes with insertion sort. The range is a list, an iterator is
a position in it; the loops that the library leaves unguarded are bounded by
the length of the range. -/

/-- Source `std::iter_swap(a, b)` on positions of the range. -/
def iterSwap (v : List Nat) (i j : Nat) : List Nat :=
  (v.set i (v.getD j 0)).set j (v.getD i 0)

/-- Source `std::__move_median_to_first(result, a, b, c, comp)`. -/
def moveMedianToFirst (comp : Nat → Nat → Bool) (v : List Nat) (result a b c : Nat) : List Nat :=
  if comp (v.getD a 0) (v.getD b 0) then
    if comp (v.getD b 0) (v.getD c 0) then iterSwap v result b
    else if comp (v.getD a 0) (v.getD c 0) then iterSwap v result c
    else iterSwap v result a
  else if comp (v.getD a 0) (v.getD c 0) then iterSwap v result a
  else if comp (v.getD b 0) (v.getD c 0) then iterSwap v result c
  else iterSwap v result b

/-- The loop `while (comp(first, pivot)) ++first;`; the first argument bounds
the steps by the length of the range. -/
def scanUp (comp : Nat → Nat → Bool) (v : List Nat) (pivot : Nat) : Nat → Nat → Nat
  | 0, first => first
  | fuel + 1, first =>
    if comp (v.getD first 0) (v.getD pivot 0) then scanUp comp v pivot fuel (first + 1)
    else first

/-- The loop `while (comp(pivot, last)) --last;`. -/
def scanDown (comp : Nat → Nat → Bool) (v : List Nat) (pivot : Nat) : Nat → Nat → Nat
  | 0, last => last
  | fuel + 1, last =>
    if comp (v.getD pivot 0) (v.getD last 0) then scanDown comp v pivot fuel (last - 1)
    else last

/-- Source `std::__unguarded_partition(first, last, pivot, comp)`: the range
after the call and the position returned. -/
def unguardedPartition (comp : Nat → Nat → Bool) (pivot : Nat) :
    Nat → List Nat → Nat → Nat → List Nat × Nat
  | 0, v, first, _ => (v, first)
  | fuel + 1, v, first, last =>
    let first1 := scanUp comp v pivot v.length first
    let last1 := scanDown comp v pivot v.length (last - 1)
    if first1 < last1 then unguardedPartition comp pivot fuel (iterSwap v first1 last1) (first1 + 1) last1
    else (v, first1)

/-- Source `std::__unguarded_partition_pivot(first, last, comp)`. -/
def unguardedPartitionPivot (comp : Nat → Nat → Bool) (v : List Nat) (first last : Nat) :
    List Nat × Nat :=
  let mid := first + (last - first) / 2
  unguardedPartition comp first v.length
    (moveMedianToFirst comp v first (first + 1) mid (last - 1)) (first + 1) last

/-- Source `std::__push_heap(first, holeIndex, topIndex, value, comp)`. -/
def pushHeap (comp : Nat → Nat → Bool) (first topIndex value : Nat) :
    Nat → List Nat → Nat → List Nat
  | 0, v, holeIndex => v.set (first + holeIndex) value
  | fuel + 1, v, holeIndex =>
    let parent := (holeIndex - 1) / 2
    if holeIndex > topIndex ∧ comp (v.getD (first + parent) 0) value = true then
      pushHeap comp first topIndex value fuel
        (v.set (first + holeIndex) (v.getD (first + parent) 0)) parent
    else v.set (first + holeIndex) value

/-- The first loop of `std::__adjust_heap`: the hole moves down to the larger
child; the range and the hole (equal to `secondChild`) after the loop. -/
def adjustHeapDown (comp : Nat → Nat → Bool) (first len : Nat) :
    Nat → List Nat → Nat → List Nat × Nat
  | 0, v, holeIndex => (v, holeIndex)
  | fuel + 1, v, holeIndex =>
    if holeIndex < (len - 1) / 2 then
      let secondChild := 2 * (holeIndex + 1)
      let child :=
        if comp (v.getD (first + secondChild) 0) (v.getD (first + (secondChild - 1)) 0)
        then secondChild - 1 else secondChild
      adjustHeapDown comp first len fuel (v.set (first + holeIndex) (v.getD (first + child) 0))
        child
    else (v, holeIndex)

/-- Source `std::__adjust_heap(first, holeIndex, len, value, comp)`. -/
def adjustHeap (comp : Nat → Nat → Bool) (first len : Nat) (v : List Nat)
    (holeIndex value : Nat) : List Nat :=
  let down := adjustHeapDown comp first len v.length v holeIndex
  if len % 2 = 0 ∧ down.2 = (len - 2) / 2 then
    let secondChild := 2 * (down.2 + 1)
    pushHeap comp first holeIndex value v.length
      (down.1.set (first + down.2) (down.1.getD (first + (secondChild - 1)) 0)) (secondChild - 1)
  else pushHeap comp first holeIndex value v.length down.1 down.2

/-- Source `std::__make_heap(first, last, comp)`. -/
def makeHeap (comp : Nat → Nat → Bool) (v : List Nat) (first last : Nat) : List Nat :=
  if last - first < 2 then v
  else
    (List.range ((last - first - 2) / 2 + 1)).reverse.foldl
      (fun w parent => adjustHeap comp first (last - first) w parent (w.getD (first + parent) 0)) v

/-- Source `std::__sort_heap(first, last, comp)`, with `std::__pop_heap`. -/
def sortHeap (comp : Nat → Nat → Bool) (v : List Nat) (first last : Nat) : List Nat :=
  (List.range' (first + 1) (last - first - 1)).reverse.foldl
    (fun w last1 =>
      adjustHeap comp first (last1 - first) (w.set last1 (w.getD first 0)) 0 (w.getD last1 0)) v

/-- Source `std::__partial_sort(first, last, last, comp)`: heap sort of the range. -/
def heapSortRange (comp : Nat → Nat → Bool) (v : List Nat) (first last : Nat) : List Nat :=
  sortHeap comp (makeHeap comp v first last) first last

/-- Source `std::__introsort_loop(first, last, depth_limit, comp)`. -/
def introsortLoop (comp : Nat → Nat → Bool) : Nat → List Nat → Nat → Nat → List Nat
  | 0, v, first, last => if last - first > 16 then heapSortRange comp v first last else v
  | depth_limit + 1, v, first, last =>
    if last - first > 16 then
      let cut := unguardedPartitionPivot comp v first last
      introsortLoop comp depth_limit (introsortLoop comp depth_limit cut.1 cut.2 last) first cut.2
    else v

/-- Source `std::__unguarded_linear_insert`: `val` is put into the elements in
front of it, given last one first; so is the result. -/
def unguardedLinearInsert (comp : Nat → Nat → Bool) (val : Nat) : List Nat → List Nat
  | [] => [val]
  | next :: before =>
    if comp val next then next :: unguardedLinearInsert comp val before
    else val :: next :: before

/-- The body of the loop of `std::__insertion_sort` on the sorted elements so
far, last one first. -/
def insertionStep (comp : Nat → Nat → Bool) (sorted : List Nat) (val : Nat) : List Nat :=
  match sorted.getLast? with
  | none => [val]
  | some first => if comp val first then sorted ++ [val] else unguardedLinearInsert comp val sorted

/-- Source `std::__final_insertion_sort(first, last, comp)` on the whole range. -/
def finalInsertionSort (comp : Nat → Nat → Bool) (v : List Nat) : List Nat :=
  if v.length > 16 then
    ((v.drop 16).foldl (fun sorted val => unguardedLinearInsert comp val sorted)
      ((v.take 16).foldl (insertionStep comp) [])).reverse
  else (v.foldl (insertionStep comp) []).reverse

/-- Source `std::__lg(n)`: the position of the highest bit of `n`. -/
def lgAux : Nat → Nat → Nat
  | 0, _ => 0
  | fuel + 1, n => if n ≥ 2 then lgAux fuel (n / 2) + 1 else 0

/-- Source `std::sort(first, last, comp)` of libstdc++ on the whole range. -/
def libstdcxxSort (comp : Nat → Nat → Bool) (v : List Nat) : List Nat :=
  if v = [] then v
  else finalInsertionSort comp (introsortLoop comp (lgAux v.length v.length * 2) v 0 v.length)

/-- Seventeen pending tasks with the same urgency and the same deadline. -/
def seventeenTiedTasks : List TaskDetails :=
  (List.range 17).map
    (fun i => ⟨"Task ".toList ++ showNat i, "Math".toList, [], "2024-05-01".toList, 2, false⟩)

/-! ## Comma-separated fields -/

/-- The comma-separated fields of a text, as the words of the claims have
them: the texts between the commas, so that n commas give n + 1 fields (the
text after the last comma included, also when it is empty). -/
def commaSeparatedFields : Str → List Str
  | [] => [[]]
  | c :: cs =>
    if c = ',' then [] :: commaSeparatedFields cs
    else
      match commaSeparatedFields cs with
      | [] => [[c]]
      | field :: fields => (c :: field) :: fields

/-- The fields without the last one when that is empty. -/
def withoutEmptyLast (fields : List Str) : List Str :=
  if fields.getLast? = some [] then fields.dropLast else fields

/-! # Properties -/

/-! ## The conflict checker -/

theorem commonDayFound_iff (newDays existingDays : List Str) :
    commonDayFound newDays existingDays = true ↔ ∃ d, d ∈ newDays ∧ d ∈ existingDays := by
  simp [commonDayFound, List.any_eq_true]

theorem conflictScan_iff (ns ne : Int) (days : List Str) (e : Int) (rest : List ClassDetails) :
    ∀ i : Nat, conflictScan ns ne days e i rest = true ↔
      ∃ k x, rest[k]? = some x ∧ ((i + k : Nat) : Int) ≠ e ∧ conflictsWith ns ne days x := by
  induction rest with
  | nil => intro i; simp [conflictScan]
  | cons x rest ih =>
    intro i
    have shift : (∃ k y, rest[k]? = some y ∧ ((i + 1 + k : Nat) : Int) ≠ e ∧ conflictsWith ns ne days y)
        → ∃ k y, (x :: rest)[k]? = some y ∧ ((i + k : Nat) : Int) ≠ e ∧ conflictsWith ns ne days y := by
      rintro ⟨k, y, hk, hne, hc⟩
      refine ⟨k + 1, y, by simpa using hk, ?_, hc⟩
      have : i + (k + 1) = i + 1 + k := by omega
      rw [this]; exact hne
    have unshift : ∀ k y, (x :: rest)[k]? = some y → ((i + k : Nat) : Int) ≠ e →
        conflictsWith ns ne days y → k ≠ 0 →
        ∃ k y, rest[k]? = some y ∧ ((i + 1 + k : Nat) : Int) ≠ e ∧ conflictsWith ns ne days y := by
      intro k y hk hne hc hk0
      obtain ⟨k', rfl⟩ : ∃ k', k = k' + 1 := ⟨k - 1, by omega⟩
      refine ⟨k', y, by simpa using hk, ?_, hc⟩
      have : i + 1 + k' = i + (k' + 1) := by omega
      rw [this]; exact hne
    unfold conflictScan
    by_cases hi : (i : Int) = e
    · rw [if_pos hi, ih (i + 1)]
      constructor
      · exact shift
      · rintro ⟨k, y, hk, hne, hc⟩
        refine unshift k y hk hne hc ?_
        rintro rfl
        exact hne (by simpa using hi)
    · rw [if_neg hi]
      by_cases hbad : timeToMinutes x.startTime = -1 ∨ timeToMinutes x.endTime = -1
      · simp only [hbad, if_true]
        rw [ih (i + 1)]
        constructor
        · exact shift
        · rintro ⟨k, y, hk, hne, hc⟩
          refine unshift k y hk hne hc ?_
          rintro rfl
          simp at hk
          subst hk
          rcases hbad with h | h
          · exact hc.1 h
          · exact hc.2.1 h
      · simp only [hbad, if_false]
        by_cases hov : commonDayFound days x.daysOfWeek = true ∧ ns < timeToMinutes x.endTime
            ∧ ne > timeToMinutes x.startTime
        · rw [if_pos hov]
          simp only [true_iff]
          refine ⟨0, x, by simp, by simpa using hi, ?_⟩
          push_neg at hbad
          exact ⟨hbad.1, hbad.2, (commonDayFound_iff _ _).1 hov.1, hov.2.1, hov.2.2⟩
        · rw [if_neg hov, ih (i + 1)]
          constructor
          · exact shift
          · rintro ⟨k, y, hk, hne, hc⟩
            refine unshift k y hk hne hc ?_
            rintro rfl
            simp at hk
            subst hk
            exact hov ⟨(commonDayFound_iff _ _).2 hc.2.2.1, hc.2.2.2.1, hc.2.2.2.2⟩

/-- The answer of `checkClassConflict` in terms of the candidate and the
stored entries. -/
theorem checkClassConflict_spec (S : List ClassDetails) (c : ClassDetails) (e : Int) :
    checkClassConflict S c e = true ↔
      ((timeToMinutes c.startTime = -1 ∨ timeToMinutes c.endTime = -1)
        ∨ timeToMinutes c.startTime ≥ timeToMinutes c.endTime
        ∨ ∃ (i : Nat) (x : ClassDetails), S[i]? = some x ∧ (i : Int) ≠ e
            ∧ timeToMinutes x.startTime ≠ -1 ∧ timeToMinutes x.endTime ≠ -1
            ∧ (∃ d, d ∈ c.daysOfWeek ∧ d ∈ x.daysOfWeek)
            ∧ timeToMinutes c.startTime < timeToMinutes x.endTime
            ∧ timeToMinutes c.endTime > timeToMinutes x.startTime) := by
  unfold checkClassConflict
  by_cases ha : timeToMinutes c.startTime = -1 ∨ timeToMinutes c.endTime = -1
  · simp [ha]
  · by_cases hb : timeToMinutes c.startTime ≥ timeToMinutes c.endTime
    · simp [ha, hb]
    · simp only [ha, hb, if_false, false_or]
      rw [conflictScan_iff]
      simp [conflictsWith]

/-- C1: `checkClassConflict(c, e)` returns true exactly when (a) `timeToMinutes`
fails on the start or end time of `c`, or (b) the start minutes of `c` are not
below its end minutes, or (c) some stored entry `S[i]` with `i ≠ e` has times
that both convert, shares a weekday string with `c`, and satisfies
`cStart < iEnd` and `cEnd > iStart`; otherwise it returns false (entries with
unparsable times never count). -/
theorem checkClassConflict_true_iff (S : List ClassDetails) (c : ClassDetails) (e : Int) :
    checkClassConflict S c e = true ↔
      ((timeToMinutes c.startTime = -1 ∨ timeToMinutes c.endTime = -1)
        ∨ timeToMinutes c.startTime ≥ timeToMinutes c.endTime
        ∨ ∃ (i : Nat) (x : ClassDetails), S[i]? = some x ∧ (i : Int) ≠ e
            ∧ timeToMinutes x.startTime ≠ -1 ∧ timeToMinutes x.endTime ≠ -1
            ∧ (∃ d, d ∈ c.daysOfWeek ∧ d ∈ x.daysOfWeek)
            ∧ timeToMinutes c.startTime < timeToMinutes x.endTime
            ∧ timeToMinutes c.endTime > timeToMinutes x.startTime) := by
  unfold checkClassConflict
  by_cases ha : timeToMinutes c.startTime = -1 ∨ timeToMinutes c.endTime = -1
  · simp [ha]
  · by_cases hb : timeToMinutes c.startTime ≥ timeToMinutes c.endTime
    · simp [ha, hb]
    · simp only [ha, hb, if_false, false_or]
      rw [conflictScan_iff]
      simp [conflictsWith]

theorem overlapOnSharedDay_symm {x y : ClassDetails} (h : overlapOnSharedDay x y) :
    overlapOnSharedDay y x := by
  obtain ⟨⟨d, hx, hy⟩, h1, h2⟩ := h
  exact ⟨⟨d, hy, hx⟩, h2, h1⟩

/-- What a negative answer of `checkClassConflict` gives about the candidate
and the scanned entries. -/
theorem checkClassConflict_false {S : List ClassDetails} {c : ClassDetails} {e : Int}
    (h : checkClassConflict S c e = false) :
    validRange c ∧ ∀ (i : Nat) (x : ClassDetails), S[i]? = some x → (i : Int) ≠ e →
      validRange x → ¬ overlapOnSharedDay c x := by
  have hn : ¬ (checkClassConflict S c e = true) := by simp [h]
  rw [checkClassConflict_spec] at hn
  push_neg at hn
  obtain ⟨⟨h1, h2⟩, h3, h4⟩ := hn
  refine ⟨⟨h1, h2, h3⟩, ?_⟩
  intro i x hx hne hv hov
  obtain ⟨hd, ha, hb⟩ := hov
  have := h4 i x hx hne hv.1 hv.2.1 hd ha
  omega

theorem scheduleInvariant_nil : scheduleInvariant [] := by
  constructor
  · intro x hx; cases hx
  · intro i j x y _ hx; simp at hx

theorem scheduleInvariant_addClass {S : List ClassDetails} (hS : scheduleInvariant S)
    (c : ClassDetails) : scheduleInvariant (addClass S c) := by
  unfold addClass
  by_cases hc : checkClassConflict S c (-1) = true
  · simpa [hc] using hS
  · have hf : checkClassConflict S c (-1) = false := by simpa using hc
    simp only [hf, Bool.false_eq_true, if_false]
    obtain ⟨hcv, hno⟩ := checkClassConflict_false hf
    have hno' : ∀ (i : Nat) (x : ClassDetails), S[i]? = some x → ¬ overlapOnSharedDay c x := by
      intro i x hx
      have hmem : x ∈ S := List.getElem?_mem hx
      exact hno i x hx (by omega) (hS.1 x hmem)
    have key : ∀ (i : Nat) (x : ClassDetails), (S ++ [c])[i]? = some x →
        (i < S.length ∧ S[i]? = some x) ∨ (i = S.length ∧ x = c) := by
      intro i x hx
      rcases Nat.lt_or_ge i S.length with hlt | hge
      · left
        rw [List.getElem?_append_left hlt] at hx
        exact ⟨hlt, hx⟩
      · right
        rw [List.getElem?_append_right hge] at hx
        rcases Nat.eq_zero_or_pos (i - S.length) with h0 | hpos
        · rw [h0] at hx
          simp at hx
          exact ⟨by omega, hx.symm⟩
        · obtain ⟨k, hk⟩ : ∃ k, i - S.length = k + 1 := ⟨i - S.length - 1, by omega⟩
          rw [hk] at hx
          simp at hx
    constructor
    · intro x hx
      rcases List.mem_append.1 hx with h | h
      · exact hS.1 x h
      · simp at h; subst h; exact hcv
    · intro i j x y hij hx hy
      rcases key i x hx with ⟨_, hx'⟩ | ⟨hi, rfl⟩ <;> rcases key j y hy with ⟨_, hy'⟩ | ⟨hj, rfl⟩
      · exact hS.2 i j x y hij hx' hy'
      · exact fun h => hno' i x hx' (overlapOnSharedDay_symm h)
      · exact hno' j y hy'
      · omega

theorem scheduleInvariant_editClass {S : List ClassDetails} (hS : scheduleInvariant S)
    (k : Nat) (c : ClassDetails) : scheduleInvariant (editClass S k c) := by
  unfold editClass
  by_cases hk : k < S.length
  · simp only [hk, if_true]
    by_cases hc : checkClassConflict S c (k : Int) = true
    · simpa [hc] using hS
    · have hf : checkClassConflict S c (k : Int) = false := by simpa using hc
      simp only [hf, Bool.false_eq_true, if_false]
      obtain ⟨hcv, hno⟩ := checkClassConflict_false hf
      have hno' : ∀ (i : Nat) (x : ClassDetails), S[i]? = some x → i ≠ k →
          ¬ overlapOnSharedDay c x := by
        intro i x hx hik
        exact hno i x hx (by omega) (hS.1 x (List.getElem?_mem hx))
      have key : ∀ (i : Nat) (x : ClassDetails), (S.set k c)[i]? = some x →
          (i ≠ k ∧ S[i]? = some x) ∨ (i = k ∧ x = c) := by
        intro i x hx
        by_cases hik : k = i
        · right
          subst hik
          rw [List.getElem?_set_self hk] at hx
          simp at hx
          exact ⟨rfl, hx.symm⟩
        · left
          rw [List.getElem?_set_ne hik] at hx
          exact ⟨fun h => hik h.symm, hx⟩
      constructor
      · intro x hx
        obtain ⟨i, hi⟩ := List.getElem?_of_mem hx
        rcases key i x hi with ⟨_, hx'⟩ | ⟨_, rfl⟩
        · exact hS.1 x (List.getElem?_mem hx')
        · exact hcv
      · intro i j x y hij hx hy
        rcases key i x hx with ⟨hi, hx'⟩ | ⟨hi, rfl⟩ <;>
          rcases key j y hy with ⟨hj, hy'⟩ | ⟨hj, rfl⟩
        · exact hS.2 i j x y hij hx' hy'
        · exact fun h => hno' i x hx' hi (overlapOnSharedDay_symm h)
        · exact hno' j y hy' hj
        · omega
  · simpa [hk] using hS

theorem scheduleInvariant_foldl (cmds : List ScheduleCmd) :
    ∀ S, scheduleInvariant S → scheduleInvariant (cmds.foldl applyCmd S) := by
  induction cmds with
  | nil => intro S hS; simpa using hS
  | cons cmd cmds ih =>
    intro S hS
    simp only [List.foldl_cons]
    apply ih
    cases cmd with
    | add c => exact scheduleInvariant_addClass hS c
    | edit k c => exact scheduleInvariant_editClass hS k c

/-- C2: in the schedule reached from the empty one by any sequence of
`addClass` and `editClass` commits, every stored class has times that convert
to minutes with the start strictly before the end, and no two classes stored
at different positions share a weekday while their `[start,end)` intervals
overlap. -/
theorem schedule_commits_keep_invariant (cmds : List ScheduleCmd) :
    (∀ x ∈ runSchedule cmds,
        timeToMinutes x.startTime ≠ -1 ∧ timeToMinutes x.endTime ≠ -1
          ∧ timeToMinutes x.startTime < timeToMinutes x.endTime)
      ∧ ∀ (i j : Nat) (x y : ClassDetails), i ≠ j →
          (runSchedule cmds)[i]? = some x → (runSchedule cmds)[j]? = some y →
          ¬ ((∃ d, d ∈ x.daysOfWeek ∧ d ∈ y.daysOfWeek)
              ∧ timeToMinutes x.startTime < timeToMinutes y.endTime
              ∧ timeToMinutes y.startTime < timeToMinutes x.endTime) :=
  scheduleInvariant_foldl cmds [] scheduleInvariant_nil

/-- Witness for C2: after adding two sample classes both are stored, and the
invariant applies to the pair. -/
theorem schedule_commits_keep_invariant_witness :
    (runSchedule [.add sampleMath, .add samplePhysics])[0]? = some sampleMath
      ∧ (runSchedule [.add sampleMath, .add samplePhysics])[1]? = some samplePhysics
      ∧ ¬ ((∃ d, d ∈ sampleMath.daysOfWeek ∧ d ∈ samplePhysics.daysOfWeek)
          ∧ timeToMinutes sampleMath.startTime < timeToMinutes samplePhysics.endTime
          ∧ timeToMinutes samplePhysics.startTime < timeToMinutes sampleMath.endTime) :=
  ⟨by decide, by decide,
    (schedule_commits_keep_invariant [.add sampleMath, .add samplePhysics]).2 0 1
      sampleMath samplePhysics (by decide) (by decide) (by decide)⟩

/-- C3: for a candidate whose times convert with start before end, checked
against a schedule that holds one class: when the two weekday lists have no
day in common the answer is false whatever the time ranges are, and when one
of the two classes ends at or before the minute the other starts (touching
allowed) the answer is false as well. The stored class may or may not be the
excluded index, and its times need not convert. -/
theorem checkClassConflict_single_false (c x : ClassDetails) (e : Int)
    (hs : timeToMinutes c.startTime ≠ -1) (he : timeToMinutes c.endTime ≠ -1)
    (hlt : timeToMinutes c.startTime < timeToMinutes c.endTime) :
    ((∀ d, d ∈ c.daysOfWeek → d ∉ x.daysOfWeek) → checkClassConflict [x] c e = false)
      ∧ ((timeToMinutes c.endTime ≤ timeToMinutes x.startTime
            ∨ timeToMinutes x.endTime ≤ timeToMinutes c.startTime) →
          checkClassConflict [x] c e = false) := by
  have main : (¬ (∃ d, d ∈ c.daysOfWeek ∧ d ∈ x.daysOfWeek)
      ∨ timeToMinutes c.endTime ≤ timeToMinutes x.startTime
      ∨ timeToMinutes x.endTime ≤ timeToMinutes c.startTime) →
      checkClassConflict [x] c e = false := by
    intro h
    rw [← Bool.not_eq_true, checkClassConflict_spec]
    rintro (h1 | h1 | ⟨i, y, hy, _, _, _, hd, ha, hb⟩)
    · rcases h1 with h1 | h1
      · exact hs h1
      · exact he h1
    · omega
    · have hxy : y = x := by
        rcases i with _ | i
        · simpa using hy.symm
        · simp at hy
      subst hxy
      rcases h with h | h | h
      · exact h hd
      · omega
      · omega
  constructor
  · intro h
    exact main (Or.inl (fun ⟨d, h1, h2⟩ => h d h1 h2))
  · intro h
    exact main (Or.inr h)

/-- Witness for C3: `sampleMath` against `sampleArt` (no common day, same
hours) and against `samplePhysics` (common Monday, touching at 10:00). -/
theorem checkClassConflict_single_false_witness :
    (timeToMinutes sampleMath.startTime ≠ -1 ∧ timeToMinutes sampleMath.endTime ≠ -1
        ∧ timeToMinutes sampleMath.startTime < timeToMinutes sampleMath.endTime)
      ∧ (∀ d, d ∈ sampleMath.daysOfWeek → d ∉ sampleArt.daysOfWeek)
      ∧ checkClassConflict [sampleArt] sampleMath (-1) = false
      ∧ timeToMinutes sampleMath.endTime ≤ timeToMinutes samplePhysics.startTime
      ∧ checkClassConflict [samplePhysics] sampleMath (-1) = false :=
  ⟨by decide, by decide,
    (checkClassConflict_single_false sampleMath sampleArt (-1) (by decide) (by decide)
      (by decide)).1 (by decide),
    by decide,
    (checkClassConflict_single_false sampleMath samplePhysics (-1) (by decide) (by decide)
      (by decide)).2 (Or.inl (by decide))⟩

/-- C4: when a stored class that is not the excluded index has the same start
and end time as the candidate (the same minute values, in particular the same
strings) and at least one weekday in common with it, `checkClassConflict`
returns true. -/
theorem checkClassConflict_identical_interval (S : List ClassDetails) (c x : ClassDetails)
    (e : Int) (i : Nat) (hi : S[i]? = some x) (hne : (i : Int) ≠ e)
    (hstart : timeToMinutes x.startTime = timeToMinutes c.startTime)
    (hend : timeToMinutes x.endTime = timeToMinutes c.endTime)
    (hday : ∃ d, d ∈ c.daysOfWeek ∧ d ∈ x.daysOfWeek) :
    checkClassConflict S c e = true := by
  rw [checkClassConflict_spec]
  by_cases ha : timeToMinutes c.startTime = -1 ∨ timeToMinutes c.endTime = -1
  · exact Or.inl ha
  · by_cases hb : timeToMinutes c.startTime ≥ timeToMinutes c.endTime
    · exact Or.inr (Or.inl hb)
    · push_neg at ha
      refine Or.inr (Or.inr ⟨i, x, hi, hne, ?_, ?_, hday, ?_, ?_⟩)
      · rw [hstart]; exact ha.1
      · rw [hend]; exact ha.2
      · rw [hend]; omega
      · rw [hstart]; omega

/-- Witness for C4: a class with the hours of `sampleMath` on Wednesdays,
checked against the schedule that stores `sampleArt` and `sampleMath`. -/
theorem checkClassConflict_identical_interval_witness :
    [sampleArt, sampleMath][1]? = some sampleMath
      ∧ checkClassConflict [sampleArt, sampleMath]
          ⟨"Lab".toList, ["Wed".toList], "09:00 AM".toList, "10:00 AM".toList, []⟩ (-1) = true :=
  ⟨by decide,
    checkClassConflict_identical_interval [sampleArt, sampleMath]
      ⟨"Lab".toList, ["Wed".toList], "09:00 AM".toList, "10:00 AM".toList, []⟩ sampleMath (-1) 1
      (by decide) (by decide) (by decide) (by decide) ⟨"Wed".toList, by decide, by decide⟩⟩

/-! ## Normal study mode -/

theorem presentedCards_append (a b : List NormalEvent) :
    presentedCards (a ++ b) = presentedCards a ++ presentedCards b := by
  induction a with
  | nil => rfl
  | cons e a ih => cases e <;> simp [presentedCards, ih]

theorem incorrectAnswers_append (a b : List NormalEvent) :
    incorrectAnswers (a ++ b) = incorrectAnswers a + incorrectAnswers b := by
  induction a with
  | nil => simp [incorrectAnswers]
  | cons e a ih =>
    cases e <;> simp [incorrectAnswers, ih]
    omega

theorem normalInvariant_init (deck : Deck) :
    normalInvariant deck.cards.length (normalInit deck) := by
  unfold normalInit
  cases h : deck.cards with
  | nil => simp [normalInvariant, presentedCards, incorrectAnswers]
  | cons c cs => simp [normalInvariant, presentedCards, incorrectAnswers]

theorem normalInvariant_while {n : Nat} {s : NormalState}
    (h1 : s.known_count + s.active_cards.length = n)
    (h2 : (presentedCards s.output).length = s.known_count + incorrectAnswers s.output)
    (h3 : ∀ k, NormalEvent.congratulations k ∉ s.output)
    (h4 : NormalEvent.sessionEnded ∉ s.output) :
    normalInvariant n (normalWhile s) := by
  obtain ⟨pc, active, known, out, lines⟩ := s
  simp only at h1 h2 h3 h4
  cases active with
  | nil =>
    simp only [normalWhile]
    refine ⟨h1, fun _ => ?_, ?_, ?_⟩
    · simpa [presentedCards_append, incorrectAnswers_append, presentedCards, incorrectAnswers]
        using h2
    · intro k hk
      simp only [List.mem_append, List.mem_singleton] at hk
      rcases hk with hk | hk
      · exact absurd hk (h3 k)
      · simp at hk
        simp [hk]
    · intro hk
      simp [h4] at hk
  | cons c rest =>
    simp only [normalWhile]
    refine ⟨h1, fun _ => ?_, ?_, ?_⟩
    · simp [presentedCards_append, incorrectAnswers_append, presentedCards, incorrectAnswers]
      omega
    · intro k hk
      simp only [List.mem_append, List.mem_singleton] at hk
      rcases hk with hk | hk
      · exact absurd hk (h3 k)
      · simp at hk
    · intro hk
      simp [h4] at hk

theorem normalInvariant_afterAnswer {n : Nat} {s : NormalState}
    (h1 : s.known_count + s.active_cards.length = n)
    (h2 : (presentedCards s.output).length = s.known_count + incorrectAnswers s.output)
    (h3 : ∀ k, NormalEvent.congratulations k ∉ s.output)
    (h4 : NormalEvent.sessionEnded ∉ s.output) :
    normalInvariant n (normalAfterAnswer s) := by
  unfold normalAfterAnswer
  by_cases he : s.active_cards ≠ []
  · rw [if_pos he]
    refine ⟨h1, fun _ => by simpa using h2, fun k hk => absurd hk (h3 k), fun hk => absurd hk h4⟩
  · rw [if_neg he]
    exact normalInvariant_while h1 h2 h3 h4

theorem normalInvariant_step {n : Nat} {s : NormalState} (h : normalInvariant n s)
    (line : Str) : normalInvariant n (normalStep s line) := by
  obtain ⟨pc, active, known, out, lines⟩ := s
  obtain ⟨h1, h2, h3, h4⟩ := h
  simp only at h1 h2 h3 h4
  have hno : pc ≠ .finalReturn → pc ≠ .returned → ∀ k, NormalEvent.congratulations k ∉ out := by
    intro ha hb k hk
    rcases (h3 k hk).2.2 with h | h
    · exact ha h
    · exact hb h
  have hnq : pc ≠ .returned → NormalEvent.sessionEnded ∉ out := fun ha hk => ha (h4 hk).1
  cases pc with
  | returned => exact ⟨h1, h2, h3, h4⟩
  | emptyReturn =>
    have hc := hno (by simp) (by simp)
    have hq := hnq (by simp)
    refine ⟨h1, fun _ => by simpa using h2 hq, fun k hk => absurd hk (hc k),
      fun hk => absurd hk hq⟩
  | start =>
    have hq := hnq (by simp)
    simp only [normalStep]
    exact normalInvariant_while h1 (by simpa using h2 hq) (hno (by simp) (by simp)) hq
  | nextCard =>
    have hq := hnq (by simp)
    simp only [normalStep]
    exact normalInvariant_while h1 (by simpa using h2 hq) (hno (by simp) (by simp)) hq
  | finalReturn =>
    have hq := hnq (by simp)
    simp only [normalStep]
    refine ⟨h1, fun _ => by simpa using h2 hq, fun k hk => ?_, fun hk => absurd hk hq⟩
    have := h3 k hk
    simp [this.1, this.2.1]
  | flip =>
    have hc := hno (by simp) (by simp)
    have hq := hnq (by simp)
    cases active with
    | nil => exact ⟨h1, h2, h3, h4⟩
    | cons c rest =>
      simp only [normalStep]
      refine ⟨h1, fun _ => ?_, ?_, ?_⟩
      · simpa [presentedCards_append, incorrectAnswers_append, presentedCards,
          incorrectAnswers] using h2 hq
      · intro k hk
        simp only [List.mem_append, List.mem_singleton] at hk
        rcases hk with hk | hk
        · exact absurd hk (hc k)
        · simp at hk
      · intro hk
        simp [hq] at hk
  | answer =>
    have hc := hno (by simp) (by simp)
    have hq := hnq (by simp)
    have h2' := h2 hq
    cases active with
    | nil => exact ⟨h1, h2, h3, h4⟩
    | cons c rest =>
      simp only [normalStep]
      simp at h1 h2'
      cases parseResponse line with
      | quit =>
        simp only
        refine ⟨by simpa using h1, fun hk => ?_, ?_, ?_⟩
        · simp at hk
        · intro k hk
          simp only [List.mem_append, List.mem_singleton] at hk
          rcases hk with hk | hk
          · exact absurd hk (hc k)
          · simp at hk
        · intro _
          refine ⟨rfl, fun k hk => ?_⟩
          simp only [List.mem_append, List.mem_singleton] at hk
          rcases hk with hk | hk
          · exact absurd hk (hc k)
          · simp at hk
      | yes =>
        simp only
        apply normalInvariant_afterAnswer
        · simp only; omega
        · simp [presentedCards_append, incorrectAnswers_append, presentedCards,
            incorrectAnswers]
          omega
        · intro k hk
          simp only [List.mem_append, List.mem_singleton] at hk
          rcases hk with hk | hk
          · exact absurd hk (hc k)
          · simp at hk
        · simp [hq]
      | no =>
        simp only
        apply normalInvariant_afterAnswer
        · simp only [List.length_append, List.length_singleton]; omega
        · simp [presentedCards_append, incorrectAnswers_append, presentedCards,
            incorrectAnswers]
          omega
        · intro k hk
          simp only [List.mem_append, List.mem_singleton] at hk
          rcases hk with hk | hk
          · exact absurd hk (hc k)
          · simp at hk
        · simp [hq]
      | invalid =>
        simp only
        refine ⟨by simpa using h1, fun _ => ?_, ?_, ?_⟩
        · simp [presentedCards_append, incorrectAnswers_append, presentedCards,
            incorrectAnswers]
          omega
        · intro k hk
          simp only [List.mem_append, List.mem_singleton] at hk
          rcases hk with hk | hk
          · exact absurd hk (hc k)
          · simp at hk
        · intro hk
          simp [hq] at hk

theorem normalInvariant_foldl {n : Nat} (input : List Str) :
    ∀ s, normalInvariant n s → normalInvariant n (input.foldl normalStep s) := by
  induction input with
  | nil => intro s hs; simpa using hs
  | cons line input ih =>
    intro s hs
    simp only [List.foldl_cons]
    exact ih _ (normalInvariant_step hs line)

theorem normalInvariant_run (deck : Deck) (input : List Str) :
    normalInvariant deck.cards.length (_run_normal_mode deck input) :=
  normalInvariant_foldl input _ (normalInvariant_init deck)

/-- C5: whenever a normal-mode session prints its congratulation (the queue
was emptied, so no quit was given), the known-count it reports is the deck
size and the number of card presentations is the deck size plus the number of
answers marked incorrect. On every 3-card deck, three correct answers give
exactly the presentations of cards 0, 1, 2 and the report of 3 known cards;
one incorrect answer (on the first, second or third card) followed by correct
answers gives four presentations, the missed card being shown twice. -/
theorem normal_mode_completion :
    (∀ (deck : Deck) (input : List Str) (k : Nat),
        NormalEvent.congratulations k ∈ (_run_normal_mode deck input).output →
          k = deck.cards.length
            ∧ (presentedCards (_run_normal_mode deck input).output).length
                = deck.cards.length + incorrectAnswers (_run_normal_mode deck input).output
            ∧ NormalEvent.sessionEnded ∉ (_run_normal_mode deck input).output)
      ∧ (∀ (deck : Deck) (e0 e1 e2 e3 e4 e5 : Str), deck.cards.length = 3 →
          (_run_normal_mode deck [e0, e1, ['y'], e2, e3, ['y'], e4, e5, ['y']]).output
            = [.reviewing 3, .front 0, .back 0, .correct 2, .front 1, .back 1, .correct 1,
                .front 2, .back 2, .correct 0, .congratulations 3])
      ∧ (∀ (deck : Deck) (e0 e1 e2 e3 e4 e5 e6 e7 : Str), deck.cards.length = 3 →
          (_run_normal_mode deck [e0, e1, ['n'], e2, e3, ['y'], e4, e5, ['y'], e6, e7,
              ['y']]).output
            = [.reviewing 3, .front 0, .back 0, .incorrect 3, .front 1, .back 1, .correct 2,
                .front 2, .back 2, .correct 1, .front 0, .back 0, .correct 0,
                .congratulations 3]
          ∧ (_run_normal_mode deck [e0, e1, ['y'], e2, e3, ['n'], e4, e5, ['y'], e6, e7,
              ['y']]).output
            = [.reviewing 3, .front 0, .back 0, .correct 2, .front 1, .back 1, .incorrect 2,
                .front 2, .back 2, .correct 1, .front 1, .back 1, .correct 0,
                .congratulations 3]
          ∧ (_run_normal_mode deck [e0, e1, ['y'], e2, e3, ['y'], e4, e5, ['n'], e6, e7,
              ['y']]).output
            = [.reviewing 3, .front 0, .back 0, .correct 2, .front 1, .back 1, .correct 1,
                .front 2, .back 2, .incorrect 1, .front 2, .back 2, .correct 0,
                .congratulations 3]) := by
  refine ⟨?_, ?_, ?_⟩
  · intro deck input k hk
    obtain ⟨h1, h2, h3, h4⟩ := normalInvariant_run deck input
    obtain ⟨hk1, hk2, hk3⟩ := h3 k hk
    have hq : NormalEvent.sessionEnded ∉ (_run_normal_mode deck input).output :=
      fun hq => (h4 hq).2 k hk
    have hlen := h2 hq
    rw [hk2] at h1
    have hpc : ¬ ((_run_normal_mode deck input).pc = .flip
        ∨ (_run_normal_mode deck input).pc = .answer) := by
      rcases hk3 with h | h <;> simp [h]
    rw [if_neg hpc] at hlen
    simp at h1
    refine ⟨by omega, by omega, hq⟩
  · intro deck e0 e1 e2 e3 e4 e5 hlen
    obtain ⟨sub, title, ts, cards⟩ := deck
    match cards, hlen with
    | [a, b, c], _ =>
      simp [_run_normal_mode, normalInit, normalStep, normalWhile, normalAfterAnswer,
        parseResponse, toLowerStr, List.range, List.range.loop]
  · intro deck e0 e1 e2 e3 e4 e5 e6 e7 hlen
    obtain ⟨sub, title, ts, cards⟩ := deck
    match cards, hlen with
    | [a, b, c], _ =>
      simp [_run_normal_mode, normalInit, normalStep, normalWhile, normalAfterAnswer,
        parseResponse, toLowerStr, List.range, List.range.loop]

/-- Witness for C5: the sample deck with the first card missed once. -/
theorem normal_mode_completion_witness :
    NormalEvent.congratulations 3 ∈ (_run_normal_mode sampleDeck3
        [[], [], ['n'], [], [], ['y'], [], [], ['y'], [], [], ['y']]).output
      ∧ (3 = sampleDeck3.cards.length
          ∧ (presentedCards (_run_normal_mode sampleDeck3
              [[], [], ['n'], [], [], ['y'], [], [], ['y'], [], [], ['y']]).output).length
            = sampleDeck3.cards.length + incorrectAnswers (_run_normal_mode sampleDeck3
              [[], [], ['n'], [], [], ['y'], [], [], ['y'], [], [], ['y']]).output
          ∧ NormalEvent.sessionEnded ∉ (_run_normal_mode sampleDeck3
              [[], [], ['n'], [], [], ['y'], [], [], ['y'], [], [], ['y']]).output) :=
  ⟨by decide, normal_mode_completion.1 sampleDeck3 _ 3 (by decide)⟩

/-! ## Cram study mode -/

theorem readAnswer_output (input : List Str) :
    ∃ k, (readAnswer input).output = List.replicate k CramEvent.invalidInput := by
  induction input with
  | nil => exact ⟨0, rfl⟩
  | cons line rest ih =>
    obtain ⟨k, hk⟩ := ih
    unfold readAnswer
    cases parseResponse line with
    | invalid => exact ⟨k + 1, by simp [hk, List.replicate_succ]⟩
    | quit => exact ⟨0, rfl⟩
    | yes => exact ⟨0, rfl⟩
    | no => exact ⟨0, rfl⟩

theorem readAnswer_answer_ne_invalid (input : List Str) :
    (readAnswer input).answer ≠ some .invalid := by
  induction input with
  | nil => simp [readAnswer]
  | cons line rest ih =>
    unfold readAnswer
    cases h : parseResponse line <;> simp [ih]

theorem cramPresented_append (a b : List CramEvent) :
    cramPresented (a ++ b) = cramPresented a ++ cramPresented b := by
  induction a with
  | nil => rfl
  | cons e a ih => cases e <;> simp [cramPresented, ih]

theorem cramPresented_replicate_invalid (k : Nat) :
    cramPresented (List.replicate k CramEvent.invalidInput) = [] := by
  induction k with
  | zero => rfl
  | succ k ih => simp [List.replicate_succ, cramPresented, ih]

theorem missedCards_replicate_invalid (cur : Option Nat) (k : Nat) (rest : List CramEvent) :
    missedCards cur (List.replicate k CramEvent.invalidInput ++ rest) = missedCards cur rest := by
  induction k with
  | zero => rfl
  | succ k ih => simp [List.replicate_succ, missedCards, ih]

/-- The output of a round does not depend on the card that was on screen
before it: it is empty or starts with a presentation. -/
theorem missedCards_cramRound (cur : Option Nat) (cards next : List Nat) (input : List Str) :
    missedCards cur (cramRound cards next input).output
      = missedCards none (cramRound cards next input).output := by
  cases cards with
  | nil => simp [cramRound, missedCards]
  | cons c cs =>
    cases input with
    | nil => simp [cramRound, missedCards]
    | cons l input1 =>
      unfold cramRound
      simp only
      cases (readAnswer input1).answer with
      | none => simp [missedCards]
      | some a =>
        cases a with
        | quit => simp [missedCards]
        | invalid => simp [missedCards]
        | yes =>
          cases pauseBeforeNext cs (readAnswer input1).unread <;>
            simp [missedCards, RoundResult.after]
        | no =>
          cases pauseBeforeNext cs (readAnswer input1).unread <;>
            simp [missedCards, RoundResult.after]

/-- What a round that is played to its end has shown and collected. -/
theorem cramRound_finished (cards : List Nat) :
    ∀ (next : List Nat) (input : List Str) (nx : List Nat),
      (cramRound cards next input).ending = .finished nx →
        cramPresented (cramRound cards next input).output = cards
          ∧ nx = next ++ missedCards none (cramRound cards next input).output := by
  induction cards with
  | nil =>
    intro next input nx h
    simp [cramRound] at h
    simp [cramRound, cramPresented, missedCards, h]
  | cons c cs ih =>
    intro next input nx h
    cases input with
    | nil => simp [cramRound] at h
    | cons l input1 =>
      obtain ⟨k, hk⟩ := readAnswer_output input1
      unfold cramRound at h ⊢
      simp only at h ⊢
      cases ha : (readAnswer input1).answer with
      | none => simp [ha] at h
      | some a =>
        cases a with
        | quit => simp [ha] at h
        | invalid => simp [ha] at h
        | yes =>
          simp only [ha] at h ⊢
          cases hp : pauseBeforeNext cs (readAnswer input1).unread with
          | none => simp [hp] at h
          | some input2 =>
            simp only [hp, RoundResult.after] at h ⊢
            obtain ⟨h1, h2⟩ := ih next input2 nx h
            constructor
            · simp [cramPresented, cramPresented_append, hk, cramPresented_replicate_invalid, h1]
            · rw [h2]
              simp [missedCards, hk, missedCards_replicate_invalid, missedCards_cramRound (some c)]
        | no =>
          simp only [ha] at h ⊢
          cases hp : pauseBeforeNext cs (readAnswer input1).unread with
          | none => simp [hp] at h
          | some input2 =>
            simp only [hp, RoundResult.after] at h ⊢
            obtain ⟨h1, h2⟩ := ih (next ++ [c]) input2 nx h
            constructor
            · simp [cramPresented, cramPresented_append, hk, cramPresented_replicate_invalid, h1]
            · rw [h2]
              simp [missedCards, hk, missedCards_replicate_invalid, missedCards_cramRound (some c)]

theorem parseResponse_quit_iff (line : Str) :
    parseResponse line = .quit ↔
      (toLowerStr line = "quit".toList ∨ toLowerStr line = "q".toList) := by
  unfold parseResponse
  simp only
  split_ifs <;> simp_all

theorem isQuit_iff (line : Str) :
    isQuit line = true ↔ (toLowerStr line = "quit".toList ∨ toLowerStr line = "q".toList) := by
  simp [isQuit]

theorem readAnswer_quit {q : Str} (hq : parseResponse q = .quit) (post : List Str) :
    readAnswer (q :: post) = ⟨[], some .quit, post⟩ := by
  simp [readAnswer, hq]

/-- Reading answers from a longer input: an answer found in the first part is
found again, otherwise the search goes on in the second part. -/
theorem readAnswer_append (pre more : List Str) :
    readAnswer (pre ++ more)
      = match (readAnswer pre).answer with
        | some a => ⟨(readAnswer pre).output, some a, (readAnswer pre).unread ++ more⟩
        | none => ⟨(readAnswer pre).output ++ (readAnswer more).output,
                    (readAnswer more).answer, (readAnswer more).unread⟩ := by
  induction pre with
  | nil => simp [readAnswer]
  | cons line rest ih =>
    simp only [List.cons_append]
    cases h : parseResponse line with
    | invalid =>
      simp only [readAnswer, h, ih]
      cases (readAnswer rest).answer <;> simp
    | quit => simp [readAnswer, h]
    | yes => simp [readAnswer, h]
    | no => simp [readAnswer, h]

theorem readAnswer_unread_length (input : List Str) (a : Response)
    (h : (readAnswer input).answer = some a) :
    (readAnswer input).unread.length + 1 ≤ input.length := by
  induction input with
  | nil => simp [readAnswer] at h
  | cons line rest ih =>
    unfold readAnswer at h ⊢
    cases hp : parseResponse line with
    | invalid =>
      simp only [hp] at h ⊢
      have := ih h
      simp only [List.length_cons]
      omega
    | quit => simp
    | yes => simp
    | no => simp

theorem pauseBeforeNext_append {remaining : List Nat} {input input2 : List Str}
    (h : pauseBeforeNext remaining input = some input2) (more : List Str) :
    pauseBeforeNext remaining (input ++ more) = some (input2 ++ more) := by
  cases remaining with
  | nil =>
    simp [pauseBeforeNext] at h ⊢
    rw [h]
  | cons c cs =>
    cases input with
    | nil => simp [pauseBeforeNext] at h
    | cons l rest =>
      simp [pauseBeforeNext] at h ⊢
      rw [h]

theorem pauseBeforeNext_length {remaining : List Nat} {input input2 : List Str}
    (h : pauseBeforeNext remaining input = some input2) :
    input2.length ≤ input.length := by
  cases remaining with
  | nil =>
    simp [pauseBeforeNext] at h
    rw [h]
  | cons c cs =>
    cases input with
    | nil => simp [pauseBeforeNext] at h
    | cons l rest =>
      simp [pauseBeforeNext] at h
      rw [← h]
      simp

/-- A round played to its end has read at least two lines per card. -/
theorem cramRound_unread_length (cards : List Nat) :
    ∀ (next : List Nat) (input : List Str) (nx : List Nat),
      (cramRound cards next input).ending = .finished nx →
        (cramRound cards next input).unread.length + 2 * cards.length ≤ input.length := by
  induction cards with
  | nil => intro next input nx _; simp [cramRound]
  | cons c cs ih =>
    intro next input nx h
    cases input with
    | nil => simp [cramRound] at h
    | cons l input1 =>
      unfold cramRound at h ⊢
      simp only at h ⊢
      cases ha : (readAnswer input1).answer with
      | none => simp [ha] at h
      | some a =>
        have hlen := readAnswer_unread_length input1 a ha
        cases a with
        | quit => simp [ha] at h
        | invalid => simp [ha] at h
        | yes =>
          simp only [ha] at h ⊢
          cases hp : pauseBeforeNext cs (readAnswer input1).unread with
          | none => simp [hp] at h
          | some input2 =>
            simp only [hp, RoundResult.after] at h ⊢
            have := ih next input2 nx h
            have := pauseBeforeNext_length hp
            simp only [List.length_cons]
            omega
        | no =>
          simp only [ha] at h ⊢
          cases hp : pauseBeforeNext cs (readAnswer input1).unread with
          | none => simp [hp] at h
          | some input2 =>
            simp only [hp, RoundResult.after] at h ⊢
            have := ih (next ++ [c]) input2 nx h
            have := pauseBeforeNext_length hp
            simp only [List.length_cons]
            omega

/-- A round played to its end on some input is played the same way on any
longer input, which it leaves unread. -/
theorem cramRound_finished_append (cards : List Nat) :
    ∀ (next : List Nat) (input : List Str) (nx : List Nat) (more : List Str),
      (cramRound cards next input).ending = .finished nx →
        cramRound cards next (input ++ more)
          = ⟨(cramRound cards next input).output, .finished nx,
              (cramRound cards next input).unread ++ more⟩ := by
  induction cards with
  | nil =>
    intro next input nx more h
    simp [cramRound] at h
    simp [cramRound, h]
  | cons c cs ih =>
    intro next input nx more h
    cases input with
    | nil => simp [cramRound] at h
    | cons l input1 =>
      simp only [List.cons_append]
      unfold cramRound at h ⊢
      simp only at h ⊢
      rw [readAnswer_append]
      cases ha : (readAnswer input1).answer with
      | none => simp [ha] at h
      | some a =>
        cases a with
        | quit => simp [ha] at h
        | invalid => simp [ha] at h
        | yes =>
          simp only [ha] at h ⊢
          cases hp : pauseBeforeNext cs (readAnswer input1).unread with
          | none => simp [hp] at h
          | some input2 =>
            simp only [hp, RoundResult.after, pauseBeforeNext_append hp] at h ⊢
            rw [ih next input2 nx more h]
        | no =>
          simp only [ha] at h ⊢
          cases hp : pauseBeforeNext cs (readAnswer input1).unread with
          | none => simp [hp] at h
          | some input2 =>
            simp only [hp, RoundResult.after, pauseBeforeNext_append hp] at h ⊢
            rw [ih (next ++ [c]) input2 nx more h]

/-- A round that waits at an answer prompt ends with "Session ended." when
the next line is a quit, and reads nothing after it. -/
theorem cramRound_quit_at_answer (cards : List Nat) :
    ∀ (next : List Nat) (input : List Str) (q : Str) (post : List Str),
      (cramRound cards next input).ending = .awaiting .answer → parseResponse q = .quit →
        cramRound cards next (input ++ q :: post)
          = ⟨(cramRound cards next input).output ++ [.sessionEnded], .quit, post⟩ := by
  induction cards with
  | nil =>
    intro next input q post h
    simp [cramRound] at h
  | cons c cs ih =>
    intro next input q post h hq
    cases input with
    | nil => simp [cramRound] at h
    | cons l input1 =>
      simp only [List.cons_append]
      unfold cramRound at h ⊢
      simp only at h ⊢
      rw [readAnswer_append]
      cases ha : (readAnswer input1).answer with
      | none => simp [ha, readAnswer_quit hq]
      | some a =>
        cases a with
        | quit => simp [ha] at h
        | invalid => exact absurd ha (readAnswer_answer_ne_invalid input1)
        | yes =>
          simp only [ha] at h ⊢
          cases hp : pauseBeforeNext cs (readAnswer input1).unread with
          | none => simp [hp] at h
          | some input2 =>
            simp only [hp, RoundResult.after, pauseBeforeNext_append hp] at h ⊢
            rw [ih next input2 q post h hq]
            simp
        | no =>
          simp only [ha] at h ⊢
          cases hp : pauseBeforeNext cs (readAnswer input1).unread with
          | none => simp [hp] at h
          | some input2 =>
            simp only [hp, RoundResult.after, pauseBeforeNext_append hp] at h ⊢
            rw [ih (next ++ [c]) input2 q post h hq]
            simp

theorem cramLoop_nil (shuffle : Nat → List Nat → List Nat) (fuel round : Nat)
    (input : List Str) : cramLoop shuffle fuel round [] input = cramFinish input := by
  cases fuel <;> simp [cramLoop]

theorem cramLoop_of_quit {shuffle : Nat → List Nat → List Nat} {round c : Nat} {cs : List Nat}
    {input : List Str} (fuel : Nat)
    (he : (cramRound (shuffle round (c :: cs)) [] input).ending = .quit) :
    cramLoop shuffle (fuel + 1) round (c :: cs) input
      = ⟨.roundStart (c :: cs).length :: (cramRound (shuffle round (c :: cs)) [] input).output,
          .quit, (cramRound (shuffle round (c :: cs)) [] input).unread⟩ := by
  rw [cramLoop]; simp only [he]

theorem cramLoop_of_awaiting {shuffle : Nat → List Nat → List Nat} {round c : Nat}
    {cs : List Nat} {input : List Str} {p : CramPrompt} (fuel : Nat)
    (he : (cramRound (shuffle round (c :: cs)) [] input).ending = .awaiting p) :
    cramLoop shuffle (fuel + 1) round (c :: cs) input
      = ⟨.roundStart (c :: cs).length :: (cramRound (shuffle round (c :: cs)) [] input).output,
          .awaiting p, []⟩ := by
  rw [cramLoop]; simp only [he]

theorem cramLoop_of_finished_nil {shuffle : Nat → List Nat → List Nat} {round c : Nat}
    {cs : List Nat} {input : List Str} (fuel : Nat)
    (he : (cramRound (shuffle round (c :: cs)) [] input).ending = .finished []) :
    cramLoop shuffle (fuel + 1) round (c :: cs) input
      = (cramFinish (cramRound (shuffle round (c :: cs)) [] input).unread).after
          (.roundStart (c :: cs).length
            :: (cramRound (shuffle round (c :: cs)) [] input).output) := by
  rw [cramLoop]; simp only [he, cramLoop_nil]

theorem cramLoop_of_finished_cons {shuffle : Nat → List Nat → List Nat} {round c : Nat}
    {cs : List Nat} {input : List Str} {n : Nat} {ns : List Nat} (fuel : Nat)
    (he : (cramRound (shuffle round (c :: cs)) [] input).ending = .finished (n :: ns)) :
    cramLoop shuffle (fuel + 1) round (c :: cs) input
      = match (cramRound (shuffle round (c :: cs)) [] input).unread with
        | [] =>
          ⟨.roundStart (c :: cs).length :: (cramRound (shuffle round (c :: cs)) [] input).output
              ++ [.roundComplete (n :: ns).length], .awaiting .continueRound, []⟩
        | continue_choice :: rest =>
          if isQuit continue_choice then
            ⟨.roundStart (c :: cs).length
                :: (cramRound (shuffle round (c :: cs)) [] input).output
                ++ [.roundComplete (n :: ns).length, .sessionEnded], .quit, rest⟩
          else
            (cramLoop shuffle fuel (round + 1) (n :: ns) rest).after
              (.roundStart (c :: cs).length
                :: (cramRound (shuffle round (c :: cs)) [] input).output
                ++ [.roundComplete (n :: ns).length]) := by
  rw [cramLoop]; simp only [he]

/-- The bound on the number of rounds plays no part once it exceeds the
number of lines. -/
theorem cramLoop_fuel (shuffle : Nat → List Nat → List Nat) (fuel : Nat) :
    ∀ (fuel' round : Nat) (cur : List Nat) (input : List Str),
      input.length < fuel → input.length < fuel' →
        cramLoop shuffle fuel round cur input = cramLoop shuffle fuel' round cur input := by
  induction fuel with
  | zero => intro fuel' round cur input h; omega
  | succ fuel ih =>
    intro fuel' round cur input h h'
    cases cur with
    | nil => rw [cramLoop_nil, cramLoop_nil]
    | cons c cs =>
      obtain ⟨f', rfl⟩ : ∃ f', fuel' = f' + 1 := ⟨fuel' - 1, by omega⟩
      cases he : (cramRound (shuffle round (c :: cs)) [] input).ending with
      | quit => rw [cramLoop_of_quit _ he, cramLoop_of_quit _ he]
      | awaiting p => rw [cramLoop_of_awaiting _ he, cramLoop_of_awaiting _ he]
      | finished nx =>
        have hlen := cramRound_unread_length _ _ _ _ he
        cases nx with
        | nil => rw [cramLoop_of_finished_nil _ he, cramLoop_of_finished_nil _ he]
        | cons n ns =>
          rw [cramLoop_of_finished_cons _ he, cramLoop_of_finished_cons _ he]
          cases hu : (cramRound (shuffle round (c :: cs)) [] input).unread with
          | nil => rfl
          | cons l rest =>
            simp only
            rw [hu] at hlen
            simp only [List.length_cons] at hlen
            rw [ih f' (round + 1) (n :: ns) rest (by omega) (by omega)]

/-- A session that waits at an answer prompt of some round ends with "Session
ended." when the next line is a quit, and reads nothing after it. -/
theorem cramLoop_quit_at_answer (shuffle : Nat → List Nat → List Nat) (fuel : Nat) :
    ∀ (round : Nat) (cur : List Nat) (input : List Str) (q : Str) (post : List Str),
      (cramLoop shuffle fuel round cur input).ending = .awaiting .answer →
      parseResponse q = .quit →
        cramLoop shuffle fuel round cur (input ++ q :: post)
          = ⟨(cramLoop shuffle fuel round cur input).output ++ [.sessionEnded], .quit, post⟩ := by
  induction fuel with
  | zero =>
    intro round cur input q post h
    cases cur with
    | nil => cases input <;> simp [cramLoop, cramFinish] at h
    | cons c cs => simp [cramLoop] at h
  | succ fuel ih =>
    intro round cur input q post h hq
    cases cur with
    | nil => cases input <;> simp [cramLoop, cramFinish] at h
    | cons c cs =>
      cases he : (cramRound (shuffle round (c :: cs)) [] input).ending with
      | quit => simp [cramLoop_of_quit _ he] at h
      | awaiting p =>
        rw [cramLoop_of_awaiting _ he] at h ⊢
        simp only [CramEnd.awaiting.injEq] at h
        subst h
        have he' := cramRound_quit_at_answer _ _ _ _ post he hq
        rw [@cramLoop_of_quit shuffle round c cs (input ++ q :: post) fuel (by rw [he'])]
        rw [he']
        simp
      | finished nx =>
        have he' := cramRound_finished_append _ _ _ _ (q :: post) he
        cases nx with
        | nil =>
          rw [cramLoop_of_finished_nil _ he] at h
          revert h
          cases (cramRound (shuffle round (c :: cs)) [] input).unread <;>
            simp [cramFinish, CramResult.after]
        | cons n ns =>
          rw [cramLoop_of_finished_cons _ he] at h ⊢
          rw [@cramLoop_of_finished_cons shuffle round c cs (input ++ q :: post) n ns fuel (by rw [he'])]
          rw [he']
          cases hu : (cramRound (shuffle round (c :: cs)) [] input).unread with
          | nil => simp [hu] at h
          | cons l rest =>
            simp only [hu, List.cons_append] at h ⊢
            by_cases hl : isQuit l = true
            · simp [hl] at h
            · simp only [hl, Bool.false_eq_true, if_false, CramResult.after] at h ⊢
              rw [ih (round + 1) (n :: ns) rest q post h hq]
              simp

theorem cramRound_no_congratulations (cards : List Nat) :
    ∀ (next : List Nat) (input : List Str),
      CramEvent.congratulations ∉ (cramRound cards next input).output := by
  induction cards with
  | nil => intro next input; simp [cramRound]
  | cons c cs ih =>
    intro next input
    cases input with
    | nil => simp [cramRound]
    | cons l input1 =>
      obtain ⟨k, hk⟩ := readAnswer_output input1
      unfold cramRound
      simp only
      cases (readAnswer input1).answer with
      | none => simp [hk]
      | some a =>
        cases a with
        | quit => simp [hk]
        | invalid => simp [hk]
        | yes =>
          cases pauseBeforeNext cs (readAnswer input1).unread with
          | none => simp [hk]
          | some input2 => simpa [hk, RoundResult.after] using ih next input2
        | no =>
          cases pauseBeforeNext cs (readAnswer input1).unread with
          | none => simp [hk]
          | some input2 => simpa [hk, RoundResult.after] using ih (next ++ [c]) input2

/-- The congratulation is printed only on the way out of the loop. -/
theorem cramLoop_congratulations (shuffle : Nat → List Nat → List Nat) (fuel : Nat) :
    ∀ (round : Nat) (cur : List Nat) (input : List Str),
      CramEvent.congratulations ∈ (cramLoop shuffle fuel round cur input).output →
        (cramLoop shuffle fuel round cur input).ending = .completed
          ∨ (cramLoop shuffle fuel round cur input).ending = .awaiting .finalReturn := by
  induction fuel with
  | zero =>
    intro round cur input h
    cases cur with
    | nil => cases input <;> simp [cramLoop, cramFinish]
    | cons c cs => simp [cramLoop] at h
  | succ fuel ih =>
    intro round cur input h
    cases cur with
    | nil => cases input <;> simp [cramLoop, cramFinish]
    | cons c cs =>
      have hr := cramRound_no_congratulations (shuffle round (c :: cs)) [] input
      cases he : (cramRound (shuffle round (c :: cs)) [] input).ending with
      | quit => simp [cramLoop_of_quit _ he, hr] at h
      | awaiting p => simp [cramLoop_of_awaiting _ he, hr] at h
      | finished nx =>
        cases nx with
        | nil =>
          rw [cramLoop_of_finished_nil _ he]
          cases (cramRound (shuffle round (c :: cs)) [] input).unread <;>
            simp [cramFinish, CramResult.after]
        | cons n ns =>
          rw [cramLoop_of_finished_cons _ he] at h ⊢
          cases hu : (cramRound (shuffle round (c :: cs)) [] input).unread with
          | nil => simp [hu, hr] at h
          | cons l rest =>
            simp only [hu] at h ⊢
            by_cases hl : isQuit l = true
            · simp [hl, hr] at h
            · simp only [hl, Bool.false_eq_true, if_false, CramResult.after] at h ⊢
              apply ih
              simpa [hr] using h

/-- Quit at an answer prompt of cram mode, for the whole session. -/
theorem run_cram_mode_quit (shuffle : Nat → List Nat → List Nat) (deck : Deck)
    (pre : List Str) (q : Str) (post : List Str)
    (h : (_run_cram_mode shuffle deck pre).ending = .awaiting .answer)
    (hq : parseResponse q = .quit) :
    _run_cram_mode shuffle deck (pre ++ q :: post)
        = ⟨(_run_cram_mode shuffle deck pre).output ++ [.sessionEnded], .quit, post⟩
      ∧ CramEvent.congratulations ∉ (_run_cram_mode shuffle deck pre).output := by
  unfold _run_cram_mode at h ⊢
  by_cases hd : deck.cards.isEmpty = true
  · cases pre <;> simp [hd] at h
  · simp only [hd, Bool.false_eq_true, if_false] at h ⊢
    cases pre with
    | nil => simp at h
    | cons e0 rest =>
      simp only [List.cons_append, CramResult.after] at h ⊢
      have hf1 := cramLoop_fuel shuffle (e0 :: rest).length
        (e0 :: (rest ++ q :: post)).length 0 (List.range deck.cards.length) rest
        (by simp) (by simp; omega)
      rw [hf1] at h ⊢
      constructor
      · rw [cramLoop_quit_at_answer shuffle _ _ _ _ q post h hq]
        simp
      · intro hc
        have hc' : CramEvent.congratulations
            ∈ (cramLoop shuffle (e0 :: (rest ++ q :: post)).length 0
                (List.range deck.cards.length) rest).output := by
          simpa using hc
        rcases cramLoop_congratulations shuffle _ _ _ _ hc' with h' | h' <;>
          rw [h'] at h <;> simp at h

/-- The bound on the number of rounds is never reached when it exceeds the
number of lines. -/
theorem cramLoop_never_outOfFuel (shuffle : Nat → List Nat → List Nat) (fuel : Nat) :
    ∀ (round : Nat) (cur : List Nat) (input : List Str), input.length < fuel →
      (cramLoop shuffle fuel round cur input).ending ≠ .outOfFuel := by
  induction fuel with
  | zero => intro round cur input h; omega
  | succ fuel ih =>
    intro round cur input h
    cases cur with
    | nil => cases input <;> simp [cramLoop, cramFinish]
    | cons c cs =>
      cases he : (cramRound (shuffle round (c :: cs)) [] input).ending with
      | quit => simp [cramLoop_of_quit _ he]
      | awaiting p => simp [cramLoop_of_awaiting _ he]
      | finished nx =>
        have hlen := cramRound_unread_length _ _ _ _ he
        cases nx with
        | nil =>
          rw [cramLoop_of_finished_nil _ he]
          cases (cramRound (shuffle round (c :: cs)) [] input).unread <;>
            simp [cramFinish, CramResult.after]
        | cons n ns =>
          rw [cramLoop_of_finished_cons _ he]
          cases hu : (cramRound (shuffle round (c :: cs)) [] input).unread with
          | nil => simp
          | cons l rest =>
            simp only
            rw [hu] at hlen
            simp only [List.length_cons] at hlen
            by_cases hl : isQuit l = true
            · simp [hl]
            · simp only [hl, Bool.false_eq_true, if_false, CramResult.after]
              exact ih (round + 1) (n :: ns) rest (by omega)

theorem run_cram_mode_never_outOfFuel (shuffle : Nat → List Nat → List Nat) (deck : Deck)
    (input : List Str) : (_run_cram_mode shuffle deck input).ending ≠ .outOfFuel := by
  unfold _run_cram_mode
  by_cases hd : deck.cards.isEmpty = true
  · cases input <;> simp [hd]
  · simp only [hd, Bool.false_eq_true, if_false]
    cases input with
    | nil => simp
    | cons e0 rest =>
      simp only [CramResult.after]
      exact cramLoop_never_outOfFuel shuffle _ _ _ _ (by simp)

/-- Whatever way a round ends, the cards it has presented are an initial part
of its shuffled list: no card of the round is shown a second time. -/
theorem cramRound_presented_initial (cards : List Nat) :
    ∀ (next : List Nat) (input : List Str),
      cramPresented (cramRound cards next input).output <+: cards := by
  induction cards with
  | nil => intro next input; simp [cramRound, cramPresented]
  | cons c cs ih =>
    intro next input
    cases input with
    | nil => simp [cramRound, cramPresented, List.prefix_cons_inj]
    | cons l input1 =>
      obtain ⟨k, hk⟩ := readAnswer_output input1
      unfold cramRound
      simp only
      cases (readAnswer input1).answer with
      | none =>
        simp [cramPresented, cramPresented_append, hk, cramPresented_replicate_invalid,
          List.prefix_cons_inj]
      | some a =>
        cases a with
        | quit =>
          simp [cramPresented, cramPresented_append, hk, cramPresented_replicate_invalid,
            List.prefix_cons_inj]
        | invalid =>
          simp [cramPresented, cramPresented_append, hk, cramPresented_replicate_invalid,
            List.prefix_cons_inj]
        | yes =>
          cases pauseBeforeNext cs (readAnswer input1).unread with
          | none =>
            simp [cramPresented, cramPresented_append, hk, cramPresented_replicate_invalid,
              List.prefix_cons_inj]
          | some input2 =>
            simpa [cramPresented, cramPresented_append, hk, cramPresented_replicate_invalid,
              List.prefix_cons_inj, RoundResult.after] using ih next input2
        | no =>
          cases pauseBeforeNext cs (readAnswer input1).unread with
          | none =>
            simp [cramPresented, cramPresented_append, hk, cramPresented_replicate_invalid,
              List.prefix_cons_inj]
          | some input2 =>
            simpa [cramPresented, cramPresented_append, hk, cramPresented_replicate_invalid,
              List.prefix_cons_inj, RoundResult.after] using ih (next ++ [c]) input2

theorem perm_pair_cases {l : List Nat} (h : l.Perm [0, 1]) : l = [0, 1] ∨ l = [1, 0] := by
  have hlen := h.length_eq
  match l, hlen with
  | [a, b], _ =>
    have ha : a ∈ [0, 1] := h.mem_iff.1 (by simp)
    have hb : b ∈ [0, 1] := h.mem_iff.1 (by simp)
    have h0 : 0 ∈ [a, b] := h.mem_iff.2 (by simp)
    have h1 : 1 ∈ [a, b] := h.mem_iff.2 (by simp)
    simp at ha hb h0 h1
    rcases ha with rfl | rfl <;> rcases hb with rfl | rfl <;> simp_all

/-- C6: in cram mode, for every shuffle that permutes the round set (the
embedding of a session always yields a result): (1) a round that is played to
its end has presented exactly the cards of its set, in the shuffled order,
each as often as it is in the set (once, the set having no repetition);
(2) the set handed to the next round is exactly the list of cards answered
incorrect in the round, in the order they were presented; (3) a round that is
cut short by a quit or by the end of the input has presented an initial part
of the shuffled order, so no card is shown twice in a round; (4) right after
the output of a round played to its end the session prints its congratulation
when the set handed on is empty, and the round-complete message in place of
it when it is not; (5) on a 2-card deck with one incorrect answer in round 1,
round 2 presents only the missed card and the session completes after a
correct answer to it. -/
theorem cram_round_and_completion (shuffle : Nat → List Nat → List Nat)
    (hperm : ∀ (round : Nat) (cards : List Nat), (shuffle round cards).Perm cards) :
    (∀ (deck : Deck) (input : List Str),
        (_run_cram_mode shuffle deck input).ending ≠ .outOfFuel)
      ∧ (∀ (round : Nat) (cards : List Nat) (input : List Str) (next : List Nat),
        (cramRound (shuffle round cards) [] input).ending = .finished next →
          cramPresented (cramRound (shuffle round cards) [] input).output = shuffle round cards
            ∧ (cramPresented (cramRound (shuffle round cards) [] input).output).Perm cards
            ∧ (cards.Nodup →
                (cramPresented (cramRound (shuffle round cards) [] input).output).Nodup)
            ∧ next = missedCards none (cramRound (shuffle round cards) [] input).output)
      ∧ (∀ (round : Nat) (cards : List Nat) (input : List Str),
          cramPresented (cramRound (shuffle round cards) [] input).output
            <+: shuffle round cards)
      ∧ (∀ (fuel round : Nat) (c : Nat) (cs : List Nat) (input : List Str) (next : List Nat),
          (cramRound (shuffle round (c :: cs)) [] input).ending = .finished next →
            (next = [] →
              cramLoop shuffle (fuel + 1) round (c :: cs) input
                = (cramFinish (cramRound (shuffle round (c :: cs)) [] input).unread).after
                    (.roundStart (c :: cs).length
                      :: (cramRound (shuffle round (c :: cs)) [] input).output))
            ∧ (next ≠ [] →
              ∃ tail, (cramLoop shuffle (fuel + 1) round (c :: cs) input).output
                = .roundStart (c :: cs).length
                    :: (cramRound (shuffle round (c :: cs)) [] input).output
                    ++ .roundComplete next.length :: tail))
      ∧ (∀ (deck : Deck), deck.cards.length = 2 →
          ∃ a b, shuffle 0 [0, 1] = [a, b]
            ∧ _run_cram_mode shuffle deck [[], [], ['n'], [], [], ['y'], [], [], ['y'], []]
                = ⟨[.banner, .roundStart 2, .front a, .back a, .incorrect, .front b, .back b,
                    .correct, .roundComplete 1, .roundStart 1, .front a, .back a, .correct,
                    .congratulations], .completed, []⟩
            ∧ _run_cram_mode shuffle deck [[], [], ['y'], [], [], ['n'], [], [], ['y'], []]
                = ⟨[.banner, .roundStart 2, .front a, .back a, .correct, .front b, .back b,
                    .incorrect, .roundComplete 1, .roundStart 1, .front b, .back b, .correct,
                    .congratulations], .completed, []⟩) := by
  refine ⟨run_cram_mode_never_outOfFuel shuffle, ?_,
    fun round cards input => cramRound_presented_initial _ _ _, ?_, ?_⟩
  · intro round cards input next h
    obtain ⟨h1, h2⟩ := cramRound_finished _ _ _ _ h
    refine ⟨h1, ?_, ?_, by simpa using h2⟩
    · rw [h1]; exact hperm round cards
    · intro hnd
      rw [h1]; exact (hperm round cards).nodup_iff.2 hnd
  · intro fuel round c cs input next h
    constructor
    · intro hn
      subst hn
      rw [cramLoop]
      simp only [h]
      cases hu : (cramRound (shuffle round (c :: cs)) [] input).unread <;>
        simp [cramLoop]
    · intro hn
      obtain ⟨n, ns, rfl⟩ : ∃ n ns, next = n :: ns := by
        cases next with
        | nil => exact absurd rfl hn
        | cons n ns => exact ⟨n, ns, rfl⟩
      rw [cramLoop]
      simp only [h]
      cases hu : (cramRound (shuffle round (c :: cs)) [] input).unread with
      | nil => exact ⟨[], by simp⟩
      | cons l rest =>
        simp only
        by_cases hq : isQuit l = true
        · exact ⟨[.sessionEnded], by simp [hq]⟩
        · exact ⟨_, by simp [hq, CramResult.after]; rfl⟩
  · intro deck hlen
    obtain ⟨sub, title, ts, cards⟩ := deck
    match cards, hlen with
    | [x, y], _ =>
      have h1 : ∀ c, shuffle 1 [c] = [c] := fun c => List.perm_singleton.1 (hperm 1 [c])
      rcases perm_pair_cases (hperm 0 [0, 1]) with h0 | h0
      · refine ⟨0, 1, h0, ?_, ?_⟩ <;>
          simp [_run_cram_mode, cramLoop, cramRound, readAnswer, parseResponse, toLowerStr,
            pauseBeforeNext, isQuit, cramFinish, CramResult.after, RoundResult.after,
            List.range, List.range.loop, h0, h1]
      · refine ⟨1, 0, h0, ?_, ?_⟩ <;>
          simp [_run_cram_mode, cramLoop, cramRound, readAnswer, parseResponse, toLowerStr,
            pauseBeforeNext, isQuit, cramFinish, CramResult.after, RoundResult.after,
            List.range, List.range.loop, h0, h1]

/-- Witness for C6: the shuffle that reverses the round set, on a round of
three cards with the first and the last card shown answered incorrect. -/
theorem cram_round_and_completion_witness :
    (∀ (_ : Nat) (cards : List Nat), cards.reverse.Perm cards)
      ∧ (cramRound [0, 1, 2].reverse [] [[], ['n'], [], [], ['y'], [], [], ['n']]).ending
          = .finished [2, 0]
      ∧ (cramPresented (cramRound [0, 1, 2].reverse []
            [[], ['n'], [], [], ['y'], [], [], ['n']]).output = [0, 1, 2].reverse
          ∧ (cramPresented (cramRound [0, 1, 2].reverse []
              [[], ['n'], [], [], ['y'], [], [], ['n']]).output).Perm [0, 1, 2]
          ∧ ([0, 1, 2].Nodup → (cramPresented (cramRound [0, 1, 2].reverse []
              [[], ['n'], [], [], ['y'], [], [], ['n']]).output).Nodup)
          ∧ [2, 0] = missedCards none (cramRound [0, 1, 2].reverse []
              [[], ['n'], [], [], ['y'], [], [], ['n']]).output) :=
  ⟨fun _ l => List.reverse_perm l, by decide,
    (cram_round_and_completion (fun _ l => l.reverse) (fun _ l => List.reverse_perm l)).2.1
      0 [0, 1, 2] [[], ['n'], [], [], ['y'], [], [], ['n']] [2, 0] (by decide)⟩

theorem normalStep_returned (s : NormalState) (h : s.pc = .returned) (line : Str) :
    normalStep s line = s := by
  obtain ⟨pc, active, known, out, lines⟩ := s
  simp only at h
  subst h
  rfl

theorem foldl_normalStep_returned (input : List Str) :
    ∀ s : NormalState, s.pc = .returned → input.foldl normalStep s = s := by
  induction input with
  | nil => intro s _; rfl
  | cons line input ih =>
    intro s h
    simp only [List.foldl_cons]
    rw [normalStep_returned s h, ih s h]

theorem run_normal_mode_append (deck : Deck) (pre post : List Str) :
    _run_normal_mode deck (pre ++ post) = post.foldl normalStep (_run_normal_mode deck pre) := by
  simp [_run_normal_mode, List.foldl_append]

theorem normalWhile_reading (s : NormalState) :
    normalReading (normalWhile s) ∧ (normalWhile s).linesRead = s.linesRead
      ∧ (normalWhile s).pc ≠ .returned := by
  obtain ⟨pc, active, known, out, lines⟩ := s
  cases active <;> simp [normalWhile, normalReading]

theorem normalAfterAnswer_reading (s : NormalState) :
    normalReading (normalAfterAnswer s) ∧ (normalAfterAnswer s).linesRead = s.linesRead
      ∧ (normalAfterAnswer s).pc ≠ .returned := by
  unfold normalAfterAnswer
  by_cases he : s.active_cards ≠ []
  · rw [if_pos he]
    simp [normalReading]
  · rw [if_neg he]
    exact normalWhile_reading s

/-- While the session has not returned, every step reads one line and keeps
a card on screen at the flip and answer prompts. -/
theorem normalStep_reading (s : NormalState) (line : Str) (h : normalReading s) :
    normalReading (normalStep s line)
      ∧ ((normalStep s line).pc ≠ .returned →
          s.pc ≠ .returned ∧ (normalStep s line).linesRead = s.linesRead + 1) := by
  obtain ⟨pc, active, known, out, lines⟩ := s
  cases pc with
  | returned => exact ⟨h, fun h' => absurd rfl h'⟩
  | emptyReturn => simp [normalStep, normalReading]
  | finalReturn => simp [normalStep, normalReading]
  | start =>
    have := normalWhile_reading ⟨.start, active, known, out, lines + 1⟩
    simp only [normalStep]
    exact ⟨this.1, fun _ => ⟨by simp, this.2.1⟩⟩
  | nextCard =>
    have := normalWhile_reading ⟨.nextCard, active, known, out, lines + 1⟩
    simp only [normalStep]
    exact ⟨this.1, fun _ => ⟨by simp, this.2.1⟩⟩
  | flip =>
    cases active with
    | nil => exact absurd rfl (h (Or.inl rfl))
    | cons c rest => simp [normalStep, normalReading]
  | answer =>
    cases active with
    | nil => exact absurd rfl (h (Or.inr rfl))
    | cons c rest =>
      simp only [normalStep]
      cases parseResponse line with
      | quit => simp [normalReading]
      | invalid => simp [normalReading]
      | yes =>
        have := normalAfterAnswer_reading
          ⟨.answer, rest, known + 1, out ++ [.correct rest.length], lines + 1⟩
        exact ⟨this.1, fun _ => ⟨by simp, this.2.1⟩⟩
      | no =>
        have := normalAfterAnswer_reading
          ⟨.answer, rest ++ [c], known, out ++ [.incorrect (rest ++ [c]).length], lines + 1⟩
        exact ⟨this.1, fun _ => ⟨by simp, this.2.1⟩⟩

theorem normalReading_foldl (input : List Str) :
    ∀ (s : NormalState) (m : Nat), normalReading s → (s.pc ≠ .returned → s.linesRead = m) →
      normalReading (input.foldl normalStep s)
        ∧ ((input.foldl normalStep s).pc ≠ .returned →
            (input.foldl normalStep s).linesRead = m + input.length) := by
  induction input with
  | nil => intro s m h1 h2; exact ⟨h1, by simpa using h2⟩
  | cons line input ih =>
    intro s m h1 h2
    simp only [List.foldl_cons, List.length_cons]
    obtain ⟨h3, h4⟩ := normalStep_reading s line h1
    obtain ⟨h5, h6⟩ := ih (normalStep s line) (m + 1) h3 (fun hne => by
      obtain ⟨h7, h8⟩ := h4 hne
      rw [h8, h2 h7])
    exact ⟨h5, fun hne => by rw [h6 hne]; omega⟩

theorem normalReading_run (deck : Deck) (input : List Str) :
    normalReading (_run_normal_mode deck input)
      ∧ ((_run_normal_mode deck input).pc ≠ .returned →
          (_run_normal_mode deck input).linesRead = input.length) := by
  have h := normalReading_foldl input (normalInit deck) 0
    (by unfold normalInit normalReading; split <;> simp)
    (by unfold normalInit; split <;> simp)
  simpa [_run_normal_mode] using h

/-- C7: in normal mode the working queue starts as the cards of the deck in
deck order (the indices 0, 1, ..., n-1). At an answer prompt with the queue
`c :: rest`, a correct response leaves the queue `rest` and raises the
known-count by one; an incorrect response leaves the queue `rest ++ [c]`, the
other cards keeping their order, and the card presented after the pause is the
former second card, or `c` again when it was the only one left. -/
theorem normal_mode_queue (deck : Deck) :
    (normalInit deck).active_cards = List.range deck.cards.length
      ∧ (∀ (pre : List Str) (line : Str) (c : Nat) (rest : List Nat),
          (_run_normal_mode deck pre).pc = .answer →
          (_run_normal_mode deck pre).active_cards = c :: rest →
            (parseResponse line = .yes →
              (_run_normal_mode deck (pre ++ [line])).active_cards = rest
                ∧ (_run_normal_mode deck (pre ++ [line])).known_count
                    = (_run_normal_mode deck pre).known_count + 1)
            ∧ (parseResponse line = .no →
              (_run_normal_mode deck (pre ++ [line])).active_cards = rest ++ [c]
                ∧ (_run_normal_mode deck (pre ++ [line])).known_count
                    = (_run_normal_mode deck pre).known_count
                ∧ ∀ pause : Str,
                    (_run_normal_mode deck (pre ++ [line, pause])).output
                      = (_run_normal_mode deck pre).output
                          ++ [.incorrect (rest.length + 1), .front (rest.headD c)]
                    ∧ (_run_normal_mode deck (pre ++ [line, pause])).active_cards
                      = rest ++ [c])) := by
  constructor
  · unfold normalInit
    cases h : deck.cards <;> simp
  · intro pre line c rest hpc hq
    generalize hs : _run_normal_mode deck pre = s at hpc hq
    obtain ⟨pc, active, known, out, lines⟩ := s
    simp only at hpc hq
    subst hpc hq
    constructor
    · intro hy
      rw [run_normal_mode_append, hs]
      simp only [List.foldl_cons, List.foldl_nil, normalStep, hy]
      unfold normalAfterAnswer
      cases rest <;> simp [normalWhile]
    · intro hn
      simp only [run_normal_mode_append, hs]
      simp only [List.foldl_cons, List.foldl_nil, normalStep, hn]
      unfold normalAfterAnswer
      cases rest <;> simp [normalWhile, normalStep]

/-- Witness for C7: the sample deck at its first answer prompt, answered
incorrect. -/
theorem normal_mode_queue_witness :
    (_run_normal_mode sampleDeck3 [[], []]).pc = .answer
      ∧ (_run_normal_mode sampleDeck3 [[], []]).active_cards = 0 :: [1, 2]
      ∧ parseResponse ['n'] = .no
      ∧ ((_run_normal_mode sampleDeck3 ([[], []] ++ [['n']])).active_cards = [1, 2] ++ [0]
          ∧ (_run_normal_mode sampleDeck3 ([[], []] ++ [['n']])).known_count
              = (_run_normal_mode sampleDeck3 [[], []]).known_count
          ∧ ∀ pause : Str,
              (_run_normal_mode sampleDeck3 ([[], []] ++ [['n'], pause])).output
                = (_run_normal_mode sampleDeck3 [[], []]).output
                    ++ [.incorrect ([1, 2].length + 1), .front ([1, 2].headD 0)]
              ∧ (_run_normal_mode sampleDeck3 ([[], []] ++ [['n'], pause])).active_cards
                = [1, 2] ++ [0]) :=
  ⟨by decide, by decide, by decide,
    ((normal_mode_queue sampleDeck3).2 [[], []] ['n'] 0 [1, 2] (by decide) (by decide)).2
      (by decide)⟩

/-- C8: in both study modes, when the session waits at the answer prompt of
a card and the next line is "quit" or "q" in any letter case, the session
prints "Session ended." and returns: the output is the output so far followed
by that one message (no further card, no round message, no congratulation,
which was not printed before either), and none of the lines typed after the
quit is read, whatever the queue or the round still holds. -/
theorem quit_ends_session (shuffle : Nat → List Nat → List Nat) (deck : Deck)
    (pre : List Str) (q : Str) (post : List Str)
    (hq : toLowerStr q = "quit".toList ∨ toLowerStr q = "q".toList) :
    ((_run_normal_mode deck pre).pc = .answer →
        _run_normal_mode deck (pre ++ q :: post)
            = ⟨.returned, (_run_normal_mode deck pre).active_cards,
                (_run_normal_mode deck pre).known_count,
                (_run_normal_mode deck pre).output ++ [.sessionEnded], pre.length + 1⟩
          ∧ ∀ k, NormalEvent.congratulations k ∉ (_run_normal_mode deck pre).output)
      ∧ ((_run_cram_mode shuffle deck pre).ending = .awaiting .answer →
          _run_cram_mode shuffle deck (pre ++ q :: post)
              = ⟨(_run_cram_mode shuffle deck pre).output ++ [.sessionEnded], .quit, post⟩
            ∧ CramEvent.congratulations ∉ (_run_cram_mode shuffle deck pre).output) := by
  have hq' := (parseResponse_quit_iff q).2 hq
  constructor
  · intro hpc
    obtain ⟨hread, hlines⟩ := normalReading_run deck pre
    obtain ⟨_, _, h3, _⟩ := normalInvariant_run deck pre
    have hl := hlines (by rw [hpc]; simp)
    have hne := hread (Or.inr hpc)
    constructor
    · rw [run_normal_mode_append]
      generalize _run_normal_mode deck pre = s at hpc hl hne
      obtain ⟨pc, active, known, out, lines⟩ := s
      simp only at hpc hl hne
      subst hpc hl
      cases active with
      | nil => exact absurd rfl hne
      | cons c rest =>
        simp only [List.foldl_cons, normalStep, hq']
        rw [foldl_normalStep_returned _ _ rfl]
    · intro k hk
      rcases (h3 k hk).2.2 with h | h <;> rw [hpc] at h <;> simp at h
  · intro h
    exact run_cram_mode_quit shuffle deck pre q post h hq'

/-- Witness for C8: "QUIT" at the first answer prompt of the sample deck, with
more lines typed after it. -/
theorem quit_ends_session_witness :
    (toLowerStr "QUIT".toList = "quit".toList ∨ toLowerStr "QUIT".toList = "q".toList)
      ∧ (_run_normal_mode sampleDeck3 [[], []]).pc = .answer
      ∧ (_run_cram_mode (fun _ l => l) sampleDeck3 [[], []]).ending = .awaiting .answer
      ∧ (_run_normal_mode sampleDeck3 ([[], []] ++ "QUIT".toList :: [['y'], []])
            = ⟨.returned, (_run_normal_mode sampleDeck3 [[], []]).active_cards,
                (_run_normal_mode sampleDeck3 [[], []]).known_count,
                (_run_normal_mode sampleDeck3 [[], []]).output ++ [.sessionEnded],
                ([[], []] : List Str).length + 1⟩
          ∧ ∀ k, NormalEvent.congratulations k ∉ (_run_normal_mode sampleDeck3 [[], []]).output)
      ∧ (_run_cram_mode (fun _ l => l) sampleDeck3 ([[], []] ++ "QUIT".toList :: [['y'], []])
            = ⟨(_run_cram_mode (fun _ l => l) sampleDeck3 [[], []]).output ++ [.sessionEnded],
                .quit, [['y'], []]⟩
          ∧ CramEvent.congratulations
              ∉ (_run_cram_mode (fun _ l => l) sampleDeck3 [[], []]).output) :=
  ⟨by decide, by decide, by decide,
    (quit_ends_session (fun _ l => l) sampleDeck3 [[], []] "QUIT".toList [['y'], []]
      (by decide)).1 (by decide),
    (quit_ends_session (fun _ l => l) sampleDeck3 [[], []] "QUIT".toList [['y'], []]
      (by decide)).2 (by decide)⟩

/-! ## Persistence: the stream operations -/

theorem digitChar_spec (d : Nat) (h : d < 10) :
    isDigitChar (digitChar d) = true ∧ digitVal (digitChar d) = d := by
  interval_cases d <;> decide

theorem digitsToNat_append_singleton (ds : Str) (c : Char) :
    digitsToNat (ds ++ [c]) = digitsToNat ds * 10 + digitVal c := by
  simp [digitsToNat, List.foldl_append]

theorem showNatAux_spec (fuel : Nat) :
    ∀ (n : Nat) (acc : Str), n < fuel →
      ∃ ds, showNatAux fuel n acc = ds ++ acc ∧ ds ≠ []
        ∧ (∀ c ∈ ds, isDigitChar c = true) ∧ digitsToNat ds = n := by
  induction fuel with
  | zero => intro n acc h; omega
  | succ fuel ih =>
    intro n acc h
    unfold showNatAux
    by_cases h10 : n < 10
    · rw [if_pos h10]
      refine ⟨[digitChar n], rfl, by simp, ?_, ?_⟩
      · intro c hc
        simp at hc
        rw [hc]
        exact (digitChar_spec n h10).1
      · simp [digitsToNat, (digitChar_spec n h10).2]
    · rw [if_neg h10]
      obtain ⟨ds, h1, h2, h3, h4⟩ := ih (n / 10) (digitChar (n % 10) :: acc) (by omega)
      have hd := digitChar_spec (n % 10) (by omega)
      refine ⟨ds ++ [digitChar (n % 10)], by simp [h1], by simp, ?_, ?_⟩
      · intro c hc
        rcases List.mem_append.1 hc with hc | hc
        · exact h3 c hc
        · simp at hc
          rw [hc]
          exact hd.1
      · rw [digitsToNat_append_singleton, h4, hd.2]
        omega

/-- The digits written for a size: not empty, all decimal digits, and of the
value written. -/
theorem showNat_spec (n : Nat) :
    showNat n ≠ [] ∧ (∀ c ∈ showNat n, isDigitChar c = true) ∧ digitsToNat (showNat n) = n := by
  obtain ⟨ds, h1, h2, h3, h4⟩ := showNatAux_spec (n + 1) n [] (by omega)
  have : showNat n = ds := by simp [showNat, h1]
  rw [this]
  exact ⟨h2, h3, h4⟩

theorem isDigitChar_not_space {c : Char} (h : isDigitChar c = true) :
    isSpaceChar c = false ∧ c ≠ '-' ∧ c ≠ '+' ∧ c ≠ '\n' := by
  simp only [isDigitChar, decide_eq_true_eq] at h
  have h1 : (48 : Nat) ≤ c.toNat := by
    have := h.1
    exact this
  refine ⟨?_, ?_, ?_, ?_⟩
  · simp only [isSpaceChar, Bool.or_eq_false_iff, decide_eq_false_iff_not]
    refine ⟨⟨⟨⟨⟨?_, ?_⟩, ?_⟩, ?_⟩, ?_⟩, ?_⟩ <;> rintro rfl <;> simp at h1
  all_goals rintro rfl; simp at h1

theorem takeWhile_digits_append {ds rest : Str} (h : ∀ c ∈ ds, isDigitChar c = true) :
    (ds ++ '\n' :: rest).takeWhile isDigitChar = ds
      ∧ (ds ++ '\n' :: rest).dropWhile isDigitChar = '\n' :: rest := by
  induction ds with
  | nil => exact ⟨by simp [List.takeWhile, isDigitChar], by simp [List.dropWhile, isDigitChar]⟩
  | cons d ds ih =>
    have hd := h d (by simp)
    obtain ⟨h1, h2⟩ := ih (fun c hc => h c (by simp [hc]))
    simp [List.takeWhile, List.dropWhile, hd, h1, h2]

/-- Reading back a size that was written, followed by the end of its line. -/
theorem extractNumber_showNat (n : Nat) (rest : Str) :
    extractNumber (showNat n ++ '\n' :: rest) = some (false, n, '\n' :: rest) := by
  obtain ⟨h1, h2, h3⟩ := showNat_spec n
  obtain ⟨d, ds, hds⟩ : ∃ d ds, showNat n = d :: ds := by
    cases h : showNat n with
    | nil => exact absurd h h1
    | cons d ds => exact ⟨d, ds, rfl⟩
  have hd : isDigitChar d = true := h2 d (by simp [hds])
  obtain ⟨hs, hm, hp, _⟩ := isDigitChar_not_space hd
  obtain ⟨ht, hdr⟩ := @takeWhile_digits_append (showNat n) rest h2
  unfold extractNumber
  have hskip : (showNat n ++ '\n' :: rest).dropWhile isSpaceChar = showNat n ++ '\n' :: rest := by
    rw [hds]
    simp [List.dropWhile, hs]
  have hsign : splitSign (showNat n ++ '\n' :: rest) = (false, showNat n ++ '\n' :: rest) := by
    rw [hds]
    simp only [List.cons_append]
    unfold splitSign
    split
    · next h => simp at h; exact absurd h.1 hm
    · next h => simp at h; exact absurd h.1 hp
    · rfl
  simp only [hskip, hsign, ht, hdr, h1, if_false, h3]

theorem extractSizeT_showNat (n : Nat) (rest : Str) :
    extractSizeT (showNat n ++ '\n' :: rest) = some (n, '\n' :: rest) := by
  simp [extractSizeT, extractNumber_showNat]

theorem ignoreLine_newline (rest : Str) : ignoreLine ('\n' :: rest) = rest := by
  simp [ignoreLine, List.dropWhile, notNewline]

theorem readCountLine_showNat (n : Nat) (rest : Str) :
    readCountLine (showNat n ++ '\n' :: rest) = some (n, rest) := by
  simp [readCountLine, extractNumber_showNat, ignoreLine_newline]

theorem takeWhile_line {s : Str} (h : noNewline s) (rest : Str) :
    (s ++ '\n' :: rest).takeWhile notNewline = s
      ∧ (s ++ '\n' :: rest).dropWhile notNewline = '\n' :: rest := by
  induction s with
  | nil => simp [List.takeWhile, List.dropWhile, notNewline]
  | cons c s ih =>
    have hc : notNewline c = true := by
      simp only [notNewline, bne_iff_ne]
      exact fun hc => h (by simp [hc])
    obtain ⟨h1, h2⟩ := ih (fun hm => h (by simp [hm]))
    simp [List.takeWhile, List.dropWhile, hc, h1, h2]

/-- Reading back a line that was written. -/
theorem getline_line {s : Str} (h : noNewline s) (rest : Str) :
    getline (s ++ '\n' :: rest) = some (s, rest) := by
  obtain ⟨h1, h2⟩ := takeWhile_line h rest
  unfold getline
  cases hs : s ++ '\n' :: rest with
  | nil => simp at hs
  | cons c cs =>
    rw [← hs, h1, h2]
    simp

theorem getline_length {input line rest : Str} (h : getline input = some (line, rest)) :
    rest.length < input.length := by
  unfold getline at h
  cases input with
  | nil => simp at h
  | cons c cs =>
    simp only [Option.some.injEq, Prod.mk.injEq] at h
    rw [← h.2]
    have := (@List.dropWhile_sublist _ (c :: cs) notNewline).length_le
    simp only [List.length_drop, List.length_cons] at this ⊢
    omega

/-- The bound on the number of content lines plays no part once it exceeds
the length of the input. -/
theorem readContentLines_fuel (fuel : Nat) :
    ∀ (fuel' : Nat) (input content : Str), input.length < fuel → input.length < fuel' →
      readContentLines fuel input content = readContentLines fuel' input content := by
  induction fuel with
  | zero => intro fuel' input content h; omega
  | succ fuel ih =>
    intro fuel' input content h h'
    obtain ⟨f', rfl⟩ : ∃ f', fuel' = f' + 1 := ⟨fuel' - 1, by omega⟩
    rw [readContentLines, readContentLines]
    cases hg : getline input with
    | none => rfl
    | some p =>
      obtain ⟨line, rest⟩ := p
      have := getline_length hg
      simp only
      split
      · rfl
      · exact ih f' rest _ (by omega) (by omega)


/-! ## Persistence: the class schedule file -/

theorem readDays_saved (days : List Str) (h : ∀ day ∈ days, noNewline day) (rest : Str) :
    readDays days.length ((days.map (fun day => day ++ ['\n'])).flatten ++ rest)
      = some (days, rest) := by
  induction days with
  | nil => simp [readDays]
  | cons day days ih =>
    have hd := h day (by simp)
    have ih' := ih (fun d hd' => h d (by simp [hd']))
    simp [readDays, getline_line hd, ih']

theorem readClass_saved (cls : ClassDetails) (h1 : noNewline cls.subject)
    (h2 : noNewline cls.startTime) (h3 : noNewline cls.endTime) (h4 : noNewline cls.venue)
    (h5 : ∀ day ∈ cls.daysOfWeek, noNewline day) (rest : Str) :
    readClass (saveClassDetails cls ++ rest) = some (cls, rest) := by
  simp [readClass, saveClassDetails, getline_line h1, getline_line h2, getline_line h3,
    getline_line h4, extractSizeT_showNat, ignoreLine_newline, readDays_saved _ h5]

/-- No text field of the class holds a newline character. -/
theorem readClasses_saved (classes : List ClassDetails)
    (h : ∀ cls ∈ classes, noNewline cls.subject ∧ noNewline cls.startTime
      ∧ noNewline cls.endTime ∧ noNewline cls.venue ∧ ∀ day ∈ cls.daysOfWeek, noNewline day)
    (rest : Str) :
    readClasses classes.length ((classes.map saveClassDetails).flatten ++ rest)
      = some (classes, rest) := by
  induction classes with
  | nil => simp [readClasses]
  | cons cls classes ih =>
    obtain ⟨h1, h2, h3, h4, h5⟩ := h cls (by simp)
    have ih' := ih (fun c hc => h c (by simp [hc]))
    simp [readClasses, readClass_saved cls h1 h2 h3 h4 h5, ih']

/-- C9: for every class schedule whose subject, startTime, endTime, venue and
day strings hold no newline character, `loadClassScheduleFromFile` applied to
the text written by `saveClassScheduleToFile` yields the same list of classes:
the same number, in the same order, with identical fields and the same
`daysOfWeek`, whatever the schedule held before the load. -/
theorem class_schedule_roundtrip (classSchedule before : List ClassDetails)
    (h : ∀ cls ∈ classSchedule, '\n' ∉ cls.subject ∧ '\n' ∉ cls.startTime
      ∧ '\n' ∉ cls.endTime ∧ '\n' ∉ cls.venue ∧ ∀ day ∈ cls.daysOfWeek, '\n' ∉ day) :
    loadClassScheduleFromFile (some (saveClassScheduleToFile classSchedule)) before
      = classSchedule := by
  have := readClasses_saved classSchedule h []
  rw [List.append_nil] at this
  simp [loadClassScheduleFromFile, saveClassScheduleToFile, extractSizeT_showNat,
    ignoreLine_newline, this]

/-- Witness for C9: three classes with two days each. -/
theorem class_schedule_roundtrip_witness :
    (∀ cls ∈ sampleSchedule, '\n' ∉ cls.subject ∧ '\n' ∉ cls.startTime
        ∧ '\n' ∉ cls.endTime ∧ '\n' ∉ cls.venue ∧ ∀ day ∈ cls.daysOfWeek, '\n' ∉ day)
      ∧ loadClassScheduleFromFile (some (saveClassScheduleToFile sampleSchedule)) [sampleMath]
          = sampleSchedule :=
  ⟨by decide, class_schedule_roundtrip sampleSchedule [sampleMath] (by decide)⟩

/-! ## Persistence: the notebooks file -/

theorem splitLines_line_cons {pre : Str} (h : noNewline pre) (cs : Str) :
    splitLines (pre ++ '\n' :: cs) = pre :: splitLines cs := by
  induction pre with
  | nil => simp [splitLines]
  | cons c pre ih =>
    have hc : c ≠ '\n' := fun hc => h (by simp [hc])
    have ih' := ih (fun hm => h (by simp [hm]))
    simp only [List.cons_append]
    rw [splitLines, if_neg hc, ih']

theorem splitLines_line {pre : Str} (h : noNewline pre) : splitLines pre = [pre] := by
  induction pre with
  | nil => simp [splitLines]
  | cons c pre ih =>
    have hc : c ≠ '\n' := fun hc => h (by simp [hc])
    have ih' := ih (fun hm => h (by simp [hm]))
    rw [splitLines, if_neg hc, ih']

theorem noNewline_end_delimiter : noNewline NOTE_CONTENT_END_DELIMITER := by
  unfold noNewline NOTE_CONTENT_END_DELIMITER
  decide

theorem noNewline_start_delimiter : noNewline NOTE_CONTENT_START_DELIMITER := by
  unfold noNewline NOTE_CONTENT_START_DELIMITER
  decide

/-- The content loop on a saved content: every line up to the end delimiter
is gathered with its newline. `pre` is the part of the current line already
passed. -/
theorem readContentLines_saved (content : Str) :
    ∀ (pre acc rest : Str) (fuel : Nat), noNewline pre →
      NOTE_CONTENT_END_DELIMITER ∉ splitLines (pre ++ content) →
      content.length + 1 < fuel →
        readContentLines fuel
            (pre ++ content ++ '\n' :: (NOTE_CONTENT_END_DELIMITER ++ '\n' :: rest)) acc
          = some (acc ++ pre ++ content ++ ['\n'], rest) := by
  induction content with
  | nil =>
    intro pre acc rest fuel hpre hend hfuel
    obtain ⟨f, rfl⟩ : ∃ f, fuel = f + 2 := ⟨fuel - 2, by simp at hfuel; omega⟩
    rw [List.append_nil, splitLines_line hpre] at hend
    have hne : pre ≠ NOTE_CONTENT_END_DELIMITER := fun h => hend (by simp [h])
    simp only [List.append_nil]
    rw [readContentLines, getline_line hpre]
    simp only [hne, if_false]
    rw [readContentLines, getline_line noNewline_end_delimiter]
    simp
  | cons c cs ih =>
    intro pre acc rest fuel hpre hend hfuel
    by_cases hc : c = '\n'
    · subst hc
      obtain ⟨f, rfl⟩ : ∃ f, fuel = f + 1 := ⟨fuel - 1, by omega⟩
      rw [splitLines_line_cons hpre] at hend
      have hne : pre ≠ NOTE_CONTENT_END_DELIMITER := fun h => hend (by simp [h])
      have hend' : NOTE_CONTENT_END_DELIMITER ∉ splitLines ([] ++ cs) := fun h =>
        hend (by simp at h; simp [h])
      have hrec := ih [] (acc ++ pre ++ ['\n']) rest f (by simp [noNewline]) hend'
        (by simp at hfuel ⊢; omega)
      simp only [List.append_assoc, List.cons_append, List.nil_append] at hrec ⊢
      rw [readContentLines, getline_line hpre]
      simp only [hne, if_false]
      simp only [List.append_assoc, List.cons_append, List.nil_append, List.singleton_append]
      rw [hrec]
    · have hpre' : noNewline (pre ++ [c]) := by
        unfold noNewline at hpre ⊢
        simp only [List.mem_append, List.mem_singleton, not_or]
        exact ⟨hpre, fun h => hc h.symm⟩
      have hrec := ih (pre ++ [c]) acc rest fuel hpre'
        (by simpa using hend) (by simp at hfuel ⊢; omega)
      simpa using hrec

theorem popTrailingNewline_saved (content : Str) :
    popTrailingNewline (content ++ ['\n']) = content := by
  simp [popTrailingNewline]

theorem readNote_saved (note : Note) (h1 : noNewline note.topic_title)
    (h2 : noNewline note.timestamp)
    (h3 : NOTE_CONTENT_END_DELIMITER ∉ splitLines note.content) (rest : Str) :
    readNote (saveNote note ++ rest) = some (note, rest) := by
  have hc := readContentLines_saved note.content [] [] rest
    ((note.content ++ '\n' :: (NOTE_CONTENT_END_DELIMITER ++ '\n' :: rest)).length + 1)
    (by simp [noNewline]) (by simpa using h3) (by simp)
  simp only [List.nil_append] at hc
  simp only [readNote, saveNote, List.append_assoc, List.cons_append, List.nil_append,
    List.singleton_append, getline_line h1, getline_line h2,
    getline_line noNewline_start_delimiter, hc, popTrailingNewline_saved, ne_eq,
    not_true_eq_false, if_false]

theorem readNotes_saved (notes : List Note)
    (h : ∀ note ∈ notes, noNewline note.topic_title ∧ noNewline note.timestamp
      ∧ NOTE_CONTENT_END_DELIMITER ∉ splitLines note.content) (rest : Str) :
    readNotes notes.length ((notes.map saveNote).flatten ++ rest) = some (notes, rest) := by
  induction notes with
  | nil => simp [readNotes]
  | cons note notes ih =>
    obtain ⟨h1, h2, h3⟩ := h note (by simp)
    have ih' := ih (fun n hn => h n (by simp [hn]))
    simp [readNotes, readNote_saved note h1 h2 h3, ih']

theorem readNotebook_saved (nb : Notebook) (h1 : noNewline nb.subject)
    (h2 : ∀ note ∈ nb.notes, noNewline note.topic_title ∧ noNewline note.timestamp
      ∧ NOTE_CONTENT_END_DELIMITER ∉ splitLines note.content) (rest : Str) :
    readNotebook (saveNotebook nb ++ rest) = some (nb, rest) := by
  simp [readNotebook, saveNotebook, getline_line h1, readCountLine_showNat,
    readNotes_saved nb.notes h2]

theorem readNotebooks_saved (nbs : List Notebook)
    (h : ∀ nb ∈ nbs, noNewline nb.subject
      ∧ ∀ note ∈ nb.notes, noNewline note.topic_title ∧ noNewline note.timestamp
        ∧ NOTE_CONTENT_END_DELIMITER ∉ splitLines note.content) (rest : Str) :
    readNotebooks nbs.length ((nbs.map saveNotebook).flatten ++ rest) = some (nbs, rest) := by
  induction nbs with
  | nil => simp [readNotebooks]
  | cons nb nbs ih =>
    obtain ⟨h1, h2⟩ := h nb (by simp)
    have ih' := ih (fun n hn => h n (by simp [hn]))
    simp [readNotebooks, readNotebook_saved nb h1 h2, ih']

/-- C10: for every notebook collection in which no subject, topic_title or
timestamp holds a newline and no line of a note content (the pieces between
its newline characters) is the end delimiter `---CONTENT_END---`,
`load_notebooks_from_file` applied to the text written by
`save_notebooks_to_file` yields the same notebooks and notes with identical
fields, the content character for character (empty contents and contents
ending with a newline included), whatever was held before the load. -/
theorem notebooks_roundtrip (notebooks before : List Notebook)
    (h : ∀ nb ∈ notebooks, '\n' ∉ nb.subject
      ∧ ∀ note ∈ nb.notes, '\n' ∉ note.topic_title ∧ '\n' ∉ note.timestamp
        ∧ NOTE_CONTENT_END_DELIMITER ∉ splitLines note.content) :
    load_notebooks_from_file (some (save_notebooks_to_file notebooks)) before = notebooks := by
  have := readNotebooks_saved notebooks h []
  rw [List.append_nil] at this
  simp [load_notebooks_from_file, save_notebooks_to_file, readCountLine_showNat, this]

/-- Witness for C10: notes with a two-line content, an empty content and a
content ending with a newline. -/
theorem notebooks_roundtrip_witness :
    (∀ nb ∈ sampleNotebooks, '\n' ∉ nb.subject
        ∧ ∀ note ∈ nb.notes, '\n' ∉ note.topic_title ∧ '\n' ∉ note.timestamp
          ∧ NOTE_CONTENT_END_DELIMITER ∉ splitLines note.content)
      ∧ load_notebooks_from_file (some (save_notebooks_to_file sampleNotebooks)) []
          = sampleNotebooks :=
  ⟨by decide, notebooks_roundtrip sampleNotebooks [] (by decide)⟩

/-! ## Persistence: the flashcards file -/

theorem readOptions_saved (options : List Str) (h : ∀ option ∈ options, noNewline option)
    (rest : Str) :
    readOptions options.length ((options.map (fun option => option ++ ['\n'])).flatten ++ rest)
      = some (options, rest) := by
  induction options with
  | nil => simp [readOptions]
  | cons option options ih =>
    have hd := h option (by simp)
    have ih' := ih (fun d hd' => h d (by simp [hd']))
    simp [readOptions, getline_line hd, ih']

theorem readCard_saved (card : Card) (h1 : noNewline card.type) (h2 : noNewline card.question)
    (h3 : noNewline card.answer) (h4 : ∀ option ∈ card.options, noNewline option) (rest : Str) :
    readCard (saveCard card ++ rest) = some (savedCard card, rest) := by
  obtain ⟨type, question, answer, options⟩ := card
  simp only at h1 h2 h3 h4
  by_cases hmc : type = MULTIPLE_CHOICE
  · subst hmc
    simp [readCard, saveCard, savedCard, getline_line h1, getline_line h2, getline_line h3,
      readCountLine_showNat, readOptions_saved _ h4]
  · simp [readCard, saveCard, savedCard, hmc, getline_line h1, getline_line h2,
      getline_line h3]

theorem readCards_saved (cards : List Card)
    (h : ∀ card ∈ cards, noNewline card.type ∧ noNewline card.question
      ∧ noNewline card.answer ∧ ∀ option ∈ card.options, noNewline option)
    (rest : Str) :
    readCards cards.length ((cards.map saveCard).flatten ++ rest)
      = some (cards.map savedCard, rest) := by
  induction cards with
  | nil => simp [readCards]
  | cons card cards ih =>
    obtain ⟨h1, h2, h3, h4⟩ := h card (by simp)
    have ih' := ih (fun c hc => h c (by simp [hc]))
    simp [readCards, readCard_saved card h1 h2 h3 h4, ih']

theorem readDeck_saved (deck : Deck) (h1 : noNewline deck.subject) (h2 : noNewline deck.title)
    (h3 : noNewline deck.timestamp)
    (h4 : ∀ card ∈ deck.cards, noNewline card.type ∧ noNewline card.question
      ∧ noNewline card.answer ∧ ∀ option ∈ card.options, noNewline option)
    (rest : Str) :
    readDeck (saveDeck deck ++ rest) = some (savedDeck deck, rest) := by
  simp [readDeck, saveDeck, savedDeck, getline_line h1, getline_line h2, getline_line h3,
    readCountLine_showNat, readCards_saved _ h4]

theorem readDecks_saved (decks : List Deck)
    (h : ∀ deck ∈ decks, noNewline deck.subject ∧ noNewline deck.title
      ∧ noNewline deck.timestamp
      ∧ ∀ card ∈ deck.cards, noNewline card.type ∧ noNewline card.question
        ∧ noNewline card.answer ∧ ∀ option ∈ card.options, noNewline option)
    (rest : Str) :
    readDecks decks.length ((decks.map saveDeck).flatten ++ rest)
      = some (decks.map savedDeck, rest) := by
  induction decks with
  | nil => simp [readDecks]
  | cons deck decks ih =>
    obtain ⟨h1, h2, h3, h4⟩ := h deck (by simp)
    have ih' := ih (fun c hc => h c (by simp [hc]))
    simp [readDecks, readDeck_saved deck h1 h2 h3 h4, ih']

theorem load_flashcards_saved (flashcard_decks before : List Deck)
    (h : ∀ deck ∈ flashcard_decks, noNewline deck.subject ∧ noNewline deck.title
      ∧ noNewline deck.timestamp
      ∧ ∀ card ∈ deck.cards, noNewline card.type ∧ noNewline card.question
        ∧ noNewline card.answer ∧ ∀ option ∈ card.options, noNewline option) :
    load_flashcards_from_file (some (save_flashcards_to_file flashcard_decks)) before
      = flashcard_decks.map savedDeck := by
  have := readDecks_saved flashcard_decks h []
  rw [List.append_nil] at this
  simp [load_flashcards_from_file, save_flashcards_to_file, readCountLine_showNat, this]

theorem saveCard_savedCard (card : Card) : saveCard (savedCard card) = saveCard card := by
  by_cases hmc : card.type = MULTIPLE_CHOICE
  · simp [savedCard, hmc]
  · simp [savedCard, saveCard, hmc]

theorem saveDeck_savedDeck (deck : Deck) : saveDeck (savedDeck deck) = saveDeck deck := by
  simp [saveDeck, savedDeck, List.map_map, Function.comp_def, saveCard_savedCard]

theorem save_flashcards_saved (decks : List Deck) :
    save_flashcards_to_file (decks.map savedDeck) = save_flashcards_to_file decks := by
  simp [save_flashcards_to_file, List.map_map, Function.comp_def, saveDeck_savedDeck]

theorem savedCard_eq_self {card : Card} (h : card.options ≠ [] → card.type = MULTIPLE_CHOICE) :
    savedCard card = card := by
  obtain ⟨type, question, answer, options⟩ := card
  by_cases hmc : type = MULTIPLE_CHOICE
  · simp [savedCard, hmc]
  · have : options = [] := by
      by_contra hne
      exact hmc (h hne)
    simp [savedCard, hmc, this]

theorem savedDeck_eq_self {deck : Deck}
    (h : ∀ card ∈ deck.cards, card.options ≠ [] → card.type = MULTIPLE_CHOICE) :
    savedDeck deck = deck := by
  obtain ⟨subject, title, timestamp, cards⟩ := deck
  have : cards.map savedCard = cards := by
    conv_rhs => rw [← List.map_id cards]
    exact List.map_congr_left (fun c hc => savedCard_eq_self (h c hc))
  simp [savedDeck, this]

/-- C11: for every deck collection whose text fields (subject, title,
timestamp of a deck; type, question, answer and options of a card) hold no
newline character, the text written by `save_flashcards_to_file` after a save
and a load is the text of the first save; and when only `multiple_choice`
cards carry options, `load_flashcards_from_file` applied to the saved text
yields the same decks, cards and option lists in the same order, whatever was
held before the load. In general the load yields the decks in which the
options of the other cards are dropped. -/
theorem flashcards_roundtrip (flashcard_decks before : List Deck)
    (h : ∀ deck ∈ flashcard_decks, '\n' ∉ deck.subject ∧ '\n' ∉ deck.title
      ∧ '\n' ∉ deck.timestamp
      ∧ ∀ card ∈ deck.cards, '\n' ∉ card.type ∧ '\n' ∉ card.question
        ∧ '\n' ∉ card.answer ∧ ∀ option ∈ card.options, '\n' ∉ option) :
    save_flashcards_to_file
        (load_flashcards_from_file (some (save_flashcards_to_file flashcard_decks)) before)
      = save_flashcards_to_file flashcard_decks
    ∧ load_flashcards_from_file (some (save_flashcards_to_file flashcard_decks)) before
      = flashcard_decks.map savedDeck
    ∧ ((∀ deck ∈ flashcard_decks, ∀ card ∈ deck.cards,
          card.options ≠ [] → card.type = MULTIPLE_CHOICE)
        → load_flashcards_from_file (some (save_flashcards_to_file flashcard_decks)) before
            = flashcard_decks) := by
  have hl := load_flashcards_saved flashcard_decks before h
  refine ⟨?_, hl, ?_⟩
  · rw [hl, save_flashcards_saved]
  · intro hopt
    rw [hl]
    conv_rhs => rw [← List.map_id flashcard_decks]
    exact List.map_congr_left (fun d hd => savedDeck_eq_self (hopt d hd))

/-- Witness for C11: a multiple-choice card with two options, two cards
without options and an empty deck. -/
theorem flashcards_roundtrip_witness :
    (∀ deck ∈ sampleDecks, '\n' ∉ deck.subject ∧ '\n' ∉ deck.title
        ∧ '\n' ∉ deck.timestamp
        ∧ ∀ card ∈ deck.cards, '\n' ∉ card.type ∧ '\n' ∉ card.question
          ∧ '\n' ∉ card.answer ∧ ∀ option ∈ card.options, '\n' ∉ option)
      ∧ (∀ deck ∈ sampleDecks, ∀ card ∈ deck.cards,
          card.options ≠ [] → card.type = MULTIPLE_CHOICE)
      ∧ load_flashcards_from_file (some (save_flashcards_to_file sampleDecks)) []
          = sampleDecks :=
  ⟨by decide, by decide,
    (flashcards_roundtrip sampleDecks [] (by decide)).2.2 (by decide)⟩

/-! ## Persistence: the tasks file -/

/-- Reading back a negative number that was written. -/
theorem extractNumber_minus_showNat (n : Nat) (rest : Str) :
    extractNumber ('-' :: (showNat n ++ '\n' :: rest)) = some (true, n, '\n' :: rest) := by
  obtain ⟨h1, h2, h3⟩ := showNat_spec n
  obtain ⟨ht, hdr⟩ := @takeWhile_digits_append (showNat n) rest h2
  unfold extractNumber
  have hskip : ('-' :: (showNat n ++ '\n' :: rest)).dropWhile isSpaceChar
      = '-' :: (showNat n ++ '\n' :: rest) := by
    simp [List.dropWhile, isSpaceChar]
  have hsign : splitSign ('-' :: (showNat n ++ '\n' :: rest))
      = (true, showNat n ++ '\n' :: rest) := by
    simp [splitSign]
  simp only [hskip, hsign, ht, hdr, h1, if_false, h3]

theorem extractInt_showInt (n : Int) (rest : Str) :
    extractInt (showInt n ++ '\n' :: rest) = some (n, '\n' :: rest) := by
  by_cases hn : n < 0
  · have : -((n.natAbs : Nat) : Int) = n := by omega
    simp [extractInt, showInt, hn, extractNumber_minus_showNat, abs_of_neg hn]
  · have : ((n.natAbs : Nat) : Int) = n := by omega
    simp [extractInt, showInt, hn, extractNumber_showNat, abs_of_nonneg (not_lt.mp hn)]

/-- The scan of a number skips the end of the line before it. -/
theorem extractNumber_newline (input : Str) :
    extractNumber ('\n' :: input) = extractNumber input := by
  simp [extractNumber, List.dropWhile, isSpaceChar]

theorem extractBool_showBool (b : Bool) (rest : Str) :
    extractBool ('\n' :: (showBool b ++ '\n' :: rest)) = some (b, '\n' :: rest) := by
  have h0 : showNat 0 = ['0'] := by decide
  have h1 : showNat 1 = ['1'] := by decide
  cases b
  · have := extractNumber_showNat 0 rest
    rw [h0] at this
    simp only [List.cons_append, List.nil_append] at this
    simp [extractBool, showBool, extractNumber_newline, this]
  · have := extractNumber_showNat 1 rest
    rw [h1] at this
    simp only [List.cons_append, List.nil_append] at this
    simp [extractBool, showBool, extractNumber_newline, this]

theorem noNewline_replaceNewlines (s : Str) : noNewline (replaceNewlines s) := by
  simp only [noNewline, replaceNewlines, List.mem_map, not_exists, not_and]
  intro c _ hc
  by_cases h : c = '\n'
  · simp [h] at hc
  · simp [h] at hc

theorem replaceNewlines_of_noNewline {s : Str} (h : noNewline s) : replaceNewlines s = s := by
  induction s with
  | nil => rfl
  | cons c s ih =>
    have hc : c ≠ '\n' := fun hc => h (by simp [hc])
    have hs : noNewline s := fun hs => h (by simp [hs])
    simp [replaceNewlines, hc] at ih ⊢
    exact ih hs

theorem readTask_saved (task : TaskDetails) (h1 : noNewline task.name)
    (h2 : noNewline task.subject) (h3 : noNewline task.deadlineDate) (rest : Str) :
    readTask (saveTask task ++ rest) = some (savedTask task, rest) := by
  simp [readTask, saveTask, savedTask, getline_line h1, getline_line h2, getline_line h3,
    getline_line (noNewline_replaceNewlines task.infos), extractInt_showInt,
    extractBool_showBool, ignoreLine_newline]

theorem readTasks_saved (tasks : List TaskDetails)
    (h : ∀ task ∈ tasks, noNewline task.name ∧ noNewline task.subject
      ∧ noNewline task.deadlineDate)
    (rest : Str) :
    readTasks tasks.length ((tasks.map saveTask).flatten ++ rest)
      = some (tasks.map savedTask, rest) := by
  induction tasks with
  | nil => simp [readTasks]
  | cons task tasks ih =>
    obtain ⟨h1, h2, h3⟩ := h task (by simp)
    have ih' := ih (fun c hc => h c (by simp [hc]))
    simp [readTasks, readTask_saved task h1 h2 h3, ih']

/-- C12: for every task list whose name, subject and deadlineDate fields hold
no newline character, `loadTasksFromFile` applied to the text written by
`saveTasksToFile` yields the same tasks in the same order, with identical name,
subject, deadlineDate, urgency and completed flag, and with the infos in which
every newline character is replaced by one space; so a task whose infos holds
no newline is returned exactly, and one whose infos holds a newline is not.
This holds whatever was held before the load. -/
theorem tasks_roundtrip (tasks before : List TaskDetails)
    (h : ∀ task ∈ tasks, '\n' ∉ task.name ∧ '\n' ∉ task.subject ∧ '\n' ∉ task.deadlineDate) :
    loadTasksFromFile (some (saveTasksToFile tasks)) before
        = tasks.map (fun task => { task with infos := replaceNewlines task.infos })
      ∧ ((∀ task ∈ tasks, '\n' ∉ task.infos)
          → loadTasksFromFile (some (saveTasksToFile tasks)) before = tasks)
      ∧ ((∃ task ∈ tasks, '\n' ∈ task.infos)
          → loadTasksFromFile (some (saveTasksToFile tasks)) before ≠ tasks) := by
  have hr := readTasks_saved tasks h []
  rw [List.append_nil] at hr
  have hl : loadTasksFromFile (some (saveTasksToFile tasks)) before = tasks.map savedTask := by
    simp [loadTasksFromFile, saveTasksToFile, extractSizeT_showNat, ignoreLine_newline, hr]
  refine ⟨hl, ?_, ?_⟩
  · intro hinf
    rw [hl]
    conv_rhs => rw [← List.map_id tasks]
    refine List.map_congr_left (fun t ht => ?_)
    simp [savedTask, replaceNewlines_of_noNewline (hinf t ht)]
  · rintro ⟨t, ht, hnl⟩ heq
    rw [hl] at heq
    have hmem : savedTask t ∈ tasks.map savedTask := List.mem_map_of_mem _ ht
    have hfix : ∀ x ∈ tasks, savedTask x = x := by
      intro x hx
      have := List.map_eq_map_iff.mp (heq.trans (List.map_id tasks).symm) x hx
      simpa using this
    have := hfix t ht
    have hinfos : replaceNewlines t.infos = t.infos := by
      have := congrArg TaskDetails.infos this
      simpa [savedTask] using this
    have hno := noNewline_replaceNewlines t.infos
    rw [hinfos] at hno
    exact hno hnl

/-- Witness for C12: two tasks, the second with a two-line infos. -/
theorem tasks_roundtrip_witness :
    (∀ task ∈ sampleTasks, '\n' ∉ task.name ∧ '\n' ∉ task.subject ∧ '\n' ∉ task.deadlineDate)
      ∧ loadTasksFromFile (some (saveTasksToFile sampleTasks)) []
          = sampleTasks.map (fun task => { task with infos := replaceNewlines task.infos }) :=
  ⟨by decide, (tasks_roundtrip sampleTasks [] (by decide)).1⟩

/-- The loop over the declared count fails when a record fails before the
count is reached. -/
theorem readTasks_short (k : Nat) :
    ∀ (n : Nat) (input : Str) (loaded : List TaskDetails) (tail : Str),
      readTasks k input = some (loaded, tail) → readTask tail = none → k < n →
      readTasks n input = none := by
  induction k with
  | zero =>
    intro n input loaded tail h hnext hk
    obtain ⟨m, rfl⟩ : ∃ m, n = m + 1 := ⟨n - 1, by omega⟩
    simp only [readTasks, Option.some.injEq, Prod.mk.injEq] at h
    obtain ⟨_, rfl⟩ := h
    simp [readTasks, hnext]
  | succ k ih =>
    intro n input loaded tail h hnext hk
    obtain ⟨m, rfl⟩ : ∃ m, n = m + 1 := ⟨n - 1, by omega⟩
    cases hr : readTask input with
    | none => simp [readTasks, hr]
    | some p =>
      obtain ⟨t, r⟩ := p
      cases hrs : readTasks k r with
      | none => simp [readTasks, hr, hrs] at h
      | some q =>
        obtain ⟨ts, tl⟩ := q
        simp only [readTasks, hr, hrs, Option.some.injEq, Prod.mk.injEq] at h
        obtain ⟨_, rfl⟩ := h
        have := ih m r ts tl hrs hnext (by omega)
        simp [readTasks, hr, this]

/-- C13: for every tasks file whose first line declares a count `numTasks`,
when `k` complete task records are read after it, `k < numTasks`, and the
record after them cannot be read (the input ran out or the record is
incomplete), `loadTasksFromFile` leaves the task list empty: the `k` records
that were read are discarded, whatever the list held before the call. -/
theorem loadTasksFromFile_short_file (text rest tail : Str) (numTasks k : Nat)
    (loaded before : List TaskDetails)
    (hcount : extractSizeT text = some (numTasks, rest))
    (hrecords : readTasks k (ignoreLine rest) = some (loaded, tail))
    (hnext : readTask tail = none)
    (hk : k < numTasks) :
    loadTasksFromFile (some text) before = [] := by
  have := readTasks_short k numTasks (ignoreLine rest) loaded tail hrecords hnext hk
  simp [loadTasksFromFile, hcount, this]

/-- Witness for C13: a file that declares three tasks and holds two complete
records and the first two lines of a third. -/
theorem loadTasksFromFile_short_file_witness :
    extractSizeT truncatedTasksFile
        = some (3, '\n' :: ((sampleTasks.map saveTask).flatten ++ "Quiz\nMath\n".toList))
      ∧ readTasks 2 (ignoreLine
            ('\n' :: ((sampleTasks.map saveTask).flatten ++ "Quiz\nMath\n".toList)))
          = some (sampleTasks.map savedTask, "Quiz\nMath\n".toList)
      ∧ readTask "Quiz\nMath\n".toList = none
      ∧ loadTasksFromFile (some truncatedTasksFile) sampleTasks = [] :=
  ⟨by decide, by decide, by decide,
    loadTasksFromFile_short_file truncatedTasksFile
      ('\n' :: ((sampleTasks.map saveTask).flatten ++ "Quiz\nMath\n".toList))
      "Quiz\nMath\n".toList 3 2 (sampleTasks.map savedTask) sampleTasks
      (by decide) (by decide) (by decide) (by decide)⟩

/-- A saved task list under a declared count that is too large, followed by
text that is not a complete record, loads as the empty list. -/
theorem loadTasksFromFile_saved_short (tasks before : List TaskDetails) (numTasks : Nat)
    (tail : Str)
    (h : ∀ task ∈ tasks, '\n' ∉ task.name ∧ '\n' ∉ task.subject ∧ '\n' ∉ task.deadlineDate)
    (hnext : readTask tail = none) (hk : tasks.length < numTasks) :
    loadTasksFromFile
        (some (showNat numTasks ++ ['\n'] ++ (tasks.map saveTask).flatten ++ tail)) before
      = [] := by
  have hr := readTasks_saved tasks h tail
  have := readTasks_short tasks.length numTasks _ _ tail hr hnext hk
  simp [loadTasksFromFile, extractSizeT_showNat, ignoreLine_newline, this]

/-! ## Persistence: a missing file -/

/-- C14 as stated fails: with no file, each of the four loads leaves a
non-empty collection non-empty. -/
theorem missing_file_not_emptied :
    loadClassScheduleFromFile none sampleSchedule ≠ []
      ∧ loadTasksFromFile none sampleTasks ≠ []
      ∧ load_flashcards_from_file none sampleDecks ≠ []
      ∧ load_notebooks_from_file none sampleNotebooks ≠ [] := by
  refine ⟨?_, ?_, ?_, ?_⟩ <;> decide

/-- C14, amended: for each of the four load operations, when the file of the
collection does not exist the load leaves the in-memory collection exactly as
it was before the call; so the collection is empty after the call when it was
empty before it, as at the start of the program. -/
theorem missing_file_keeps_collection (classSchedule : List ClassDetails)
    (tasks : List TaskDetails) (flashcard_decks : List Deck) (notebooks : List Notebook) :
    loadClassScheduleFromFile none classSchedule = classSchedule
      ∧ loadTasksFromFile none tasks = tasks
      ∧ load_flashcards_from_file none flashcard_decks = flashcard_decks
      ∧ load_notebooks_from_file none notebooks = notebooks
      ∧ loadClassScheduleFromFile none [] = []
      ∧ loadTasksFromFile none [] = []
      ∧ load_flashcards_from_file none [] = []
      ∧ load_notebooks_from_file none [] = [] :=
  ⟨rfl, rfl, rfl, rfl, rfl, rfl, rfl, rfl⟩

/-! ## Time utilities -/

theorem digitChar_ne_space (d : Nat) (h : d < 10) : digitChar d ≠ ' ' := by
  interval_cases d <;> decide

theorem hourGroup_twoDigits (hh : Nat) (h1 : 1 ≤ hh) (h2 : hh ≤ 12) :
    hourGroup (digitChar (hh / 10)) (digitChar (hh % 10)) = true := by
  interval_cases hh <;> decide

theorem minuteGroup_twoDigits (mm : Nat) (h : mm ≤ 59) :
    minuteGroup (digitChar (mm / 10)) (digitChar (mm % 10)) = true := by
  have h1 : mm / 10 ≤ 5 := by omega
  have h2 : mm % 10 < 10 := by omega
  have ha : decide ('0' ≤ digitChar (mm / 10) ∧ digitChar (mm / 10) ≤ '5') = true := by
    generalize mm / 10 = a at h1
    interval_cases a <;> decide
  simp only [minuteGroup, ha, (digitChar_spec _ h2).1, Bool.and_self]

theorem stoi_twoDigits (n : Nat) (h : n < 100) :
    stoi [digitChar (n / 10), digitChar (n % 10)] = (n : Int) := by
  have h1 : n / 10 < 10 := by omega
  have h2 : n % 10 < 10 := by omega
  simp only [stoi, List.foldl, (digitChar_spec _ h1).2, (digitChar_spec _ h2).2]
  congr 1
  omega

/-- The value of `timeToMinutes` on a string `HH:MM`, one space, AM/PM token. -/
theorem timeToMinutes_timeString (hh mm : Nat) (ampm : Str) (h1 : 1 ≤ hh) (h2 : hh ≤ 12)
    (h3 : mm ≤ 59) (h4 : ampm ∈ ampmTokens) :
    timeToMinutes (timeString hh mm ampm) = ((clockHour hh (isPm ampm) * 60 + mm : Nat) : Int) := by
  have hg := hourGroup_twoDigits hh h1 h2
  have mg := minuteGroup_twoDigits mm h3
  have sh := stoi_twoDigits hh (by omega)
  have sm := stoi_twoDigits mm (by omega)
  have n1 := digitChar_ne_space (hh / 10) (by omega)
  have n2 := digitChar_ne_space (hh % 10) (by omega)
  have n3 := digitChar_ne_space (mm / 10) (by omega)
  have n4 := digitChar_ne_space (mm % 10) (by omega)
  have hs : ∀ tok : Str, afterFirstSpace (timeString hh mm tok) = some tok := by
    intro tok
    simp [timeString, twoDigits, afterFirstSpace, n1, n2, n3, n4]
  have hv : isValidTimeFormat (timeString hh mm ampm) = true := by
    simp only [ampmTokens, List.mem_cons, List.mem_singleton, List.not_mem_nil, or_false] at h4
    rcases h4 with rfl | rfl | rfl | rfl <;>
      simp [timeString, twoDigits, isValidTimeFormat, hg, mg, spacesThenAmPm, isSpaceChar,
        ampmGroup, List.dropWhile]
  have hh' : stoi (((timeString hh mm ampm).drop 0).take 2) = (hh : Int) := by
    simpa [timeString, twoDigits] using sh
  have hm' : stoi (((timeString hh mm ampm).drop 3).take 2) = (mm : Int) := by
    simpa [timeString, twoDigits] using sm
  unfold timeToMinutes
  rw [hv, hh', hm', hs]
  simp only [ampmTokens, List.mem_cons, List.mem_singleton, List.not_mem_nil, or_false] at h4
  rcases h4 with rfl | rfl | rfl | rfl
  all_goals
    by_cases h12 : hh = 12
    · subst h12
      simp [toUpperStr, clockHour, isPm]
    · have h12' : (hh : Int) ≠ 12 := by omega
      simp [toUpperStr, clockHour, isPm, h12, h12']

theorem char_of_digit_range {c : Char} {lo hi : Nat} (h1 : Char.ofNat (48 + lo) ≤ c)
    (h2 : c ≤ Char.ofNat (48 + hi)) (hlo : lo < 10) (hhi : hi < 10) :
    lo ≤ c.toNat - 48 ∧ c.toNat - 48 ≤ hi ∧ c = digitChar (c.toNat - 48) := by
  have a1 : (Char.ofNat (48 + lo)).toNat ≤ c.toNat := Char.le_def.mp h1
  have a2 : c.toNat ≤ (Char.ofNat (48 + hi)).toNat := Char.le_def.mp h2
  have b1 : (Char.ofNat (48 + lo)).toNat = 48 + lo := by interval_cases lo <;> decide
  have b2 : (Char.ofNat (48 + hi)).toNat = 48 + hi := by interval_cases hi <;> decide
  rw [b1] at a1
  rw [b2] at a2
  refine ⟨by omega, by omega, ?_⟩
  unfold digitChar
  have : 48 + (c.toNat - 48) = c.toNat := by omega
  rw [this, Char.ofNat_toNat]

theorem hourGroup_digits {h1 h2 : Char} (h : hourGroup h1 h2 = true) :
    ∃ hh : Nat, 1 ≤ hh ∧ hh ≤ 12 ∧ [h1, h2] = twoDigits hh := by
  simp only [hourGroup, Bool.or_eq_true, Bool.and_eq_true, decide_eq_true_eq] at h
  rcases h with ⟨rfl, hl, hu⟩ | ⟨rfl, hl, hu⟩
  · obtain ⟨c1, c2, c3⟩ := @char_of_digit_range h2 1 9 hl hu (by omega) (by omega)
    refine ⟨h2.toNat - 48, c1, by omega, ?_⟩
    have e1 : (h2.toNat - 48) / 10 = 0 := by omega
    have e2 : (h2.toNat - 48) % 10 = h2.toNat - 48 := by omega
    simp only [twoDigits, e1, e2, ← c3]
    rfl
  · obtain ⟨c1, c2, c3⟩ := @char_of_digit_range h2 0 2 hl hu (by omega) (by omega)
    refine ⟨10 + (h2.toNat - 48), by omega, by omega, ?_⟩
    have e1 : (10 + (h2.toNat - 48)) / 10 = 1 := by omega
    have e2 : (10 + (h2.toNat - 48)) % 10 = h2.toNat - 48 := by omega
    simp only [twoDigits, e1, e2, ← c3]
    rfl

theorem minuteGroup_digits {m1 m2 : Char} (h : minuteGroup m1 m2 = true) :
    ∃ mm : Nat, mm ≤ 59 ∧ [m1, m2] = twoDigits mm := by
  simp only [minuteGroup, isDigitChar, Bool.and_eq_true, decide_eq_true_eq] at h
  obtain ⟨⟨l1, u1⟩, l2, u2⟩ := h
  obtain ⟨_, c2, c3⟩ := @char_of_digit_range m1 0 5 l1 u1 (by omega) (by omega)
  obtain ⟨_, d2, d3⟩ := @char_of_digit_range m2 0 9 l2 u2 (by omega) (by omega)
  refine ⟨10 * (m1.toNat - 48) + (m2.toNat - 48), by omega, ?_⟩
  have e1 : (10 * (m1.toNat - 48) + (m2.toNat - 48)) / 10 = m1.toNat - 48 := by omega
  have e2 : (10 * (m1.toNat - 48) + (m2.toNat - 48)) % 10 = m2.toNat - 48 := by omega
  simp only [twoDigits, e1, e2, ← c3, ← d3]

theorem isSpaceChar_iff (c : Char) :
    isSpaceChar c = true ↔ c ∈ [' ', '\t', '\n', '\x0b', '\x0c', '\r'] := by
  simp [isSpaceChar, or_assoc]

theorem ampmGroup_iff (s : Str) : ampmGroup s = true ↔ s ∈ ampmTokens := by
  simp [ampmGroup, ampmTokens, or_assoc]

theorem dropWhile_spaces_token {ws tok : Str} (hws : ∀ c ∈ ws, isSpaceChar c = true)
    (htok : tok ∈ ampmTokens) : (ws ++ tok).dropWhile isSpaceChar = tok := by
  induction ws with
  | nil =>
    simp only [ampmTokens, List.mem_cons, List.mem_singleton, List.not_mem_nil, or_false] at htok
    rcases htok with rfl | rfl | rfl | rfl <;> decide
  | cons c ws ih =>
    have hc := hws c (by simp)
    have := ih (fun d hd => hws d (by simp [hd]))
    simp [List.dropWhile, hc, this]

theorem spacesThenAmPm_iff (s : Str) :
    spacesThenAmPm s = true
      ↔ ∃ ws tok : Str, ws ≠ [] ∧ (∀ c ∈ ws, isSpaceChar c = true) ∧ tok ∈ ampmTokens
          ∧ s = ws ++ tok := by
  constructor
  · intro h
    cases s with
    | nil => simp [spacesThenAmPm] at h
    | cons c rest =>
      simp only [spacesThenAmPm, Bool.and_eq_true] at h
      refine ⟨c :: rest.takeWhile isSpaceChar, rest.dropWhile isSpaceChar, by simp, ?_,
        (ampmGroup_iff _).mp h.2, by simp⟩
      intro d hd
      rcases List.mem_cons.mp hd with rfl | hd
      · exact h.1
      · exact (List.mem_takeWhile_imp hd)
  · rintro ⟨ws, tok, hne, hws, htok, rfl⟩
    cases ws with
    | nil => exact absurd rfl hne
    | cons c ws =>
      have hc := hws c (by simp)
      have := @dropWhile_spaces_token ws tok (fun d hd => hws d (by simp [hd])) htok
      simp [spacesThenAmPm, hc, this, (ampmGroup_iff tok).mpr htok]

/-- C17 as stated fails: the mixed-case token of `09:30 Am` is rejected, and
two spaces or a tab before the token are accepted. -/
theorem isValidTimeFormat_not_single_space_any_case :
    isValidTimeFormat "09:30 Am".toList = false
      ∧ isValidTimeFormat "09:30  AM".toList = true
      ∧ isValidTimeFormat "09:30\tAM".toList = true := by
  decide

/-- C17, amended: `isValidTimeFormat` is true exactly when the string is a
two-digit hour 01..12, a colon, a two-digit minute 00..59, one or more
whitespace characters (space, tab, newline, vertical tab, form feed, carriage
return) and one of the four tokens `AM`, `PM`, `am`, `pm`; every other string
is rejected. -/
theorem isValidTimeFormat_iff (s : Str) :
    isValidTimeFormat s = true
      ↔ ∃ (hh mm : Nat) (ws tok : Str), 1 ≤ hh ∧ hh ≤ 12 ∧ mm ≤ 59 ∧ ws ≠ []
          ∧ (∀ c ∈ ws, c ∈ [' ', '\t', '\n', '\x0b', '\x0c', '\r'])
          ∧ tok ∈ [['A', 'M'], ['P', 'M'], ['a', 'm'], ['p', 'm']]
          ∧ s = twoDigits hh ++ [':'] ++ twoDigits mm ++ ws ++ tok := by
  constructor
  · intro h
    rcases s with _ | ⟨h1, _ | ⟨h2, _ | ⟨c, _ | ⟨m1, _ | ⟨m2, rest⟩⟩⟩⟩⟩
    any_goals (simp [isValidTimeFormat] at h)
    by_cases hc : c = ':'
    · subst hc
      simp only [isValidTimeFormat, Bool.and_eq_true] at h
      obtain ⟨⟨hg, mg⟩, hsp⟩ := h
      obtain ⟨hh, a1, a2, a3⟩ := hourGroup_digits hg
      obtain ⟨mm, b1, b2⟩ := minuteGroup_digits mg
      obtain ⟨ws, tok, c1, c2, c3, c4⟩ := (spacesThenAmPm_iff rest).mp hsp
      refine ⟨hh, mm, ws, tok, a1, a2, b1, c1, fun d hd => (isSpaceChar_iff d).mp (c2 d hd),
        c3, ?_⟩
      rw [← a3, ← b2, c4]
      simp
    · exfalso
      revert h
      split
      · next heq =>
        simp only [List.cons.injEq] at heq
        exact absurd heq.2.2.1 hc
      · simp
  · rintro ⟨hh, mm, ws, tok, a1, a2, b1, c1, c2, c3, rfl⟩
    have hg := hourGroup_twoDigits hh a1 a2
    have mg := minuteGroup_twoDigits mm b1
    have hsp : spacesThenAmPm (ws ++ tok) = true :=
      (spacesThenAmPm_iff _).mpr
        ⟨ws, tok, c1, fun d hd => (isSpaceChar_iff d).mpr (c2 d hd), c3, rfl⟩
    simp [twoDigits, isValidTimeFormat, hg, mg, hsp]

/-- C15 fails on the code: `isValidTimeFormat` accepts `09:30`, two spaces,
`AM` and `09:30`, a tab, `AM`, and `timeToMinutes` returns the sentinel -1 for
both, where the claim has a non-negative minute of the day (570). -/
theorem timeToMinutes_sentinel_on_accepted_string :
    isValidTimeFormat "09:30  AM".toList = true
      ∧ timeToMinutes "09:30  AM".toList = -1
      ∧ isValidTimeFormat "09:30\tAM".toList = true
      ∧ timeToMinutes "09:30\tAM".toList = -1
      ∧ timeToMinutes "09:30 AM".toList = 570 := by
  decide

/-- C16: for every string of the form HH:MM, one space, then `AM`, `PM`, `am`
or `pm`, with HH in 01..12 and MM in 00..59, `timeToMinutes` returns
`h * 60 + MM`, where `h` is 0 for hour 12 under AM, 12 for hour 12 under PM,
HH for the other AM hours and HH + 12 for the other PM hours; the result lies
in 0..1439, `12:00 AM` gives 0 and `12:00 PM` gives 720. -/
theorem timeToMinutes_clock_value (hh mm : Nat) (ampm : Str) (h1 : 1 ≤ hh) (h2 : hh ≤ 12)
    (h3 : mm ≤ 59) (h4 : ampm ∈ [['A', 'M'], ['P', 'M'], ['a', 'm'], ['p', 'm']]) :
    timeToMinutes (timeString hh mm ampm)
        = (((if isPm ampm then (if hh = 12 then 12 else hh + 12)
              else (if hh = 12 then 0 else hh)) * 60 + mm : Nat) : Int)
      ∧ 0 ≤ timeToMinutes (timeString hh mm ampm)
      ∧ timeToMinutes (timeString hh mm ampm) ≤ 1439
      ∧ timeToMinutes "12:00 AM".toList = 0
      ∧ timeToMinutes "12:00 PM".toList = 720 := by
  have hv := timeToMinutes_timeString hh mm ampm h1 h2 h3 h4
  refine ⟨by rw [hv]; rfl, ?_, ?_, by decide, by decide⟩
  · rw [hv]
    exact Int.natCast_nonneg _
  · rw [hv]
    have : clockHour hh (isPm ampm) * 60 + mm ≤ 1439 := by
      unfold clockHour
      split_ifs <;> omega
    exact_mod_cast this

/-- Witness for C16: `09:30 pm` is minute 1290 of the day. -/
theorem timeToMinutes_clock_value_witness :
    timeString 9 30 ['p', 'm'] = "09:30 pm".toList
      ∧ timeToMinutes (timeString 9 30 ['p', 'm']) = 1290 :=
  ⟨by decide,
    (timeToMinutes_clock_value 9 30 ['p', 'm'] (by decide) (by decide) (by decide)
      (by decide)).1.trans (by decide)⟩

/-- On the strings of the form HH:MM, one space, then `AM`, `PM`, `am` or
`pm`, with HH in 01..12 and MM in 00..59, `timeToMinutes` follows the
wall-clock order (every AM time before every PM time; within a half-day hour
12 first, then the hours 1 to 11; then by minute), and two values are equal
only when the half-day, the hour and the minute are the same. -/
theorem timeToMinutes_wall_clock_order (ha ma hb mb : Nat) (ta tb : Str)
    (a1 : 1 ≤ ha) (a2 : ha ≤ 12) (a3 : ma ≤ 59)
    (a4 : ta ∈ [['A', 'M'], ['P', 'M'], ['a', 'm'], ['p', 'm']])
    (b1 : 1 ≤ hb) (b2 : hb ≤ 12) (b3 : mb ≤ 59)
    (b4 : tb ∈ [['A', 'M'], ['P', 'M'], ['a', 'm'], ['p', 'm']]) :
    (timeToMinutes (timeString ha ma ta) < timeToMinutes (timeString hb mb tb)
        ↔ earlierTime ha ma (isPm ta) hb mb (isPm tb))
      ∧ (timeToMinutes (timeString ha ma ta) = timeToMinutes (timeString hb mb tb)
        ↔ (isPm ta = isPm tb ∧ ha = hb ∧ ma = mb)) := by
  rw [timeToMinutes_timeString ha ma ta a1 a2 a3 a4,
    timeToMinutes_timeString hb mb tb b1 b2 b3 b4]
  simp only [Nat.cast_lt, Nat.cast_inj]
  unfold earlierTime clockHour halfDayRank
  cases isPm ta <;> cases isPm tb <;>
    simp only [Bool.false_eq_true, Bool.true_eq_false, eq_self_iff_true, if_false, if_true,
      true_and, and_true, false_and, and_false, or_false, false_or, true_or, or_true,
      and_self, iff_true, iff_false] <;>
    split_ifs <;> omega

/-! ## parseDaysOfWeek -/

theorem getlineComma_length {input tok rest : Str} (h : getlineComma input = some (tok, rest)) :
    rest.length < input.length := by
  cases input with
  | nil => simp [getlineComma] at h
  | cons c cs =>
    simp only [getlineComma, Option.some.injEq, Prod.mk.injEq] at h
    obtain ⟨_, rfl⟩ := h
    have h1 := (@List.dropWhile_sublist _ (c :: cs) notComma).length_le
    by_cases hc : notComma c = true
    · have h2 := (@List.dropWhile_sublist _ cs notComma).length_le
      simp only [List.dropWhile_cons, hc, if_true, List.length_drop, List.length_cons]
      omega
    · simp only [List.dropWhile_cons, hc, List.length_cons]
      simp

/-- The bound on the rounds of the token loop is never reached: any larger
bound gives the same tokens. -/
theorem commaTokensAux_fuel (fuel : Nat) :
    ∀ input : Str, input.length ≤ fuel →
      commaTokensAux fuel input = commaTokensAux input.length input := by
  induction fuel using Nat.strong_induction_on with
  | _ fuel ih =>
    intro input hlen
    cases input with
    | nil => cases fuel <;> simp [commaTokensAux, getlineComma]
    | cons c cs =>
      obtain ⟨f, rfl⟩ : ∃ f, fuel = f + 1 := ⟨fuel - 1, by simp at hlen; omega⟩
      cases hg : getlineComma (c :: cs) with
      | none => simp [getlineComma] at hg
      | some p =>
        obtain ⟨tok, rest⟩ := p
        have hl := getlineComma_length hg
        simp only [List.length_cons] at hl hlen
        have e1 := ih f (by omega) rest (by omega)
        have e2 := ih cs.length (by omega) rest (by omega)
        simp only [List.length_cons, commaTokensAux, hg, e1, e2]

theorem mem_setInsert (day d : Str) (s : List Str) :
    d ∈ setInsert day s ↔ d = day ∨ d ∈ s := by
  induction s with
  | nil => simp [setInsert]
  | cons x rest ih =>
    unfold setInsert
    split_ifs with h1 h2
    · simp
    · subst h2
      simp
    · simp only [List.mem_cons, ih]
      tauto

theorem sorted_setInsert (day : Str) (s : List Str) (h : s.Pairwise (fun a b => a < b)) :
    (setInsert day s).Pairwise (fun a b => a < b) := by
  induction s with
  | nil => simp [setInsert]
  | cons x rest ih =>
    rw [List.pairwise_cons] at h
    unfold setInsert
    split_ifs with h1 h2
    · refine List.pairwise_cons.mpr ⟨?_, List.pairwise_cons.mpr h⟩
      intro b hb
      rcases List.mem_cons.mp hb with rfl | hb
      · exact h1
      · exact lt_trans h1 (h.1 b hb)
    · exact List.pairwise_cons.mpr h
    · refine List.pairwise_cons.mpr ⟨?_, ih h.2⟩
      intro b hb
      rcases (mem_setInsert day b rest).mp hb with rfl | hb
      · rcases lt_trichotomy b x with hlt | heq | hgt
        · exact absurd hlt h1
        · exact absurd heq h2
        · exact hgt
      · exact h.1 b hb

/-- The second look-up of the loop body never finds a day: a token equal to a
canonical abbreviation has its upper-cased form among the keys. -/
theorem foundDirectShort_false {day_token : Str}
    (h : mapFind (toUpperStr day_token) dayStandardizationMap = none) :
    dayStandardizationMap.any (fun pair => decide (pair.2 = day_token)) = false := by
  by_contra hne
  rw [Bool.not_eq_false, List.any_eq_true] at hne
  obtain ⟨pair, hmem, heq⟩ := hne
  rw [decide_eq_true_eq] at heq
  subst heq
  revert h
  simp only [dayStandardizationMap, List.mem_cons, List.mem_singleton, List.not_mem_nil,
    or_false] at hmem
  rcases hmem with rfl | rfl | rfl | rfl | rfl | rfl | rfl | rfl | rfl | rfl | rfl | rfl | rfl
    | rfl | rfl | rfl | rfl | rfl | rfl <;> decide

theorem dayTokenStep_valid {state : List Str × Bool} {raw_token d : Str}
    (h : mapFind (toUpperStr (trimToken raw_token)) dayStandardizationMap = some d) :
    dayTokenStep state raw_token = (setInsert d state.1, state.2) := by
  simp [dayTokenStep, h]

theorem dayTokenStep_invalid {state : List Str × Bool} {raw_token : Str}
    (h : mapFind (toUpperStr (trimToken raw_token)) dayStandardizationMap = none) :
    dayTokenStep state raw_token = (state.1, false) := by
  simp [dayTokenStep, h, foundDirectShort_false h]

theorem dayTokenStep_allValid_false (state : List Str × Bool) (raw_token : Str)
    (h : state.2 = false) : (dayTokenStep state raw_token).2 = false := by
  cases hm : mapFind (toUpperStr (trimToken raw_token)) dayStandardizationMap with
  | none => rw [dayTokenStep_invalid hm]
  | some d => rw [dayTokenStep_valid hm]; exact h

theorem foldl_dayTokenStep_false (tokens : List Str) :
    ∀ state : List Str × Bool, state.2 = false →
      (tokens.foldl dayTokenStep state).2 = false := by
  induction tokens with
  | nil => intro state h; exact h
  | cons tok tokens ih =>
    intro state h
    exact ih _ (dayTokenStep_allValid_false state tok h)

theorem foldl_dayTokenStep_invalid (tokens : List Str) :
    ∀ state : List Str × Bool,
      (∃ tok ∈ tokens, mapFind (toUpperStr (trimToken tok)) dayStandardizationMap = none) →
      (tokens.foldl dayTokenStep state).2 = false := by
  induction tokens with
  | nil => intro state h; simp at h
  | cons tok tokens ih =>
    intro state h
    obtain ⟨t, ht, hnone⟩ := h
    rcases List.mem_cons.mp ht with rfl | ht
    · simp only [List.foldl_cons]
      apply foldl_dayTokenStep_false
      rw [dayTokenStep_invalid hnone]
    · exact ih _ ⟨t, ht, hnone⟩

theorem foldl_dayTokenStep_valid (tokens : List Str) :
    ∀ state : List Str × Bool,
      (∀ tok ∈ tokens, mapFind (toUpperStr (trimToken tok)) dayStandardizationMap ≠ none) →
      (tokens.foldl dayTokenStep state).2 = state.2
        ∧ (state.1.Pairwise (fun a b => a < b) →
            (tokens.foldl dayTokenStep state).1.Pairwise (fun a b => a < b))
        ∧ ∀ d, d ∈ (tokens.foldl dayTokenStep state).1
            ↔ d ∈ state.1 ∨ ∃ tok ∈ tokens,
                mapFind (toUpperStr (trimToken tok)) dayStandardizationMap = some d := by
  induction tokens with
  | nil => intro state _; simp
  | cons tok tokens ih =>
    intro state h
    obtain ⟨d0, hd0⟩ := Option.ne_none_iff_exists'.mp (h tok (by simp))
    obtain ⟨i1, i2, i3⟩ := ih (dayTokenStep state tok) (fun t ht => h t (by simp [ht]))
    rw [dayTokenStep_valid hd0] at i1 i2 i3
    simp only [List.foldl_cons, dayTokenStep_valid hd0]
    refine ⟨i1, fun hs => i2 (sorted_setInsert d0 state.1 hs), ?_⟩
    intro d
    rw [i3 d, mem_setInsert]
    constructor
    · rintro ((rfl | hm) | ⟨t, ht, hm⟩)
      · exact Or.inr ⟨tok, by simp, hd0⟩
      · exact Or.inl hm
      · exact Or.inr ⟨t, by simp [ht], hm⟩
    · rintro (hm | ⟨t, ht, hm⟩)
      · exact Or.inl (Or.inr hm)
      · rcases List.mem_cons.mp ht with rfl | ht
        · rw [hd0] at hm
          exact Or.inl (Or.inl (Option.some.inj hm).symm)
        · exact Or.inr ⟨t, ht, hm⟩

/-- A trailing comma gives no further token, an inner empty field does, and
the empty input has no token. -/
theorem commaTokens_examples :
    commaTokens "Mon,".toList = ["Mon".toList]
      ∧ commaTokens "Mon,,Tue".toList = ["Mon".toList, [], "Tue".toList]
      ∧ commaTokens [] = [] := by
  decide

/-- C19: for every input whose comma-separated tokens (as read by the loop of
the function), after trimming the surrounding whitespace and upper-casing, are
all keys of the weekday table, `parseDaysOfWeek` returns true, and the output
list holds exactly the canonical abbreviations of those tokens, without
repetition and in ascending lexicographic order, whatever the list held before
the call; `T` yields Tue and `TH` yields Thu. -/
theorem parseDaysOfWeek_all_valid (daysInput : Str) (daysOfWeek : List Str)
    (h : ∀ tok ∈ commaTokens daysInput,
      mapFind (toUpperStr (trimToken tok)) dayStandardizationMap ≠ none) :
    (parseDaysOfWeek daysInput daysOfWeek).1 = true
      ∧ (∀ d, d ∈ (parseDaysOfWeek daysInput daysOfWeek).2
          ↔ ∃ tok ∈ commaTokens daysInput,
              mapFind (toUpperStr (trimToken tok)) dayStandardizationMap = some d)
      ∧ (parseDaysOfWeek daysInput daysOfWeek).2.Pairwise (fun a b => a < b)
      ∧ (parseDaysOfWeek daysInput daysOfWeek).2.Nodup
      ∧ parseDaysOfWeek ['T'] daysOfWeek = (true, [['T', 'u', 'e']])
      ∧ parseDaysOfWeek ['T', 'H'] daysOfWeek = (true, [['T', 'h', 'u']]) := by
  obtain ⟨i1, i2, i3⟩ := foldl_dayTokenStep_valid (commaTokens daysInput) ([], true) h
  have hv : parseDaysOfWeek daysInput daysOfWeek
      = (true, ((commaTokens daysInput).foldl dayTokenStep ([], true)).1) := by
    simp only at i1
    simp [parseDaysOfWeek, i1]
  have hs := i2 List.Pairwise.nil
  rw [hv]
  have e1 : parseDaysOfWeek ['T'] [] = (true, [['T', 'u', 'e']]) := by decide
  have e2 : parseDaysOfWeek ['T', 'H'] [] = (true, [['T', 'h', 'u']]) := by decide
  refine ⟨rfl, ?_, hs, ?_, e1, e2⟩
  · intro d
    rw [i3 d]
    simp
  · exact hs.imp (fun hab => ne_of_lt hab)

/-- Witness for C19: full names, abbreviations and single letters in mixed
case, with surrounding spaces and a repetition. -/
theorem parseDaysOfWeek_all_valid_witness :
    (∀ tok ∈ commaTokens "Mon, tue ,TH,t,monday".toList,
        mapFind (toUpperStr (trimToken tok)) dayStandardizationMap ≠ none)
      ∧ (parseDaysOfWeek "Mon, tue ,TH,t,monday".toList ["Sun".toList]).1 = true
      ∧ parseDaysOfWeek "Mon, tue ,TH,t,monday".toList ["Sun".toList]
          = (true, ["Mon".toList, "Thu".toList, "Tue".toList]) :=
  ⟨by decide,
    (parseDaysOfWeek_all_valid "Mon, tue ,TH,t,monday".toList ["Sun".toList] (by decide)).1,
    by decide⟩

/-! ## Symmetry of the conflict check -/

theorem commonDayFound_comm (xs ys : List Str) : commonDayFound xs ys = commonDayFound ys xs := by
  rw [Bool.eq_iff_iff, commonDayFound_iff, commonDayFound_iff]
  constructor <;> rintro ⟨d, h1, h2⟩ <;> exact ⟨d, h2, h1⟩

/-- C27: for any two classes A and B whose times both convert to minutes with
the start strictly before the end, `checkClassConflict` of A against the
schedule that holds only B gives the same answer as `checkClassConflict` of B
against the schedule that holds only A, for every value of the excluded
index (-1 as in `addClass` included); and the answer is true exactly when the
two classes share a day and their intervals overlap, unless the index 0 is
excluded. -/
theorem checkClassConflict_symmetric (A B : ClassDetails) (editingClassIndex : Int)
    (hA1 : timeToMinutes A.startTime ≠ -1) (hA2 : timeToMinutes A.endTime ≠ -1)
    (hA3 : timeToMinutes A.startTime < timeToMinutes A.endTime)
    (hB1 : timeToMinutes B.startTime ≠ -1) (hB2 : timeToMinutes B.endTime ≠ -1)
    (hB3 : timeToMinutes B.startTime < timeToMinutes B.endTime) :
    checkClassConflict [B] A editingClassIndex = checkClassConflict [A] B editingClassIndex
      ∧ (checkClassConflict [B] A editingClassIndex = true
          ↔ editingClassIndex ≠ 0 ∧ (∃ d, d ∈ A.daysOfWeek ∧ d ∈ B.daysOfWeek)
              ∧ timeToMinutes A.startTime < timeToMinutes B.endTime
              ∧ timeToMinutes B.startTime < timeToMinutes A.endTime) := by
  have key : ∀ X Y : ClassDetails,
      timeToMinutes X.startTime ≠ -1 → timeToMinutes X.endTime ≠ -1 →
      timeToMinutes X.startTime < timeToMinutes X.endTime →
      timeToMinutes Y.startTime ≠ -1 → timeToMinutes Y.endTime ≠ -1 →
      (checkClassConflict [Y] X editingClassIndex = true
        ↔ editingClassIndex ≠ 0 ∧ (∃ d, d ∈ X.daysOfWeek ∧ d ∈ Y.daysOfWeek)
            ∧ timeToMinutes X.startTime < timeToMinutes Y.endTime
            ∧ timeToMinutes Y.startTime < timeToMinutes X.endTime) := by
    intro X Y x1 x2 x3 y1 y2
    have x3' : ¬ timeToMinutes X.startTime ≥ timeToMinutes X.endTime := by omega
    by_cases he : editingClassIndex = 0
    · subst he
      simp [checkClassConflict, conflictScan, x1, x2, x3']
    · have he' : ¬ ((0 : Nat) : Int) = editingClassIndex := fun h => he h.symm
      simp only [checkClassConflict, conflictScan, x1, x2, x3', y1, y2, he', or_self, if_false,
        gt_iff_lt]
      rw [← commonDayFound_iff]
      simp [he]
  refine ⟨?_, key A B hA1 hA2 hA3 hB1 hB2⟩
  rw [Bool.eq_iff_iff, key A B hA1 hA2 hA3 hB1 hB2, key B A hB1 hB2 hB3 hA1 hA2]
  constructor
  · rintro ⟨h0, ⟨d, d1, d2⟩, h1, h2⟩
    exact ⟨h0, ⟨d, d2, d1⟩, h2, h1⟩
  · rintro ⟨h0, ⟨d, d1, d2⟩, h1, h2⟩
    exact ⟨h0, ⟨d, d2, d1⟩, h2, h1⟩

/-- Witness for C27: `sampleMath` against a class that shares Monday and
overlaps it. -/
theorem checkClassConflict_symmetric_witness :
    checkClassConflict
        [⟨"Art".toList, ["Mon".toList], "09:30 AM".toList, "10:30 AM".toList, "R2".toList⟩]
        sampleMath (-1)
      = checkClassConflict [sampleMath]
          ⟨"Art".toList, ["Mon".toList], "09:30 AM".toList, "10:30 AM".toList, "R2".toList⟩ (-1)
      ∧ checkClassConflict [sampleMath]
          ⟨"Art".toList, ["Mon".toList], "09:30 AM".toList, "10:30 AM".toList, "R2".toList⟩ (-1)
        = true :=
  ⟨(checkClassConflict_symmetric sampleMath
    ⟨"Art".toList, ["Mon".toList], "09:30 AM".toList, "10:30 AM".toList, "R2".toList⟩ (-1)
    (by decide) (by decide) (by decide) (by decide) (by decide) (by decide)).1, by decide⟩

/-! ## The task view -/

theorem taskBefore_iff (tasks : List TaskDetails) (a b : Nat) :
    taskBefore tasks a b = true
      ↔ (taskAt tasks a).urgency < (taskAt tasks b).urgency
        ∨ ((taskAt tasks a).urgency = (taskAt tasks b).urgency
            ∧ (taskAt tasks a).deadlineDate < (taskAt tasks b).deadlineDate) := by
  unfold taskBefore
  by_cases h : (taskAt tasks a).urgency = (taskAt tasks b).urgency
  · simp [h]
  · simp only [ne_eq, h, not_false_eq_true, if_true, decide_eq_true_eq, false_and, or_false]

theorem taskBefore_false_iff (tasks : List TaskDetails) (a b : Nat) :
    taskBefore tasks a b = false
      ↔ (taskAt tasks b).urgency ≤ (taskAt tasks a).urgency
        ∧ ((taskAt tasks a).urgency = (taskAt tasks b).urgency
            → (taskAt tasks b).deadlineDate ≤ (taskAt tasks a).deadlineDate) := by
  rw [← Bool.not_eq_true, taskBefore_iff]
  constructor
  · intro h
    push_neg at h
    exact ⟨by omega, fun he => h.2 he⟩
  · rintro ⟨h1, h2⟩ (h | ⟨he, hd⟩)
    · omega
    · exact absurd hd (not_lt.mpr (h2 he))

/-- The comparison of `showTasks` meets the requirement of `std::sort`. -/
theorem taskBefore_strictWeakOrder (tasks : List TaskDetails) :
    StrictWeakOrder (taskBefore tasks) := by
  refine ⟨?_, ?_, ?_⟩
  · intro a
    rw [taskBefore_false_iff]
    exact ⟨le_refl _, fun _ => le_refl _⟩
  · intro a b c hab hbc
    rw [taskBefore_iff] at hab hbc ⊢
    rcases hab with h1 | ⟨h1, d1⟩ <;> rcases hbc with h2 | ⟨h2, d2⟩
    · left; omega
    · left; omega
    · left; omega
    · right; exact ⟨by omega, lt_trans d1 d2⟩
  · intro a b c h1 h2 h3 h4
    rw [taskBefore_false_iff] at h1 h2 h3 h4 ⊢
    rw [taskBefore_false_iff]
    have e1 : (taskAt tasks a).urgency = (taskAt tasks b).urgency := by omega
    have e2 : (taskAt tasks b).urgency = (taskAt tasks c).urgency := by omega
    have d1 : (taskAt tasks a).deadlineDate = (taskAt tasks b).deadlineDate :=
      le_antisymm (h2.2 e1.symm) (h1.2 e1)
    have d2 : (taskAt tasks b).deadlineDate = (taskAt tasks c).deadlineDate :=
      le_antisymm (h4.2 e2.symm) (h3.2 e2)
    refine ⟨⟨by omega, fun _ => ?_⟩, ⟨by omega, fun _ => ?_⟩⟩
    · rw [d1, d2]
    · rw [d1, d2]

/-- C29: for every task list, the comparison that `showTasks` passes to
`std::sort` (urgency ascending, then deadlineDate ascending as strings) is a
strict weak ordering on the task indices: no index precedes itself, the
comparison is transitive, and "neither precedes the other" is transitive; two
indices are in that last relation exactly when their tasks have the same
urgency and the same deadlineDate. -/
theorem taskBefore_strict_weak_ordering (tasks : List TaskDetails) :
    (∀ a, taskBefore tasks a a = false)
      ∧ (∀ a b c, taskBefore tasks a b = true ∧ taskBefore tasks b c = true
          → taskBefore tasks a c = true)
      ∧ (∀ a b c, (taskBefore tasks a b = false ∧ taskBefore tasks b a = false)
          ∧ (taskBefore tasks b c = false ∧ taskBefore tasks c b = false)
          → (taskBefore tasks a c = false ∧ taskBefore tasks c a = false))
      ∧ (∀ a b, (taskBefore tasks a b = false ∧ taskBefore tasks b a = false)
          ↔ ((taskAt tasks a).urgency = (taskAt tasks b).urgency
              ∧ (taskAt tasks a).deadlineDate = (taskAt tasks b).deadlineDate)) := by
  obtain ⟨h1, h2, h3⟩ := taskBefore_strictWeakOrder tasks
  refine ⟨h1, fun a b c h => h2 a b c h.1 h.2, fun a b c h => h3 a b c h.1.1 h.1.2 h.2.1 h.2.2,
    ?_⟩
  intro a b
  rw [taskBefore_false_iff, taskBefore_false_iff]
  constructor
  · rintro ⟨⟨u1, d1⟩, u2, d2⟩
    have e : (taskAt tasks a).urgency = (taskAt tasks b).urgency := by omega
    exact ⟨e, le_antisymm (d2 e.symm) (d1 e)⟩
  · rintro ⟨e, d⟩
    exact ⟨⟨by omega, fun _ => by rw [d]⟩, by omega, fun _ => by rw [d]⟩

/-! ## parseDaysOfWeek: the second look-up and the empty output -/

theorem dayTokenStep_eq_tableOnly (state : List Str × Bool) (raw_token : Str) :
    dayTokenStep state raw_token = dayTokenStepTableOnly state raw_token := by
  cases hm : mapFind (toUpperStr (trimToken raw_token)) dayStandardizationMap with
  | none => rw [dayTokenStep_invalid hm]; simp [dayTokenStepTableOnly, hm]
  | some d => rw [dayTokenStep_valid hm]; simp [dayTokenStepTableOnly, hm]

theorem foldl_dayTokenStep_eq_tableOnly (tokens : List Str) :
    ∀ state : List Str × Bool,
      tokens.foldl dayTokenStep state = tokens.foldl dayTokenStepTableOnly state := by
  induction tokens with
  | nil => intro state; rfl
  | cons tok tokens ih =>
    intro state
    simp only [List.foldl_cons, dayTokenStep_eq_tableOnly, ih]

/-- C30: the second look-up of the loop body of `parseDaysOfWeek`, which
compares the trimmed token as typed with the canonical abbreviations, never
succeeds after a miss of the first one; so for every input and every list held
before, the function returns the same flag and the same output list as the
version whose loop body only looks the upper-cased token up in the table and
clears `allValid` on a miss. -/
theorem parseDaysOfWeek_fallback_dead (daysInput : Str) (daysOfWeek : List Str) :
    parseDaysOfWeek daysInput daysOfWeek = parseDaysOfWeekTableOnly daysInput daysOfWeek
      ∧ ∀ day_token : Str,
          mapFind (toUpperStr day_token) dayStandardizationMap = none →
            dayStandardizationMap.any (fun pair => decide (pair.2 = day_token)) = false := by
  refine ⟨?_, fun day_token h => foundDirectShort_false h⟩
  simp only [parseDaysOfWeek, parseDaysOfWeekTableOnly, foldl_dayTokenStep_eq_tableOnly]

/-- A successful call: every token is a key of the table and the output is
the set collected by the loop. -/
theorem parseDaysOfWeek_true {daysInput : Str} {daysOfWeek D : List Str}
    (h : parseDaysOfWeek daysInput daysOfWeek = (true, D)) :
    (∀ tok ∈ commaTokens daysInput,
        mapFind (toUpperStr (trimToken tok)) dayStandardizationMap ≠ none)
      ∧ D = ((commaTokens daysInput).foldl dayTokenStep ([], true)).1 := by
  have hv : ((commaTokens daysInput).foldl dayTokenStep ([], true)).2 = true := by
    by_contra hne
    rw [Bool.not_eq_true] at hne
    simp [parseDaysOfWeek, hne] at h
  constructor
  · intro tok htok hnone
    have := foldl_dayTokenStep_invalid (commaTokens daysInput) ([], true) ⟨tok, htok, hnone⟩
    rw [hv] at this
    exact absurd this (by simp)
  · simp [parseDaysOfWeek, hv] at h
    exact h.symm

theorem commaTokens_no_comma {daysInput : Str} (h : ',' ∉ daysInput) (hne : daysInput ≠ []) :
    commaTokens daysInput = [daysInput] := by
  have h1 : daysInput.takeWhile notComma = daysInput := by
    rw [List.takeWhile_eq_self_iff]
    intro c hc
    simp only [notComma, bne_iff_ne]
    rintro rfl
    exact h hc
  have h2 : daysInput.dropWhile notComma = [] := by
    rw [List.dropWhile_eq_nil_iff]
    intro c hc
    simp only [notComma, bne_iff_ne]
    rintro rfl
    exact h hc
  cases daysInput with
  | nil => exact absurd rfl hne
  | cons c cs =>
    have hg : getlineComma (c :: cs) = some (c :: cs, []) := by
      simp only [getlineComma, h1, h2, List.drop_nil]
    cases hl : cs.length with
    | zero => simp [commaTokens, commaTokensAux, hg, hl]
    | succ n =>
      simp only [commaTokens, List.length_cons, hl, commaTokensAux, hg]
      rfl

theorem storeNote_absent (notebooks : List Notebook) (subject : Str) (new_note : Note)
    (h : ∀ nb ∈ notebooks, nb.subject ≠ subject) :
    storeNote notebooks subject new_note = notebooks ++ [⟨subject, [new_note]⟩] := by
  induction notebooks with
  | nil => rfl
  | cons nb rest ih =>
    have h1 := h nb (by simp)
    have h2 := ih (fun x hx => h x (by simp [hx]))
    simp [storeNote, h1, h2]

theorem storeNote_present (pre : List Notebook) (nb : Notebook) (post : List Notebook)
    (subject : Str) (new_note : Note) (h : ∀ x ∈ pre, x.subject ≠ subject)
    (hs : nb.subject = subject) :
    storeNote (pre ++ nb :: post) subject new_note
      = pre ++ { nb with notes := nb.notes ++ [new_note] } :: post := by
  induction pre with
  | nil => simp [storeNote, hs]
  | cons x pre ih =>
    have h1 := h x (by simp)
    have h2 := ih (fun y hy => h y (by simp [hy]))
    simp [storeNote, h1, h2]

theorem storeNote_subjects (notebooks : List Notebook) (subject : Str) (new_note : Note) :
    (storeNote notebooks subject new_note).map (fun nb => nb.subject)
      = if subject ∈ notebooks.map (fun nb => nb.subject)
        then notebooks.map (fun nb => nb.subject)
        else notebooks.map (fun nb => nb.subject) ++ [subject] := by
  induction notebooks with
  | nil => simp [storeNote]
  | cons nb rest ih =>
    by_cases h : nb.subject = subject
    · simp [storeNote, h]
    · have h' : ¬ subject = nb.subject := fun e => h e.symm
      simp only [storeNote, h, if_false, List.map_cons, ih, List.mem_cons, h', false_or]
      split_ifs <;> simp

/-- C24: on a collection whose notebook subjects are unique, `create_new_note`
for a subject keeps them unique. If no stored notebook has the subject, one
notebook with that subject and the new note as its only note is appended to
the collection; otherwise the new note is appended at the end of the notes of
the notebook with that subject and no notebook is added. In both cases every
notebook and note stored before keeps its place and its value. The new note
is the one built from the lines typed. -/
theorem create_new_note_keeps_subjects_unique (notebooks : List Notebook)
    (subject timestamp : Str) (input : List Str)
    (hunique : (notebooks.map (fun nb => nb.subject)).Nodup) :
    ((create_new_note notebooks subject timestamp input).1.map (fun nb => nb.subject)).Nodup
      ∧ ((∀ nb ∈ notebooks, nb.subject ≠ subject) →
          (create_new_note notebooks subject timestamp input).1
            = notebooks ++ [⟨subject, [(readNewNote timestamp input).1]⟩])
      ∧ (∀ (pre post : List Notebook) (nb : Notebook),
          notebooks = pre ++ nb :: post → nb.subject = subject →
          (create_new_note notebooks subject timestamp input).1
            = pre ++ ⟨nb.subject, nb.notes ++ [(readNewNote timestamp input).1]⟩ :: post) := by
  refine ⟨?_, ?_, ?_⟩
  · simp only [create_new_note, storeNote_subjects]
    split_ifs with h
    · exact hunique
    · exact List.Nodup.append hunique (by simp) (by simpa using h)
  · intro h
    exact storeNote_absent notebooks subject _ h
  · intro pre post nb hsplit hs
    subst hsplit
    have hpre : ∀ x ∈ pre, x.subject ≠ subject := by
      intro x hx hxs
      rw [List.map_append, List.map_cons, List.nodup_append] at hunique
      exact hunique.2.2 (List.mem_map_of_mem _ hx) (by simp [hxs, hs])
    simp only [create_new_note]
    exact storeNote_present pre nb post subject _ hpre hs

/-- Witness for C24: a note for the stored subject `Chem`, typed with an empty
title and two lines of content. -/
theorem create_new_note_keeps_subjects_unique_witness :
    (sampleNotebooks.map (fun nb => nb.subject)).Nodup
      ∧ ((create_new_note sampleNotebooks "Chem".toList "ts".toList
            [[], ['a'], ['b'], "SAVE_AND_EXIT".toList]).1.map (fun nb => nb.subject)).Nodup
      ∧ (create_new_note sampleNotebooks "Chem".toList "ts".toList
            [[], ['a'], ['b'], "SAVE_AND_EXIT".toList]).1
          = sampleNotebooks.take 1
              ++ [⟨"Chem".toList, [⟨"Untitled Note".toList, "a\nb".toList, "ts".toList⟩]⟩] :=
  ⟨by decide,
    (create_new_note_keeps_subjects_unique sampleNotebooks "Chem".toList "ts".toList
      [[], ['a'], ['b'], "SAVE_AND_EXIT".toList] (by decide)).1,
    by decide⟩

/-! ## Normal study mode: the working queue -/

theorem normalWhile_active_cards (s : NormalState) :
    (normalWhile s).active_cards = s.active_cards ∧ (normalWhile s).known_count = s.known_count := by
  unfold normalWhile
  cases s.active_cards <;> simp

theorem normalAfterAnswer_active_cards (s : NormalState) :
    (normalAfterAnswer s).active_cards = s.active_cards
      ∧ (normalAfterAnswer s).known_count = s.known_count := by
  unfold normalAfterAnswer
  split_ifs
  · simp
  · exact normalWhile_active_cards s

/-- What a line does to the queue and to the count: nothing, or the front
card leaves the queue and is counted, or it goes to the back of the queue. -/
theorem normalStep_active_cards (s : NormalState) (line : Str) :
    ((normalStep s line).active_cards = s.active_cards
        ∧ (normalStep s line).known_count = s.known_count)
      ∨ (∃ c rest, s.active_cards = c :: rest
          ∧ (normalStep s line).active_cards = rest
          ∧ (normalStep s line).known_count = s.known_count + 1)
      ∨ (∃ c rest, s.active_cards = c :: rest
          ∧ (normalStep s line).active_cards = rest ++ [c]
          ∧ (normalStep s line).known_count = s.known_count) := by
  unfold normalStep
  cases hpc : s.pc with
  | returned => simp
  | emptyReturn => simp
  | start => left; simpa using normalWhile_active_cards _
  | nextCard => left; simpa using normalWhile_active_cards _
  | finalReturn => simp
  | flip =>
    cases hq : s.active_cards with
    | nil => simp [hq]
    | cons c rest => simp [hq]
  | answer =>
    cases hq : s.active_cards with
    | nil => simp [hq]
    | cons c rest =>
      simp only [hq]
      cases parseResponse line with
      | quit => simp [hq]
      | invalid => simp [hq]
      | yes =>
        right; left
        refine ⟨c, rest, rfl, ?_⟩
        simpa using normalAfterAnswer_active_cards _
      | no =>
        right; right
        refine ⟨c, rest, rfl, ?_⟩
        simpa using normalAfterAnswer_active_cards _

/-- The invariant of the working queue on a deck of `n` cards. -/
theorem queueInvariant_step {n : Nat} {s : NormalState} (line : Str)
    (h : s.active_cards.Nodup ∧ (∀ c ∈ s.active_cards, c < n)
      ∧ s.active_cards.length + s.known_count = n) :
    (normalStep s line).active_cards.Nodup ∧ (∀ c ∈ (normalStep s line).active_cards, c < n)
      ∧ (normalStep s line).active_cards.length + (normalStep s line).known_count = n := by
  obtain ⟨h1, h2, h3⟩ := h
  rcases normalStep_active_cards s line with ⟨e1, e2⟩ | ⟨c, rest, hq, e1, e2⟩ | ⟨c, rest, hq, e1, e2⟩
  · rw [e1, e2]; exact ⟨h1, h2, h3⟩
  · rw [e1, e2]
    rw [hq] at h1 h2 h3
    refine ⟨(List.nodup_cons.mp h1).2, fun x hx => h2 x (by simp [hx]), ?_⟩
    simp only [List.length_cons] at h3
    omega
  · rw [e1, e2]
    rw [hq] at h1 h2 h3
    refine ⟨?_, ?_, ?_⟩
    · have := List.nodup_cons.mp h1
      rw [List.nodup_append]
      refine ⟨this.2, by simp, ?_⟩
      intro x hx hx'
      simp only [List.mem_singleton] at hx'
      subst hx'
      exact this.1 hx
    · intro x hx
      rcases List.mem_append.mp hx with hx | hx
      · exact h2 x (by simp [hx])
      · simp only [List.mem_singleton] at hx
        exact h2 x (by simp [hx])
    · simp only [List.length_append, List.length_cons, List.length_nil] at h3 ⊢
      omega

theorem queueInvariant_foldl {n : Nat} (input : List Str) :
    ∀ s : NormalState,
      (s.active_cards.Nodup ∧ (∀ c ∈ s.active_cards, c < n)
        ∧ s.active_cards.length + s.known_count = n) →
      ((input.foldl normalStep s).active_cards.Nodup
        ∧ (∀ c ∈ (input.foldl normalStep s).active_cards, c < n)
        ∧ (input.foldl normalStep s).active_cards.length
            + (input.foldl normalStep s).known_count = n) := by
  induction input with
  | nil => intro s h; exact h
  | cons line input ih =>
    intro s h
    exact ih _ (queueInvariant_step line h)

/-- C25: at every step of a normal-mode session on a deck of n cards (after
any number of lines typed), the working queue holds no card twice, every
queued card is a card of the deck (an index below n), and the length of the
queue plus the known-count is n. -/
theorem normal_mode_queue_invariant (deck : Deck) (input : List Str) :
    (_run_normal_mode deck input).active_cards.Nodup
      ∧ (∀ c ∈ (_run_normal_mode deck input).active_cards, c < deck.cards.length)
      ∧ (_run_normal_mode deck input).active_cards.length
          + (_run_normal_mode deck input).known_count = deck.cards.length := by
  unfold _run_normal_mode
  apply queueInvariant_foldl
  unfold normalInit
  cases hc : deck.cards with
  | nil => simp
  | cons c cs =>
    simp only [List.isEmpty_cons, Bool.false_eq_true, if_false]
    exact ⟨List.nodup_range _, fun x hx => List.mem_range.mp hx, by simp⟩

/-! ## Cram study mode: the sizes of the rounds -/

theorem roundSizes_append (a b : List CramEvent) :
    roundSizes (a ++ b) = roundSizes a ++ roundSizes b := by
  induction a with
  | nil => rfl
  | cons e a ih => cases e <;> simp [roundSizes, ih]

theorem roundSizes_replicate_invalid (k : Nat) :
    roundSizes (List.replicate k CramEvent.invalidInput) = [] := by
  induction k with
  | zero => rfl
  | succ k ih => simp [List.replicate_succ, roundSizes, ih]

theorem correct_not_mem_replicate_invalid (k : Nat) :
    CramEvent.correct ∉ List.replicate k CramEvent.invalidInput := by
  intro h
  have := List.eq_of_mem_replicate h
  cases this

/-- A round played to its end hands on a sub-collection of its cards, in
their order, behind the cards collected before; it is shorter than the round
when a card was answered correct. A round announces no round. -/
theorem cramRound_next_sublist (cards : List Nat) :
    ∀ (next : List Nat) (input : List Str),
      roundSizes (cramRound cards next input).output = []
        ∧ ∀ nx, (cramRound cards next input).ending = .finished nx →
          ∃ missed, nx = next ++ missed ∧ missed.Sublist cards
            ∧ (CramEvent.correct ∈ (cramRound cards next input).output →
                missed.length < cards.length) := by
  induction cards with
  | nil =>
    intro next input
    refine ⟨by simp [cramRound, roundSizes], ?_⟩
    intro nx h
    simp [cramRound] at h
    exact ⟨[], by simp [h], List.Sublist.refl _, by simp [cramRound]⟩
  | cons c cs ih =>
    intro next input
    cases input with
    | nil => simp [cramRound, roundSizes]
    | cons l input1 =>
      obtain ⟨k, hk⟩ := readAnswer_output input1
      unfold cramRound
      simp only
      cases ha : (readAnswer input1).answer with
      | none => simp [hk, roundSizes, roundSizes_replicate_invalid]
      | some a =>
        cases a with
        | quit => simp [hk, roundSizes, roundSizes_append, roundSizes_replicate_invalid]
        | invalid => simp [hk, roundSizes, roundSizes_replicate_invalid]
        | yes =>
          simp only
          cases hp : pauseBeforeNext cs (readAnswer input1).unread with
          | none => simp [hk, roundSizes, roundSizes_append, roundSizes_replicate_invalid]
          | some input2 =>
            obtain ⟨i1, i2⟩ := ih next input2
            simp only [RoundResult.after]
            refine ⟨by simp [hk, roundSizes, roundSizes_append, roundSizes_replicate_invalid, i1],
              ?_⟩
            intro nx h
            obtain ⟨missed, m1, m2, _⟩ := i2 nx h
            refine ⟨missed, m1, List.Sublist.cons c m2, fun _ => ?_⟩
            have := m2.length_le
            simp only [List.length_cons]
            omega
        | no =>
          simp only
          cases hp : pauseBeforeNext cs (readAnswer input1).unread with
          | none => simp [hk, roundSizes, roundSizes_append, roundSizes_replicate_invalid]
          | some input2 =>
            obtain ⟨i1, i2⟩ := ih (next ++ [c]) input2
            simp only [RoundResult.after]
            refine ⟨by simp [hk, roundSizes, roundSizes_append, roundSizes_replicate_invalid, i1],
              ?_⟩
            intro nx h
            obtain ⟨missed, m1, m2, m3⟩ := i2 nx h
            refine ⟨c :: missed, by simp [m1], List.Sublist.cons₂ c m2, fun hc => ?_⟩
            have hrec : CramEvent.correct ∈ (cramRound cs (next ++ [c]) input2).output := by
              simp only [hk, List.cons_append, List.mem_cons, List.mem_append,
                List.mem_singleton, reduceCtorEq, false_or, or_false] at hc
              rcases hc with (hc | hc) | hc
              · exact absurd hc (correct_not_mem_replicate_invalid k)
              · simp at hc
              · exact hc
            have := m3 hrec
            simp only [List.length_cons]
            omega

/-- The sizes announced in a session are at most the size of the set the
loop starts from, and never increase. -/
theorem cramLoop_roundSizes (shuffle : Nat → List Nat → List Nat)
    (hperm : ∀ (round : Nat) (cards : List Nat), (shuffle round cards).Perm cards)
    (fuel : Nat) :
    ∀ (round : Nat) (cur : List Nat) (input : List Str),
      (∀ n ∈ roundSizes (cramLoop shuffle fuel round cur input).output, n ≤ cur.length)
        ∧ (roundSizes (cramLoop shuffle fuel round cur input).output).Pairwise
            (fun a b => b ≤ a) := by
  induction fuel with
  | zero =>
    intro round cur input
    cases cur with
    | nil => cases input <;> simp [cramLoop, cramFinish, roundSizes]
    | cons c cs => simp [cramLoop, roundSizes]
  | succ fuel ih =>
    intro round cur input
    cases cur with
    | nil => cases input <;> simp [cramLoop, cramFinish, roundSizes]
    | cons c cs =>
      obtain ⟨hr, hnext⟩ := cramRound_next_sublist (shuffle round (c :: cs)) [] input
      cases he : (cramRound (shuffle round (c :: cs)) [] input).ending with
      | quit => simp [cramLoop_of_quit _ he, roundSizes, hr]
      | awaiting p => simp [cramLoop_of_awaiting _ he, roundSizes, hr]
      | finished nx =>
        cases nx with
        | nil =>
          rw [cramLoop_of_finished_nil _ he]
          cases (cramRound (shuffle round (c :: cs)) [] input).unread <;>
            simp [cramFinish, CramResult.after, roundSizes, roundSizes_append, hr]
        | cons n ns =>
          rw [cramLoop_of_finished_cons _ he]
          cases hu : (cramRound (shuffle round (c :: cs)) [] input).unread with
          | nil => simp [roundSizes, roundSizes_append, hr]
          | cons l rest =>
            simp only
            by_cases hl : isQuit l = true
            · simp [hl, roundSizes, roundSizes_append, hr]
            · obtain ⟨missed, m1, m2, _⟩ := hnext (n :: ns) he
              have hlen : (n :: ns).length ≤ (c :: cs).length := by
                have := m2.length_le
                rw [(hperm round (c :: cs)).length_eq] at this
                simp only [List.nil_append] at m1
                rw [m1]
                exact this
              obtain ⟨j1, j2⟩ := ih (round + 1) (n :: ns) rest
              simp only [hl, Bool.false_eq_true, if_false, CramResult.after, List.cons_append,
                roundSizes, roundSizes_append, hr, List.nil_append, List.mem_cons,
                List.pairwise_cons]
              refine ⟨?_, ?_, j2⟩
              · rintro x (rfl | hx)
                · exact le_refl _
                · exact le_trans (j1 x hx) hlen
              · intro x hx
                exact le_trans (j1 x hx) hlen

/-- C26: with `std::shuffle` taken as any permutation of the round set, the
set that a round played to its end hands to the next round is a sub-collection
of the round just played: a sublist of the shuffled order, so it holds only
cards of the round, holds no card twice when the round does not, and is not
larger than the round; it is strictly smaller when a card of the round was
answered correct. In a whole session the sizes announced at the start of the
rounds never increase. -/
theorem cram_rounds_shrink (shuffle : Nat → List Nat → List Nat)
    (hperm : ∀ (round : Nat) (cards : List Nat), (shuffle round cards).Perm cards) :
    (∀ (round : Nat) (cards : List Nat) (input : List Str) (next : List Nat),
        (cramRound (shuffle round cards) [] input).ending = .finished next →
          next.Sublist (shuffle round cards)
            ∧ (∀ c ∈ next, c ∈ cards)
            ∧ (cards.Nodup → next.Nodup)
            ∧ next.length ≤ cards.length
            ∧ (CramEvent.correct ∈ (cramRound (shuffle round cards) [] input).output →
                next.length < cards.length))
      ∧ (∀ (deck : Deck) (input : List Str),
          (roundSizes (_run_cram_mode shuffle deck input).output).Pairwise
            (fun a b => b ≤ a)) := by
  constructor
  · intro round cards input next h
    obtain ⟨missed, m1, m2, m3⟩ := (cramRound_next_sublist (shuffle round cards) [] input).2 next h
    simp only [List.nil_append] at m1
    subst m1
    have hlen := (hperm round cards).length_eq
    refine ⟨m2, fun c hc => (hperm round cards).subset (m2.subset hc),
      fun hn => m2.nodup ((hperm round cards).nodup_iff.mpr hn), ?_, ?_⟩
    · rw [← hlen]; exact m2.length_le
    · intro hc
      rw [← hlen]
      exact m3 hc
  · intro deck input
    unfold _run_cram_mode
    split_ifs
    · cases input <;> simp [roundSizes]
    · cases input with
      | nil => simp [roundSizes]
      | cons l rest =>
        simp only [CramResult.after, List.singleton_append, roundSizes]
        exact (cramLoop_roundSizes shuffle hperm _ 0 _ rest).2

/-- Witness for C26: the shuffle that reverses the round set, on a round of
three cards with one card answered correct; two cards are handed on. -/
theorem cram_rounds_shrink_witness :
    (∀ (_ : Nat) (cards : List Nat), cards.reverse.Perm cards)
      ∧ (cramRound [0, 1, 2].reverse [] [[], ['n'], [], [], ['y'], [], [], ['n']]).ending
          = .finished [2, 0]
      ∧ [2, 0].Sublist [0, 1, 2].reverse
      ∧ [2, 0].length < [0, 1, 2].length
      ∧ roundSizes (_run_cram_mode (fun _ l => l.reverse) sampleDeck3
          [[], [], ['n'], [], [], ['y'], [], [], ['n'], [], [], ['y'], [], [], ['y']]).output
          = [3, 2] :=
  ⟨fun _ l => List.reverse_perm l, by decide,
    ((cram_rounds_shrink (fun _ l => l.reverse) (fun _ l => List.reverse_perm l)).1
      0 [0, 1, 2] [[], ['n'], [], [], ['y'], [], [], ['n']] [2, 0] (by decide)).1,
    by decide, by decide⟩

/-! ## parseDaysOfWeek on its own output -/

theorem mapFind_some_mem {key d : Str} (m : List (Str × Str)) (h : mapFind key m = some d) :
    (key, d) ∈ m := by
  induction m with
  | nil => simp [mapFind] at h
  | cons pair rest ih =>
    unfold mapFind at h
    split_ifs at h with hk
    · simp only [Option.some.injEq] at h
      rw [← hk, ← h]
      simp
    · exact List.mem_cons_of_mem _ (ih h)

/-- A value of the table is found again under its own upper-cased form; it
holds no comma and is not empty. -/
theorem canonical_day_props {key d : Str} (h : mapFind key dayStandardizationMap = some d) :
    mapFind (toUpperStr (trimToken d)) dayStandardizationMap = some d ∧ ',' ∉ d ∧ d ≠ [] := by
  have hall : ∀ pair ∈ dayStandardizationMap,
      mapFind (toUpperStr (trimToken pair.2)) dayStandardizationMap = some pair.2
        ∧ ',' ∉ pair.2 ∧ pair.2 ≠ [] := by
    decide
  exact hall (key, d) (mapFind_some_mem _ h)

theorem getlineComma_token {d : Str} (h : ',' ∉ d) (rest : Str) :
    getlineComma (d ++ ',' :: rest) = some (d, rest) := by
  have key : (d ++ ',' :: rest).takeWhile notComma = d
      ∧ (d ++ ',' :: rest).dropWhile notComma = ',' :: rest := by
    induction d with
    | nil => simp [List.takeWhile, List.dropWhile, notComma]
    | cons c d ih =>
      have hc : notComma c = true := by
        simp only [notComma, bne_iff_ne]
        exact fun hc => h (by simp [hc])
      obtain ⟨i1, i2⟩ := ih (fun hd => h (by simp [hd]))
      simp [List.takeWhile, List.dropWhile, hc, i1, i2]
  cases hd : d ++ ',' :: rest with
  | nil => simp at hd
  | cons x xs =>
    rw [← hd]
    unfold getlineComma
    rw [hd]
    simp only
    rw [← hd, key.1, key.2]
    rfl

theorem commaTokens_cons {d : Str} (h : ',' ∉ d) (rest : Str) :
    commaTokens (d ++ ',' :: rest) = d :: commaTokens rest := by
  unfold commaTokens
  have hlen : (d ++ ',' :: rest).length = (d.length + rest.length) + 1 := by
    simp only [List.length_append, List.length_cons]
    omega
  rw [hlen, commaTokensAux, getlineComma_token h]
  simp only
  rw [commaTokensAux_fuel _ rest (by omega)]

theorem commaTokens_commaJoin (D : List Str) (h : ∀ d ∈ D, ',' ∉ d ∧ d ≠ []) :
    commaTokens (commaJoin D) = D := by
  induction D with
  | nil => rfl
  | cons d rest ih =>
    obtain ⟨h1, h2⟩ := h d (by simp)
    cases rest with
    | nil => exact commaTokens_no_comma h1 h2
    | cons n ns =>
      have := ih (fun x hx => h x (by simp [hx]))
      simp only [commaJoin]
      rw [commaTokens_cons h1, this]

theorem setInsert_last (day : Str) (l : List Str) (h : ∀ x ∈ l, x < day) :
    setInsert day l = l ++ [day] := by
  induction l with
  | nil => rfl
  | cons x rest ih =>
    have hx := h x (by simp)
    have h1 : ¬ day < x := not_lt.mpr (le_of_lt hx)
    have h2 : ¬ day = x := fun e => (ne_of_lt hx) e.symm
    simp [setInsert, h1, h2, ih (fun y hy => h y (by simp [hy]))]

theorem foldl_dayTokenStep_sorted (D : List Str) :
    ∀ acc : List Str,
      (∀ d ∈ D, mapFind (toUpperStr (trimToken d)) dayStandardizationMap = some d) →
      (acc ++ D).Pairwise (fun a b => a < b) →
      D.foldl dayTokenStep (acc, true) = (acc ++ D, true) := by
  induction D with
  | nil => intro acc _ _; simp
  | cons d rest ih =>
    intro acc hmap hsorted
    have hd := hmap d (by simp)
    have hlast : ∀ x ∈ acc, x < d := by
      intro x hx
      rw [List.pairwise_append] at hsorted
      exact hsorted.2.2 x hx d (by simp)
    simp only [List.foldl_cons, dayTokenStep_valid hd, setInsert_last d acc hlast]
    have := ih (acc ++ [d]) (fun x hx => hmap x (by simp [hx])) (by simpa using hsorted)
    simpa using this

/-- C21: for every input on which `parseDaysOfWeek` returns true with the
output list D, the function applied to the comma-joined text of D returns
true with the output D again, whatever the lists held before the two calls;
`Mon,Tue` and `Mon,Tue,Mon` give the same result. -/
theorem parseDaysOfWeek_idempotent (daysInput : Str) (daysOfWeek daysOfWeek2 D : List Str)
    (h : parseDaysOfWeek daysInput daysOfWeek = (true, D)) :
    parseDaysOfWeek (commaJoin D) daysOfWeek2 = (true, D)
      ∧ parseDaysOfWeek "Mon,Tue".toList daysOfWeek
          = parseDaysOfWeek "Mon,Tue,Mon".toList daysOfWeek
      ∧ parseDaysOfWeek "Mon,Tue".toList daysOfWeek = (true, ["Mon".toList, "Tue".toList]) := by
  obtain ⟨hall, hD⟩ := parseDaysOfWeek_true h
  obtain ⟨_, hsorted, hmem⟩ := foldl_dayTokenStep_valid (commaTokens daysInput) ([], true) hall
  have hsD : D.Pairwise (fun a b => a < b) := by
    rw [hD]
    exact hsorted List.Pairwise.nil
  have hprops : ∀ d ∈ D, mapFind (toUpperStr (trimToken d)) dayStandardizationMap = some d
      ∧ ',' ∉ d ∧ d ≠ [] := by
    intro d hd
    rw [hD] at hd
    rcases (hmem d).mp hd with hd | ⟨tok, _, htok⟩
    · simp at hd
    · exact canonical_day_props htok
  have htoks := commaTokens_commaJoin D (fun d hd => (hprops d hd).2)
  have hfold := foldl_dayTokenStep_sorted D [] (fun d hd => (hprops d hd).1)
    (by simpa using hsD)
  have e1 : parseDaysOfWeek "Mon,Tue".toList [] = parseDaysOfWeek "Mon,Tue,Mon".toList [] := by
    decide
  have e2 : parseDaysOfWeek "Mon,Tue".toList [] = (true, ["Mon".toList, "Tue".toList]) := by
    decide
  refine ⟨?_, e1, e2⟩
  simp [parseDaysOfWeek, htoks, hfold]

/-- Witness for C21: the output of `tue, Mon ,TUESDAY`, joined, parses to
itself. -/
theorem parseDaysOfWeek_idempotent_witness :
    parseDaysOfWeek "tue, Mon ,TUESDAY".toList [] = (true, ["Mon".toList, "Tue".toList])
      ∧ commaJoin ["Mon".toList, "Tue".toList] = "Mon,Tue".toList
      ∧ parseDaysOfWeek (commaJoin ["Mon".toList, "Tue".toList]) ["Sun".toList]
          = (true, ["Mon".toList, "Tue".toList]) :=
  ⟨by decide, by decide,
    (parseDaysOfWeek_idempotent "tue, Mon ,TUESDAY".toList [] ["Sun".toList]
      ["Mon".toList, "Tue".toList] (by decide)).1⟩

/-! ## The task view: sorting -/

theorem strictWeakOrder_asymm {comp : Nat → Nat → Bool} (h : StrictWeakOrder comp) {a b : Nat}
    (hab : comp a b = true) : comp b a = false := by
  by_contra hne
  rw [Bool.not_eq_false] at hne
  have := h.2.1 a b a hab hne
  rw [h.1 a] at this
  cases this

theorem strictWeakOrder_neg_trans {comp : Nat → Nat → Bool} (h : StrictWeakOrder comp)
    {a b c : Nat} (hab : comp a b = false) (hbc : comp b c = false) : comp a c = false := by
  by_contra hne
  rw [Bool.not_eq_false] at hne
  have hba : comp b a = false := by
    by_contra hba
    rw [Bool.not_eq_false] at hba
    have := h.2.1 b a c hba hne
    rw [hbc] at this
    cases this
  have hcb : comp c b = false := by
    by_contra hcb
    rw [Bool.not_eq_false] at hcb
    have := h.2.1 a c b hne hcb
    rw [hab] at this
    cases this
  have := (h.2.2 a b c hab hba hbc hcb).1
  rw [hne] at this
  cases this

theorem insertBefore_perm (comp : Nat → Nat → Bool) (x : Nat) (l : List Nat) :
    (insertBefore comp x l).Perm (x :: l) := by
  induction l with
  | nil => exact List.Perm.refl _
  | cons y ys ih =>
    unfold insertBefore
    split_ifs
    · exact (List.Perm.cons y ih).trans (List.Perm.swap x y ys)
    · exact List.Perm.refl _

theorem insertBefore_sorted {comp : Nat → Nat → Bool} (h : StrictWeakOrder comp) (x : Nat)
    (l : List Nat) (hl : l.Pairwise (fun a b => comp b a = false)) :
    (insertBefore comp x l).Pairwise (fun a b => comp b a = false) := by
  induction l with
  | nil => simp [insertBefore]
  | cons y ys ih =>
    rw [List.pairwise_cons] at hl
    unfold insertBefore
    split_ifs with hyx
    · refine List.pairwise_cons.mpr ⟨?_, ih hl.2⟩
      intro z hz
      rcases List.mem_cons.mp ((insertBefore_perm comp x ys).subset hz) with rfl | hz
      · exact strictWeakOrder_asymm h hyx
      · exact hl.1 z hz
    · have hyx' : comp y x = false := by simpa using hyx
      refine List.pairwise_cons.mpr ⟨?_, List.pairwise_cons.mpr hl⟩
      intro z hz
      rcases List.mem_cons.mp hz with rfl | hz
      · exact hyx'
      · exact strictWeakOrder_neg_trans h (hl.1 z hz) hyx'

theorem stableInsertionSort_perm (comp : Nat → Nat → Bool) (l : List Nat) :
    (stableInsertionSort comp l).Perm l := by
  induction l with
  | nil => exact List.Perm.refl _
  | cons x xs ih =>
    exact (insertBefore_perm comp x _).trans (List.Perm.cons x ih)

theorem stableInsertionSort_sorted {comp : Nat → Nat → Bool} (h : StrictWeakOrder comp)
    (l : List Nat) : (stableInsertionSort comp l).Pairwise (fun a b => comp b a = false) := by
  induction l with
  | nil => simp [stableInsertionSort]
  | cons x xs ih => exact insertBefore_sorted h x _ ih

/-- Insertion sort does what `std::sort` promises. -/
theorem stableInsertionSort_contract : SortContract stableInsertionSort :=
  fun comp l h => ⟨stableInsertionSort_perm comp l, stableInsertionSort_sorted h l⟩

theorem mem_uncompletedTaskIndices (tasks : List TaskDetails) (i : Nat) :
    i ∈ uncompletedTaskIndices tasks ↔ i < tasks.length ∧ (taskAt tasks i).completed = false := by
  simp [uncompletedTaskIndices]

theorem nodup_uncompletedTaskIndices (tasks : List TaskDetails) :
    (uncompletedTaskIndices tasks).Nodup :=
  (List.nodup_range _).filter _

/-- The index sequence listed by `showTasks`, under the contract of the sort. -/
theorem showTasks_view {sort : (Nat → Nat → Bool) → List Nat → List Nat}
    (hsort : SortContract sort) (tasks : List TaskDetails) (taskNumberToMark : Option Int) :
    (showTasks sort tasks taskNumberToMark).1.Perm (uncompletedTaskIndices tasks)
      ∧ (showTasks sort tasks taskNumberToMark).1.Pairwise
          (fun a b => taskBefore tasks b a = false) := by
  obtain ⟨hp, hs⟩ := hsort (taskBefore tasks) (uncompletedTaskIndices tasks)
    (taskBefore_strictWeakOrder tasks)
  unfold showTasks
  by_cases h1 : tasks = []
  · subst h1
    simp [uncompletedTaskIndices]
  · by_cases h2 : uncompletedTaskIndices tasks = []
    · simp [h1, h2]
    · simp only [h1, h2, if_false]
      cases taskNumberToMark with
      | none => exact ⟨hp, hs⟩
      | some n =>
        simp only
        split_ifs <;> exact ⟨hp, hs⟩

theorem map_set_same {α β : Type} (f : α → β) (l : List α) :
    ∀ (i : Nat) (v : α), (∀ t, l[i]? = some t → f v = f t) → (l.set i v).map f = l.map f := by
  induction l with
  | nil => intro i v _; rfl
  | cons x xs ih =>
    intro i v h
    cases i with
    | zero =>
      have := h x (by simp)
      simp [this]
    | succ i =>
      simp only [List.set_cons_succ, List.map_cons]
      rw [ih i v (fun t ht => h t (by simpa using ht))]

theorem markCompleted_fields (tasks : List TaskDetails) (i : Nat) :
    (markCompleted tasks i).map
        (fun t => (t.name, t.subject, t.infos, t.deadlineDate, t.urgency))
      = tasks.map (fun t => (t.name, t.subject, t.infos, t.deadlineDate, t.urgency)) := by
  unfold markCompleted
  apply map_set_same
  intro t ht
  have : taskAt tasks i = t := by
    simp [taskAt, List.getD, ht]
  simp [this]

theorem showTasks_fields (sort : (Nat → Nat → Bool) → List Nat → List Nat)
    (tasks : List TaskDetails) (taskNumberToMark : Option Int) :
    (showTasks sort tasks taskNumberToMark).2.map
        (fun t => (t.name, t.subject, t.infos, t.deadlineDate, t.urgency))
      = tasks.map (fun t => (t.name, t.subject, t.infos, t.deadlineDate, t.urgency)) := by
  unfold showTasks
  split_ifs
  · rfl
  · rfl
  · cases taskNumberToMark with
    | none => rfl
    | some n =>
      simp only
      split_ifs
      · exact markCompleted_fields _ _
      · rfl

/-- C22: with `std::sort` taken as any function that meets its contract, for
every task list and every number typed, the index sequence that `showTasks`
lists is a permutation of exactly the indices of the tasks that are not
completed (each once, no completed task among them), arranged so that urgency
never decreases and, among equal urgency, deadlineDate never decreases in
string order; and the tasks stored after the call are the tasks stored before
it, in the same number and order, with the same name, subject, infos,
deadlineDate and urgency (only a `completed` flag can have been set). -/
theorem showTasks_sorted_pending_view (sort : (Nat → Nat → Bool) → List Nat → List Nat)
    (hsort : SortContract sort) (tasks : List TaskDetails) (taskNumberToMark : Option Int) :
    (showTasks sort tasks taskNumberToMark).1.Perm
        ((List.range tasks.length).filter (fun i => !(taskAt tasks i).completed))
      ∧ (showTasks sort tasks taskNumberToMark).1.Nodup
      ∧ (∀ i, i ∈ (showTasks sort tasks taskNumberToMark).1
          ↔ i < tasks.length ∧ (taskAt tasks i).completed = false)
      ∧ (showTasks sort tasks taskNumberToMark).1.Pairwise
          (fun a b => (taskAt tasks a).urgency ≤ (taskAt tasks b).urgency
            ∧ ((taskAt tasks a).urgency = (taskAt tasks b).urgency
                → (taskAt tasks a).deadlineDate ≤ (taskAt tasks b).deadlineDate))
      ∧ (showTasks sort tasks taskNumberToMark).2.length = tasks.length
      ∧ (showTasks sort tasks taskNumberToMark).2.map
            (fun t => (t.name, t.subject, t.infos, t.deadlineDate, t.urgency))
          = tasks.map (fun t => (t.name, t.subject, t.infos, t.deadlineDate, t.urgency)) := by
  obtain ⟨hp, hs⟩ := showTasks_view hsort tasks taskNumberToMark
  have hf := showTasks_fields sort tasks taskNumberToMark
  refine ⟨hp, hp.nodup_iff.mpr (nodup_uncompletedTaskIndices tasks), ?_, ?_, ?_, hf⟩
  · intro i
    rw [hp.mem_iff, mem_uncompletedTaskIndices]
  · refine hs.imp (fun {a b} hab => ?_)
    rw [taskBefore_false_iff] at hab
    exact ⟨hab.1, fun he => hab.2 he.symm⟩
  · have := congrArg List.length hf
    simpa using this

/-- Witness for C22: insertion sort on five tasks, one of them completed. -/
theorem showTasks_sorted_pending_view_witness :
    SortContract stableInsertionSort
      ∧ (showTasks stableInsertionSort sampleTaskList (some 2)).1 = [2, 4, 0, 3]
      ∧ (showTasks stableInsertionSort sampleTaskList (some 2)).1.Perm
          ((List.range sampleTaskList.length).filter
            (fun i => !(taskAt sampleTaskList i).completed)) :=
  ⟨stableInsertionSort_contract, by decide,
    (showTasks_sorted_pending_view stableInsertionSort stableInsertionSort_contract
      sampleTaskList (some 2)).1⟩

/-- With any sort that meets the contract of `std::sort`, two pending tasks
with equal urgency and equal deadlineDate both appear in the view, each once,
and every task listed between them has that same urgency and deadlineDate. -/
theorem showTasks_ties_adjacent (sort : (Nat → Nat → Bool) → List Nat → List Nat)
    (hsort : SortContract sort) (tasks : List TaskDetails) (taskNumberToMark : Option Int)
    (i j : Nat) (hi : i < tasks.length) (hj : j < tasks.length)
    (hpi : (taskAt tasks i).completed = false) (hpj : (taskAt tasks j).completed = false)
    (hu : (taskAt tasks i).urgency = (taskAt tasks j).urgency)
    (hd : (taskAt tasks i).deadlineDate = (taskAt tasks j).deadlineDate) :
    (showTasks sort tasks taskNumberToMark).1.count i = 1
      ∧ (showTasks sort tasks taskNumberToMark).1.count j = 1
      ∧ ∀ x y z, [x, y, z].Sublist (showTasks sort tasks taskNumberToMark).1 →
          ((x = i ∧ z = j) ∨ (x = j ∧ z = i)) →
          (taskAt tasks y).urgency = (taskAt tasks i).urgency
            ∧ (taskAt tasks y).deadlineDate = (taskAt tasks i).deadlineDate := by
  obtain ⟨hp, hs⟩ := showTasks_view hsort tasks taskNumberToMark
  have hnd : (showTasks sort tasks taskNumberToMark).1.Nodup :=
    hp.nodup_iff.mpr (nodup_uncompletedTaskIndices tasks)
  have hmi : i ∈ (showTasks sort tasks taskNumberToMark).1 :=
    hp.mem_iff.mpr ((mem_uncompletedTaskIndices tasks i).mpr ⟨hi, hpi⟩)
  have hmj : j ∈ (showTasks sort tasks taskNumberToMark).1 :=
    hp.mem_iff.mpr ((mem_uncompletedTaskIndices tasks j).mpr ⟨hj, hpj⟩)
  refine ⟨List.count_eq_one_of_mem hnd hmi, List.count_eq_one_of_mem hnd hmj, ?_⟩
  intro x y z hsub hxz
  have hpw := hs.sublist hsub
  simp only [List.pairwise_cons, List.mem_cons, List.mem_singleton, List.not_mem_nil,
    forall_eq_or_imp, forall_eq, or_false, IsEmpty.forall_iff, implies_true,
    List.Pairwise.nil, and_true] at hpw
  obtain ⟨⟨hxy, _⟩, hyz⟩ := hpw
  rw [taskBefore_false_iff] at hxy hyz
  have hkeys : (taskAt tasks x).urgency = (taskAt tasks z).urgency
      ∧ (taskAt tasks x).deadlineDate = (taskAt tasks z).deadlineDate
      ∧ (taskAt tasks x).urgency = (taskAt tasks i).urgency
      ∧ (taskAt tasks x).deadlineDate = (taskAt tasks i).deadlineDate := by
    rcases hxz with ⟨rfl, rfl⟩ | ⟨rfl, rfl⟩
    · exact ⟨hu, hd, rfl, rfl⟩
    · exact ⟨hu.symm, hd.symm, hu.symm, hd.symm⟩
  obtain ⟨k1, k2, k3, k4⟩ := hkeys
  have e1 : (taskAt tasks y).urgency = (taskAt tasks x).urgency := by omega
  have e2 : (taskAt tasks y).deadlineDate = (taskAt tasks x).deadlineDate := by
    apply le_antisymm
    · have := hyz.2 (by omega)
      rw [k2]
      exact this
    · exact hxy.2 e1
  exact ⟨e1.trans k3, e2.trans k4⟩

/-! ## timeToMinutes: the order on accepted strings -/

/-- C18 fails on the code: `isValidTimeFormat` accepts `09:30`, two spaces,
`AM`, for which `timeToMinutes` returns -1; so this string comes before
`12:00 AM` (minute 0), the earliest time of the day, and it has the same value
as `10:30`, a tab, `PM`, which is another time. On the strings with one
space the order holds (`timeToMinutes_wall_clock_order`). -/
theorem timeToMinutes_order_broken_on_accepted_strings :
    isValidTimeFormat "09:30  AM".toList = true
      ∧ isValidTimeFormat "12:00 AM".toList = true
      ∧ isValidTimeFormat "10:30\tPM".toList = true
      ∧ timeToMinutes "12:00 AM".toList = 0
      ∧ timeToMinutes "09:30  AM".toList = -1
      ∧ timeToMinutes "09:30  AM".toList < timeToMinutes "12:00 AM".toList
      ∧ timeToMinutes "09:30  AM".toList = timeToMinutes "10:30\tPM".toList := by
  decide

/-! ## parseDaysOfWeek: fields and tokens -/

theorem commaSeparatedFields_ne_nil (s : Str) : commaSeparatedFields s ≠ [] := by
  cases s with
  | nil => simp [commaSeparatedFields]
  | cons c cs =>
    unfold commaSeparatedFields
    split_ifs
    · simp
    · cases commaSeparatedFields cs <;> simp

theorem commaSeparatedFields_no_comma {s : Str} (h : ',' ∉ s) : commaSeparatedFields s = [s] := by
  induction s with
  | nil => rfl
  | cons c cs ih =>
    have hc : c ≠ ',' := fun e => h (by simp [e])
    have := ih (fun hm => h (by simp [hm]))
    simp [commaSeparatedFields, hc, this]

theorem commaSeparatedFields_cons {d : Str} (h : ',' ∉ d) (rest : Str) :
    commaSeparatedFields (d ++ ',' :: rest) = d :: commaSeparatedFields rest := by
  induction d with
  | nil => simp [commaSeparatedFields]
  | cons c cs ih =>
    have hc : c ≠ ',' := fun e => h (by simp [e])
    have := ih (fun hm => h (by simp [hm]))
    simp [commaSeparatedFields, hc, this]

theorem split_at_first_comma (s : Str) :
    ',' ∉ s ∨ ∃ d rest, s = d ++ ',' :: rest ∧ ',' ∉ d := by
  induction s with
  | nil => left; simp
  | cons c cs ih =>
    by_cases hc : c = ','
    · right
      exact ⟨[], cs, by simp [hc], by simp⟩
    · rcases ih with h | ⟨d, rest, hs, hd⟩
      · left
        intro hm
        rcases List.mem_cons.mp hm with e | hm
        · exact hc e.symm
        · exact h hm
      · right
        refine ⟨c :: d, rest, by simp [hs], ?_⟩
        intro hm
        rcases List.mem_cons.mp hm with e | hm
        · exact hc e.symm
        · exact hd hm

theorem withoutEmptyLast_cons (d : Str) {fields : List Str} (h : fields ≠ []) :
    withoutEmptyLast (d :: fields) = d :: withoutEmptyLast fields := by
  obtain ⟨f, fs, rfl⟩ := List.exists_cons_of_ne_nil h
  unfold withoutEmptyLast
  simp only [List.getLast?_cons_cons, List.dropLast_cons₂]
  split_ifs <;> rfl

/-- The tokens read by the loop of `parseDaysOfWeek` are the comma-separated
fields of the input, without the last field when it is empty. -/
theorem commaTokens_eq_fields (n : Nat) :
    ∀ s : Str, s.length ≤ n → commaTokens s = withoutEmptyLast (commaSeparatedFields s) := by
  induction n with
  | zero =>
    intro s hs
    have : s = [] := List.length_eq_zero.mp (by omega)
    subst this
    decide
  | succ n ih =>
    intro s hs
    by_cases hnil : s = []
    · subst hnil
      decide
    · rcases split_at_first_comma s with h | ⟨d, rest, rfl, hd⟩
      · rw [commaTokens_no_comma h hnil, commaSeparatedFields_no_comma h]
        simp [withoutEmptyLast, hnil]
      · have hlen : rest.length ≤ n := by
          simp only [List.length_append, List.length_cons] at hs
          omega
        rw [commaTokens_cons hd, commaSeparatedFields_cons hd,
          withoutEmptyLast_cons d (commaSeparatedFields_ne_nil rest), ih rest hlen]

/-- C20 as stated fails: the text after the last comma of `Mon,` is an empty
field, which is not in the weekday table, and `parseDaysOfWeek` returns true
with the list `Mon`. -/
theorem parseDaysOfWeek_trailing_comma_accepted :
    commaSeparatedFields "Mon,".toList = ["Mon".toList, []]
      ∧ mapFind (toUpperStr (trimToken [])) dayStandardizationMap = none
      ∧ parseDaysOfWeek "Mon,".toList ["Sun".toList] = (true, ["Mon".toList]) := by
  decide

/-- C20, amended: for every input in which at least one comma-separated field,
other than an empty field after the last comma, is after trimming not in the
weekday table, `parseDaysOfWeek` returns false and leaves the output list
empty, whatever the other fields are and whatever the list held before the
call; `Mon,Bogus` fails entirely. An empty field after the last comma is not
read: the tokens of the loop are the fields without it, `Mon,` is accepted
with the list `Mon`, and the empty input with the empty list. -/
theorem parseDaysOfWeek_invalid_field (daysInput : Str) (daysOfWeek : List Str)
    (h : ∃ field ∈ withoutEmptyLast (commaSeparatedFields daysInput),
      mapFind (toUpperStr (trimToken field)) dayStandardizationMap = none) :
    parseDaysOfWeek daysInput daysOfWeek = (false, [])
      ∧ commaTokens daysInput = withoutEmptyLast (commaSeparatedFields daysInput)
      ∧ parseDaysOfWeek "Mon,Bogus".toList daysOfWeek = (false, [])
      ∧ parseDaysOfWeek "Mon,".toList daysOfWeek = (true, ["Mon".toList])
      ∧ parseDaysOfWeek [] daysOfWeek = (true, []) := by
  have htok := commaTokens_eq_fields daysInput.length daysInput (le_refl _)
  rw [← htok] at h
  have hf := foldl_dayTokenStep_invalid (commaTokens daysInput) ([], true) h
  have e1 : parseDaysOfWeek "Mon,Bogus".toList [] = (false, []) := by decide
  have e2 : parseDaysOfWeek "Mon,".toList [] = (true, ["Mon".toList]) := by decide
  have e3 : parseDaysOfWeek [] [] = (true, []) := by decide
  refine ⟨?_, htok, e1, e2, e3⟩
  simp [parseDaysOfWeek, hf]

/-- Witness for C20, amended: a valid field, an empty field and a valid field,
with a list held before the call. -/
theorem parseDaysOfWeek_invalid_field_witness :
    (∃ field ∈ withoutEmptyLast (commaSeparatedFields "Mon,,Tue".toList),
        mapFind (toUpperStr (trimToken field)) dayStandardizationMap = none)
      ∧ parseDaysOfWeek "Mon,,Tue".toList ["Sun".toList] = (false, []) :=
  ⟨by decide,
    (parseDaysOfWeek_invalid_field "Mon,,Tue".toList ["Sun".toList] (by decide)).1⟩

/-! ## The task view: the sort of the library and the order of ties -/

theorem unguardedLinearInsert_eq (comp : Nat → Nat → Bool) (val : Nat) (sorted : List Nat) :
    unguardedLinearInsert comp val sorted
      = sorted.takeWhile (comp val) ++ val :: sorted.dropWhile (comp val) := by
  induction sorted with
  | nil => rfl
  | cons next before ih =>
    by_cases h : comp val next = true
    · simp [unguardedLinearInsert, h, ih]
    · simp [unguardedLinearInsert, h]

theorem pair_sublist_append_singleton {a b val : Nat} {p : List Nat}
    (h : [a, b].Sublist (p ++ [val])) : [a, b].Sublist p ∨ (a ∈ p ∧ b = val) := by
  rw [List.sublist_append_iff] at h
  obtain ⟨l1, l2, hl, h1, h2⟩ := h
  rcases l2 with _ | ⟨x, l2⟩
  · left
    simp only [List.append_nil] at hl
    rw [hl]
    exact h1
  · have hlen := h2.length_le
    simp only [List.length_cons, List.length_nil] at hlen
    have hl2 : l2 = [] := by
      cases l2 with
      | nil => rfl
      | cons y ys => simp at hlen
    subst hl2
    have hx : x = val := by simpa using h2
    subst hx
    rcases l1 with _ | ⟨y, l1⟩
    · simp at hl
    · simp only [List.cons_append, List.cons.injEq] at hl
      obtain ⟨rfl, hl⟩ := hl
      have : l1 = [] ∧ b = x := by
        cases l1 with
        | nil => simpa using hl
        | cons z zs => simp at hl
      obtain ⟨rfl, rfl⟩ := this
      right
      exact ⟨by simpa using h1, rfl⟩

/-- The invariant of the insertion loops: the elements sorted so far, held
last one first, are those of the part `p` of the range read so far, in
descending order, with tied elements in the reverse of their order in `p`. -/
theorem insertion_invariant_linear {comp : Nat → Nat → Bool} (hc : StrictWeakOrder comp)
    {p sorted : List Nat} (val : Nat)
    (h1 : sorted.Perm p) (h2 : sorted.Pairwise (fun x y => comp x y = false))
    (h3 : ∀ a b, [a, b].Sublist p → comp a b = false → comp b a = false → [b, a].Sublist sorted) :
    (unguardedLinearInsert comp val sorted).Perm (p ++ [val])
      ∧ (unguardedLinearInsert comp val sorted).Pairwise (fun x y => comp x y = false)
      ∧ ∀ a b, [a, b].Sublist (p ++ [val]) → comp a b = false → comp b a = false →
          [b, a].Sublist (unguardedLinearInsert comp val sorted) := by
  rw [unguardedLinearInsert_eq]
  have hsplit : sorted.takeWhile (comp val) ++ sorted.dropWhile (comp val) = sorted :=
    List.takeWhile_append_dropWhile _ _
  have hT : ∀ t ∈ sorted.takeWhile (comp val), comp val t = true :=
    fun t ht => List.mem_takeWhile_imp ht
  have h2' := h2
  rw [← hsplit, List.pairwise_append] at h2'
  obtain ⟨pT, pD, pTD⟩ := h2'
  have hD : ∀ d ∈ sorted.dropWhile (comp val), comp val d = false := by
    intro d hd
    cases hdw : sorted.dropWhile (comp val) with
    | nil => rw [hdw] at hd; cases hd
    | cons d0 ds =>
      have hd0 : comp val d0 = false := by
        have := @List.head_dropWhile_not _ (comp val) sorted (by rw [hdw]; simp)
        simpa [hdw] using this
      rw [hdw] at hd pD
      rcases List.mem_cons.mp hd with rfl | hd
      · exact hd0
      · exact strictWeakOrder_neg_trans hc hd0 ((List.pairwise_cons.mp pD).1 d hd)
  refine ⟨?_, ?_, ?_⟩
  · refine (List.perm_middle).trans ?_
    rw [hsplit]
    exact ((List.Perm.cons val h1).trans (List.perm_append_singleton val p).symm)
  · rw [List.pairwise_append]
    refine ⟨pT, List.pairwise_cons.mpr ⟨hD, pD⟩, ?_⟩
    intro t ht y hy
    rcases List.mem_cons.mp hy with rfl | hy
    · exact strictWeakOrder_asymm hc (hT t ht)
    · exact pTD t ht y hy
  · intro a b hab t1 t2
    rcases pair_sublist_append_singleton hab with hp | ⟨ha, rfl⟩
    · have := h3 a b hp t1 t2
      rw [← hsplit] at this
      exact this.trans (List.Sublist.append (List.Sublist.refl _) (List.sublist_cons_self _ _))
    · have ha' : a ∈ sorted := h1.mem_iff.mpr ha
      rw [← hsplit, List.mem_append] at ha'
      rcases ha' with ha' | ha'
      · have := hT a ha'
        rw [t2] at this
        cases this
      · exact (List.Sublist.cons₂ b (List.singleton_sublist.mpr ha')).trans
          (List.sublist_append_right _ _)

theorem insertion_invariant_step {comp : Nat → Nat → Bool} (hc : StrictWeakOrder comp)
    {p sorted : List Nat} (val : Nat)
    (h1 : sorted.Perm p) (h2 : sorted.Pairwise (fun x y => comp x y = false))
    (h3 : ∀ a b, [a, b].Sublist p → comp a b = false → comp b a = false → [b, a].Sublist sorted) :
    (insertionStep comp sorted val).Perm (p ++ [val])
      ∧ (insertionStep comp sorted val).Pairwise (fun x y => comp x y = false)
      ∧ ∀ a b, [a, b].Sublist (p ++ [val]) → comp a b = false → comp b a = false →
          [b, a].Sublist (insertionStep comp sorted val) := by
  unfold insertionStep
  cases hl : sorted.getLast? with
  | none =>
    have hs : sorted = [] := List.getLast?_eq_none_iff.mp hl
    subst hs
    have hp : p = [] := by simpa using h1.symm
    subst hp
    refine ⟨by simp, by simp, ?_⟩
    intro a b hab
    have := hab.length_le
    simp at this
  | some first =>
    simp only
    by_cases hf : comp val first = true
    · simp only [hf, if_true]
      obtain ⟨init, hinit⟩ : ∃ init, sorted = init ++ [first] := by
        rw [List.getLast?_eq_some_iff] at hl
        exact hl
      have hfirst : ∀ x ∈ sorted, comp x first = false := by
        intro x hx
        rw [hinit] at hx h2
        rw [List.pairwise_append] at h2
        rcases List.mem_append.mp hx with hx | hx
        · exact h2.2.2 x hx first (by simp)
        · simp only [List.mem_singleton] at hx
          rw [hx]
          exact hc.1 first
      have hval : ∀ x ∈ sorted, comp x val = false := by
        intro x hx
        by_contra hne
        rw [Bool.not_eq_false] at hne
        have := hc.2.1 x val first hne hf
        rw [hfirst x hx] at this
        cases this
      refine ⟨List.Perm.append h1 (List.Perm.refl _), ?_, ?_⟩
      · rw [List.pairwise_append]
        refine ⟨h2, by simp, ?_⟩
        intro x hx y hy
        simp only [List.mem_singleton] at hy
        rw [hy]
        exact hval x hx
      · intro a b hab t1 t2
        rcases pair_sublist_append_singleton hab with hp | ⟨ha, rfl⟩
        · exact (h3 a b hp t1 t2).trans (List.sublist_append_left _ _)
        · have ha' : a ∈ sorted := h1.mem_iff.mpr ha
          have := strictWeakOrder_neg_trans hc t2 (hfirst a ha')
          rw [hf] at this
          cases this
    · simp only [hf, Bool.false_eq_true, if_false]
      exact insertion_invariant_linear hc val h1 h2 h3

theorem insertion_invariant_foldl {comp : Nat → Nat → Bool} (hc : StrictWeakOrder comp)
    (v : List Nat) :
    ∀ (p sorted : List Nat), sorted.Perm p → sorted.Pairwise (fun x y => comp x y = false) →
      (∀ a b, [a, b].Sublist p → comp a b = false → comp b a = false → [b, a].Sublist sorted) →
      (v.foldl (insertionStep comp) sorted).Perm (p ++ v)
        ∧ (v.foldl (insertionStep comp) sorted).Pairwise (fun x y => comp x y = false)
        ∧ ∀ a b, [a, b].Sublist (p ++ v) → comp a b = false → comp b a = false →
            [b, a].Sublist (v.foldl (insertionStep comp) sorted) := by
  induction v with
  | nil => intro p sorted h1 h2 h3; simpa using ⟨h1, h2, h3⟩
  | cons val v ih =>
    intro p sorted h1 h2 h3
    obtain ⟨s1, s2, s3⟩ := insertion_invariant_step hc val h1 h2 h3
    have := ih (p ++ [val]) _ s1 s2 s3
    simpa using this

theorem introsortLoop_short (comp : Nat → Nat → Bool) (depth_limit : Nat) (v : List Nat)
    (h : v.length ≤ 16) : introsortLoop comp depth_limit v 0 v.length = v := by
  have : ¬ v.length - 0 > 16 := by omega
  cases depth_limit <;> simp only [introsortLoop, this, if_false]

/-- On a range of at most 16 elements the sort of the library is its
insertion sort: the result is sorted, holds the same elements, and keeps tied
elements in their order. -/
theorem libstdcxxSort_short {comp : Nat → Nat → Bool} (hc : StrictWeakOrder comp)
    (v : List Nat) (h : v.length ≤ 16) :
    (libstdcxxSort comp v).Perm v
      ∧ (libstdcxxSort comp v).Pairwise (fun a b => comp b a = false)
      ∧ ∀ a b, [a, b].Sublist v → comp a b = false → comp b a = false →
          [a, b].Sublist (libstdcxxSort comp v) := by
  have hs : libstdcxxSort comp v = (v.foldl (insertionStep comp) []).reverse := by
    unfold libstdcxxSort
    by_cases hv : v = []
    · simp [hv]
    · have hlen : ¬ v.length > 16 := by omega
      simp only [hv, if_false, introsortLoop_short comp _ v h, finalInsertionSort, hlen]
  obtain ⟨s1, s2, s3⟩ := insertion_invariant_foldl hc v [] [] (List.Perm.refl _)
    List.Pairwise.nil (fun a b hab => by have := hab.length_le; simp at this)
  simp only [List.nil_append] at s1 s3
  rw [hs]
  refine ⟨(List.reverse_perm _).trans s1, List.pairwise_reverse.mpr s2, ?_⟩
  intro a b hab t1 t2
  have := s3 a b hab t1 t2
  have hr := List.reverse_sublist.mpr this
  simpa using hr

theorem pair_sublist_of_sorted {l : List Nat} (hl : l.Pairwise (fun a b => a < b)) {i j : Nat}
    (hi : i ∈ l) (hj : j ∈ l) (hij : i < j) : [i, j].Sublist l := by
  induction l with
  | nil => cases hi
  | cons x xs ih =>
    rw [List.pairwise_cons] at hl
    rcases List.mem_cons.mp hi with hix | hi'
    · rcases List.mem_cons.mp hj with hjx | hj'
      · omega
      · rw [hix]
        exact List.Sublist.cons₂ _ (List.singleton_sublist.mpr hj')
    · rcases List.mem_cons.mp hj with hjx | hj'
      · have := hl.1 i hi'
        omega
      · exact (ih hl.2 hi' hj').cons _

theorem sorted_uncompletedTaskIndices (tasks : List TaskDetails) :
    (uncompletedTaskIndices tasks).Pairwise (fun a b => a < b) :=
  List.Pairwise.sublist (List.filter_sublist _) (List.pairwise_lt_range _)

theorem showTasks_view_of_pending (sort : (Nat → Nat → Bool) → List Nat → List Nat)
    (tasks : List TaskDetails) (taskNumberToMark : Option Int) {i : Nat}
    (hi : i ∈ uncompletedTaskIndices tasks) :
    (showTasks sort tasks taskNumberToMark).1
      = sort (taskBefore tasks) (uncompletedTaskIndices tasks) := by
  have h2 : uncompletedTaskIndices tasks ≠ [] := List.ne_nil_of_mem hi
  have h1 : tasks ≠ [] := by
    rintro rfl
    simp [uncompletedTaskIndices] at hi
  unfold showTasks
  simp only [h1, h2, if_false]
  cases taskNumberToMark with
  | none => rfl
  | some n =>
    simp only
    split_ifs <;> rfl

/-- C23 as stated fails: seventeen pending tasks with the same urgency and the
same deadlineDate are listed by `showTasks`, with the `std::sort` of the
library, in the order 8, 16, 15, ..., 9, 0, 7, ..., 1, which is not the order
in which they are stored. -/
theorem showTasks_seventeen_ties_reordered :
    seventeenTiedTasks.length = 17
      ∧ (∀ t ∈ seventeenTiedTasks,
          t.completed = false ∧ t.urgency = 2 ∧ t.deadlineDate = "2024-05-01".toList)
      ∧ (showTasks libstdcxxSort seventeenTiedTasks none).1
          = [8, 16, 15, 14, 13, 12, 11, 10, 9, 0, 7, 6, 5, 4, 3, 2, 1] := by
  decide

/-- C23, amended: with the `std::sort` of the library, when at most 16 tasks
are pending, two pending tasks with equal urgency and equal deadlineDate
appear in the view in the order in which they are stored; and with any sort
that meets the contract of `std::sort`, whatever the number of pending tasks,
both appear in the view, each once, and every task listed between them has
that same urgency and deadlineDate. -/
theorem showTasks_ties_stable_up_to_16 (tasks : List TaskDetails)
    (taskNumberToMark : Option Int) (i j : Nat) (hij : i < j) (hj : j < tasks.length)
    (hpi : (taskAt tasks i).completed = false) (hpj : (taskAt tasks j).completed = false)
    (hu : (taskAt tasks i).urgency = (taskAt tasks j).urgency)
    (hd : (taskAt tasks i).deadlineDate = (taskAt tasks j).deadlineDate) :
    ((uncompletedTaskIndices tasks).length ≤ 16 →
        [i, j].Sublist (showTasks libstdcxxSort tasks taskNumberToMark).1)
      ∧ ∀ sort : (Nat → Nat → Bool) → List Nat → List Nat, SortContract sort →
          (showTasks sort tasks taskNumberToMark).1.count i = 1
            ∧ (showTasks sort tasks taskNumberToMark).1.count j = 1
            ∧ ∀ x y z, [x, y, z].Sublist (showTasks sort tasks taskNumberToMark).1 →
                ((x = i ∧ z = j) ∨ (x = j ∧ z = i)) →
                (taskAt tasks y).urgency = (taskAt tasks i).urgency
                  ∧ (taskAt tasks y).deadlineDate = (taskAt tasks i).deadlineDate := by
  have hmi : i ∈ uncompletedTaskIndices tasks :=
    (mem_uncompletedTaskIndices tasks i).mpr ⟨by omega, hpi⟩
  have hmj : j ∈ uncompletedTaskIndices tasks :=
    (mem_uncompletedTaskIndices tasks j).mpr ⟨hj, hpj⟩
  constructor
  · intro hlen
    rw [showTasks_view_of_pending libstdcxxSort tasks taskNumberToMark hmi]
    have hsub := pair_sublist_of_sorted (sorted_uncompletedTaskIndices tasks) hmi hmj hij
    have htie : taskBefore tasks i j = false ∧ taskBefore tasks j i = false := by
      rw [taskBefore_false_iff, taskBefore_false_iff]
      exact ⟨⟨by omega, fun _ => by rw [hd]⟩, by omega, fun _ => by rw [hd]⟩
    exact (libstdcxxSort_short (taskBefore_strictWeakOrder tasks) _ hlen).2.2 i j hsub
      htie.1 htie.2
  · intro sort hsort
    exact showTasks_ties_adjacent sort hsort tasks taskNumberToMark i j (by omega) hj hpi hpj
      hu hd

/-- Witness for C23, amended: five tasks, four of them pending; the tasks at
the indices 0 and 3 have the same urgency and deadline and are listed in that
order. -/
theorem showTasks_ties_stable_up_to_16_witness :
    (uncompletedTaskIndices sampleTaskList).length ≤ 16
      ∧ (showTasks libstdcxxSort sampleTaskList none).1 = [2, 4, 0, 3]
      ∧ [0, 3].Sublist (showTasks libstdcxxSort sampleTaskList none).1 :=
  ⟨by decide, by decide,
    (showTasks_ties_stable_up_to_16 sampleTaskList none 0 3 (by decide) (by decide) (by decide)
      (by decide) (by decide) (by decide)).1 (by decide)⟩

end Iskaalaman
